import Mathlib

/-!
The get-sli handler of sumologic-service and its query pipeline.

A shallow embedding of `eventhandlers.go` (`processQuery`, `replaceQueryParameters`,
`getDurationInSeconds`, `parseUnixTimestamp`, `HandleGetSliTriggeredEvent`) together with the
pieces of the Go standard library those functions call, followed by theorems about them.

Conventions.
* A Go `string` is a list of Unicode code points (`GoString`); the text handled here is
  well-formed UTF-8, on which byte-wise and rune-wise operations of the code agree.
* A Go function that can panic returns a `Run`: either the values it returned or the panic.
* `int64` values are integers; where the Go arithmetic can wrap, `wrap64` is applied.
-/

namespace Sumologic

/-! ## Strings -/

/-- A Go string as its sequence of code points. -/
abbrev GoString := List Char

/-- Result of running Go code that may panic. -/
inductive Run (α : Type) where
  | returned (a : α)
  | panicked (msg : String)
  deriving DecidableEq, Repr

/-- Scanner behind `strings.Replace(s, old, new, -1)` and `strings.ReplaceAll`: the first
argument counts the characters of an occurrence of `old` that are still to be skipped. With
an empty `old` the replacement is inserted before every code point and at the end. -/
def replaceFrom (old new : GoString) : Nat → GoString → GoString
  | 0, [] => if old = [] then new else []
  | _ + 1, [] => []
  | k + 1, _ :: cs => replaceFrom old new k cs
  | 0, c :: cs =>
    if old.isPrefixOf (c :: cs) then
      if old = [] then new ++ c :: replaceFrom old new 0 cs
      else new ++ replaceFrom old new (old.length - 1) cs
    else c :: replaceFrom old new 0 cs

/-- Go `strings.ReplaceAll(s, old, new)`, which is `strings.Replace(s, old, new, -1)`: every
non-overlapping occurrence of `old`, found from the left, is replaced by `new`. -/
def stringsReplaceAll (s old new : GoString) : GoString :=
  replaceFrom old new 0 s

/-- Go `unicode.IsSpace`. -/
def isSpace (c : Char) : Bool :=
  c = '\t' || c = '\n' || c = '\x0b' || c = '\x0c' || c = '\r' || c = ' ' ||
  c.toNat = 0x85 || c.toNat = 0xA0 || c.toNat = 0x1680 ||
  (0x2000 ≤ c.toNat && c.toNat ≤ 0x200a) ||
  c.toNat = 0x2028 || c.toNat = 0x2029 || c.toNat = 0x202f || c.toNat = 0x205f ||
  c.toNat = 0x3000

/-- Go `strings.TrimSpace`: leading and trailing white space removed. -/
def stringsTrimSpace (s : GoString) : GoString :=
  ((s.dropWhile isSpace).reverse.dropWhile isSpace).reverse

/-- Go `cases.Title(language.English).String` on one word of ASCII letters, the only input
`processQuery` hands it (capture group 2 is `[a-z]+`): first letter upper case, the others
lower case. -/
def casesTitle : GoString → GoString
  | [] => []
  | c :: cs => c.toUpper :: cs.map Char.toLower

/-! ## Regular expressions (Go `regexp`, leftmost-first semantics) -/

/-- The fragment of Go regular-expression syntax used by `processQuery`. Repetition is
applied to character classes only, as in the two patterns of the source. -/
inductive Regex where
  | lit (w : GoString)
  | cls (p : Char → Bool)
  | star (p : Char → Bool)
  | plus (p : Char → Bool)
  | opt (r : Regex)
  | cat (a b : Regex)
  | group (r : Regex)

/-- Greedy `p*` followed by the continuation `k`: the longest run is tried first, then the
shorter ones, the order of a backtracking (leftmost-first) matcher. -/
def starRun {α : Type} (p : Char → Bool) (k : GoString → Option α) : GoString → Option α
  | [] => k []
  | c :: cs =>
    if p c then
      match starRun p k cs with
      | some x => some x
      | none => k (c :: cs)
    else k (c :: cs)

/-- Backtracking matcher in continuation-passing style. `run r s caps k` matches `r` at the
start of `s` and hands the rest of the input and the capture groups closed so far to `k`;
alternatives are tried in priority order (greedy first) until `k` accepts. -/
def Regex.run {α : Type} : Regex → GoString → List GoString →
    (GoString → List GoString → Option α) → Option α
  | .lit w, s, caps, k => if w.isPrefixOf s then k (s.drop w.length) caps else none
  | .cls _, [], _, _ => none
  | .cls p, c :: cs, caps, k => if p c then k cs caps else none
  | .star p, s, caps, k => starRun p (fun rest => k rest caps) s
  | .plus _, [], _, _ => none
  | .plus p, c :: cs, caps, k => if p c then starRun p (fun rest => k rest caps) cs else none
  | .opt r, s, caps, k =>
    match r.run s caps k with
    | some x => some x
    | none => k s caps
  | .cat a b, s, caps, k => a.run s caps (fun rest caps1 => b.run rest caps1 k)
  | .group r, s, caps, k =>
    r.run s caps (fun rest caps1 => k rest (caps1 ++ [s.take (s.length - rest.length)]))

/-- The match of `r` anchored at the start of `s`: the matched text and the submatches. -/
def Regex.matchAt (r : Regex) (s : GoString) : Option (GoString × List GoString) :=
  r.run s [] (fun rest caps => some (s.take (s.length - rest.length), caps))

/-- Successive non-overlapping matches, as Go `allMatches` delivers them: each entry is the
matched text followed by its submatches. The counter is the number of characters of the
last match still to be skipped; the flag records that the position is the end of the
previous match, where an empty match is not accepted. -/
def Regex.findAllFrom (r : Regex) : Nat → Bool → GoString → List (List GoString)
  | _ + 1, _, [] => []
  | k + 1, am, _ :: cs => r.findAllFrom k am cs
  | 0, am, [] =>
    match r.matchAt [] with
    | some (m, caps) => if am then [] else [m :: caps]
    | none => []
  | 0, am, c :: cs =>
    match r.matchAt (c :: cs) with
    | none => r.findAllFrom 0 false cs
    | some (m, caps) =>
      if m.length = 0 then
        (if am then [] else [m :: caps]) ++ r.findAllFrom 0 false cs
      else (m :: caps) :: r.findAllFrom (m.length - 1) true cs

/-- Go `(*Regexp).FindAllStringSubmatch(s, -1)`. -/
def Regex.FindAllStringSubmatch (r : Regex) (s : GoString) : List (List GoString) :=
  r.findAllFrom 0 false s

/-- Go `(*Regexp).FindAllString(s, -1)`. -/
def Regex.FindAllString (r : Regex) (s : GoString) : List GoString :=
  (r.findAllFrom 0 false s).map (fun m => m.headD [])

/-- Perl class `\s` of Go regexp syntax: `[\t\n\f\r ]`. -/
def reSpace (c : Char) : Bool :=
  c = '\t' || c = '\n' || c = '\x0c' || c = '\r' || c = ' '

/-- Perl class `\d`: `[0-9]`. -/
def reDigit (c : Char) : Bool := '0' ≤ c && c ≤ '9'

/-- Class `[a-z]`. -/
def reLower (c : Char) : Bool := 'a' ≤ c && c ≤ 'z'

/-- The word the query must contain exactly once. -/
def quantizeWord : GoString := "quantize".toList

/-- The pattern "quantize" of `processQuery` (variable `re`). -/
def re : Regex := .lit quantizeWord

/-- The pattern "quantize\s+to\s+(\d+[a-z])\s+using\s+([a-z]+)\s*\|?" of `processQuery`
(variable `qRe`). -/
def qRe : Regex :=
  .cat (.lit quantizeWord) <| .cat (.plus reSpace) <| .cat (.lit "to".toList) <|
  .cat (.plus reSpace) <| .cat (.group (.cat (.plus reDigit) (.cls reLower))) <|
  .cat (.plus reSpace) <| .cat (.lit "using".toList) <| .cat (.plus reSpace) <|
  .cat (.group (.plus reLower)) <| .cat (.star reSpace) (.opt (.lit ['|']))

/-! ## Durations (Go `time.Duration`, `time.ParseDuration`) -/

/-- Go `time.leadingInt`: the leading decimal digits as a number and the rest of the input;
`none` when the number exceeds `1 << 63`. -/
def leadingInt : Nat → GoString → Option (Nat × GoString)
  | x, [] => some (x, [])
  | x, c :: cs =>
    if c < '0' || c > '9' then some (x, c :: cs)
    else if x > 2 ^ 63 / 10 then none
    else
      let x1 := x * 10 + (c.toNat - '0'.toNat)
      if x1 > 2 ^ 63 then none else leadingInt x1 cs

/-- Go `time.unitMap`: nanoseconds per unit. -/
def unitMap (u : GoString) : Option Nat :=
  if u = "ns".toList then some 1
  else if u = "us".toList then some 1000
  else if u = "µs".toList then some 1000
  else if u = "μs".toList then some 1000
  else if u = "ms".toList then some 1000000
  else if u = "s".toList then some 1000000000
  else if u = "m".toList then some 60000000000
  else if u = "h".toList then some 3600000000000
  else none

/-- The loop of `time.ParseDuration` over the components `<digits><unit>`; `d` is the sum
so far, the first argument bounds the number of components by the length of the input. -/
def parseDurationLoop : Nat → Nat → GoString → Option Nat
  | _, d, [] => some d
  | 0, _, _ :: _ => none
  | fuel + 1, d, c :: cs =>
    if !(c = '.' || ('0' ≤ c && c ≤ '9')) then none
    else
      match leadingInt 0 (c :: cs) with
      | none => none
      | some (v, rest) =>
        -- no fraction in this model: a component without leading digits is invalid
        if rest.length = (c :: cs).length then none
        else
          let u := rest.takeWhile (fun x => !(x = '.' || ('0' ≤ x && x ≤ '9')))
          let rest1 := rest.dropWhile (fun x => !(x = '.' || ('0' ≤ x && x ≤ '9')))
          if u.length = 0 then none
          else
            match unitMap u with
            | none => none
            | some unit =>
              if v > 2 ^ 63 / unit then none
              else
                let d1 := d + v * unit
                if d1 > 2 ^ 63 then none else parseDurationLoop fuel d1 rest1

/-- Go `time.ParseDuration` on unsigned input without a fractional part (the strings of the
shape `<digits><letter>` that capture group 1 of `qRe` holds contain neither sign nor `.`;
Go evaluates a fraction in floating point, which is left out here). The result is the
duration in nanoseconds, `none` for the error return. -/
def ParseDuration (s : GoString) : Option Int :=
  if s = ['0'] then some 0
  else if s = [] then none
  else
    match parseDurationLoop s.length 0 s with
    | none => none
    | some d => if d > 2 ^ 63 - 1 then none else some (d : Int)

/-- Go `Duration.Milliseconds`: `int64(d) / 1e6`, truncated. -/
def Milliseconds (d : Int) : Int := Int.tdiv d 1000000

/-! ## processQuery -/

/-- The four values `processQuery` returns. -/
structure QueryParts where
  formattedQuery : GoString
  quantizeVal : Int
  rollup : GoString
  err : Option String
  deriving DecidableEq, Repr

/-- Error text of the first check of `processQuery`. -/
def errOneQuantize : String := "please specify 1 `quantize` in the query"

/-- Error text of the (second) shape check of `processQuery`. -/
def errQuantizeShape : String :=
  "`quantize` part of the query should match the regex `quantize\\s+to\\s+(\\d+[a-z])\\s+using\\s+([a-z]+)\\s*\\|?`"

/-- Error text for a duration `time.ParseDuration` rejects. -/
def errQuantizeDuration : String := "couldn't parse the value for quantize interval/duration"

/-- Panic text of an index expression on a sequence too short for the index. -/
def indexOutOfRange (i : Int) (len : Nat) : String :=
  if i < 0 then s!"runtime error: index out of range [{i}]"
  else s!"runtime error: index out of range [{i}] with length {len}"

/-- The function `processQuery` of eventhandlers.go. Indexing `[0]` into the result of
`FindAllString`, `[0]`, `[1]`, `[2]` into the submatches and `[len-1]` into the trimmed
query panics when the index is out of range, as in Go. -/
def processQuery (query : GoString) : Run QueryParts :=
  let found := re.FindAllString query
  if found.length ≠ 1 then
    .returned ⟨[], 0, [], some errOneQuantize⟩
  else
    match qRe.FindAllString query with
    | [] => .panicked (indexOutOfRange 0 0)
    | quantizePart :: _ =>
      if quantizePart.length = 0 then
        .returned ⟨[], 0, [], some errQuantizeShape⟩
      else
        match qRe.FindAllStringSubmatch quantizePart with
        | [] => .panicked (indexOutOfRange 0 0)
        | submatches :: _ =>
          let query1 := stringsReplaceAll query quantizePart [' ']
          match submatches[1]? with
          | none => .panicked (indexOutOfRange 1 submatches.length)
          | some sub1 =>
            match ParseDuration sub1 with
            | none => .returned ⟨[], 0, [], some errQuantizeDuration⟩
            | some quantizeVal =>
              let formattedQuery := stringsTrimSpace query1
              match formattedQuery.getLast? with
              | none => .panicked (indexOutOfRange (-1) 0)
              | some last =>
                let formattedQuery1 :=
                  if last = '|' then formattedQuery.dropLast else formattedQuery
                match submatches[2]? with
                | none => .panicked (indexOutOfRange 2 submatches.length)
                | some sub2 =>
                  .returned ⟨formattedQuery1, Milliseconds quantizeVal, casesTitle sub2, none⟩

/-! ## Time (Go `time.Time`, `time.Duration`) and float64 -/

/-- Two's-complement wrap-around of `int64` arithmetic. -/
def wrap64 (x : Int) : Int :=
  (x + 9223372036854775808) % 18446744073709551616 - 9223372036854775808

/-- A Go `time.Time` without monotonic reading (the handler only holds parsed times):
`sec` is `t.sec()`, the `int64` count of seconds since January 1 of year 1, and `nsec` is
`t.nsec()`, between 0 and 999999999. -/
structure Time where
  sec : Int
  nsec : Int
  deriving DecidableEq, Repr

/-- Seconds from January 1 of year 1 to the Unix epoch (`unixToInternal`). -/
def unixToInternal : Int := 62135596800

/-- Go `time.Unix(sec, 0)`. -/
def timeUnix (sec : Int) : Time := ⟨wrap64 (sec + unixToInternal), 0⟩

/-- Go `Time.Unix`. -/
def Time.Unix (t : Time) : Int := wrap64 (t.sec - unixToInternal)

/-- Go `Time.UnixMilli`: `t.unixSec()*1e3 + int64(t.nsec())/1e6`. -/
def Time.UnixMilli (t : Time) : Int :=
  wrap64 (wrap64 (t.Unix * 1000) + Int.tdiv t.nsec 1000000)

/-- The instant a `Time` denotes, in nanoseconds since the Unix epoch, as an unbounded
integer. -/
def Time.unixNanos (t : Time) : Int := (t.sec - unixToInternal) * 1000000000 + t.nsec

/-- Go `Time.Equal` (no monotonic reading). -/
def Time.Equal (t u : Time) : Bool := t.sec = u.sec && t.nsec = u.nsec

/-- Go `Time.Before` (no monotonic reading). -/
def Time.Before (t u : Time) : Bool := t.sec < u.sec || (t.sec = u.sec && t.nsec < u.nsec)

/-- Go `Time.addSec`: the seconds are added, saturating at the `int64` bounds. -/
def Time.addSec (t : Time) (d : Int) : Time :=
  let sum := wrap64 (t.sec + d)
  if decide (sum > t.sec) = decide (d > 0) then { t with sec := sum }
  else if d > 0 then { t with sec := 9223372036854775807 }
  else { t with sec := -9223372036854775807 }

/-- Go `Time.Add` for a duration in nanoseconds. -/
def Time.Add (t : Time) (d : Int) : Time :=
  let dsec := Int.tdiv d 1000000000
  let nsec := t.nsec + Int.tmod d 1000000000
  if nsec ≥ 1000000000 then ({ t with nsec := nsec - 1000000000 } : Time).addSec (dsec + 1)
  else if nsec < 0 then ({ t with nsec := nsec + 1000000000 } : Time).addSec (dsec - 1)
  else ({ t with nsec := nsec } : Time).addSec dsec

/-- Largest `time.Duration`, in nanoseconds. -/
def maxDuration : Int := 9223372036854775807

/-- Smallest `time.Duration`, in nanoseconds. -/
def minDuration : Int := -9223372036854775808

/-- Go `t.Sub(u)`: the duration `t - u` in nanoseconds; when the difference does not fit a
`Duration` the largest or smallest duration is returned. -/
def Time.Sub (t u : Time) : Int :=
  let d := wrap64 (wrap64 (wrap64 (t.sec - u.sec) * 1000000000) + (t.nsec - u.nsec))
  if (u.Add d).Equal t then d
  else if t.Before u then minDuration
  else maxDuration

/-- A finite float64 value, held exactly as the dyadic number `man * 2 ^ exp`. -/
structure F64 where
  man : Int
  exp : Int
  deriving DecidableEq, Repr

/-- Position of the leading bit: `bitLog n n` is the floor of the binary logarithm. -/
def bitLog : Nat → Nat → Nat
  | 0, _ => 0
  | fuel + 1, n => if n < 2 then 0 else bitLog fuel (n / 2) + 1

/-- Floor of the binary logarithm of a positive number. -/
def floorLog2 (n : Nat) : Nat := bitLog n n

/-- The exponent of the leading bit of the positive real number `a / d`: the integer `e`
with `2 ^ e ≤ a / d < 2 ^ (e + 1)`. -/
def ratioExponent (a d : Nat) : Int :=
  let e0 : Int := (floorLog2 a : Int) - (floorLog2 d : Int)
  let below : Bool := if e0 ≥ 0 then a < d * 2 ^ e0.toNat else a * 2 ^ (-e0).toNat < d
  if below then e0 - 1 else e0

/-- The integer nearest to `num / den`, the even one of the two when both are equally
near. -/
def roundQuotient (num den : Nat) : Nat :=
  let q := num / den
  let r := num % den
  if 2 * r < den then q
  else if 2 * r > den then q + 1
  else if q % 2 = 0 then q else q + 1

/-- IEEE 754 binary64 rounding (to nearest, ties to even) of the real number `n / d`, for
`d > 0`: 53 significant bits, the exponent of the last bit not below `-1074` (subnormals).
Magnitudes beyond the float64 range do not arise here (all operands are below `2 ^ 64`). -/
def roundRatio (n : Int) (d : Nat) : F64 :=
  if n = 0 then ⟨0, 0⟩
  else
    let a := n.natAbs
    let t := max (ratioExponent a d - 52) (-1074)
    let m := roundQuotient (a * 2 ^ (-t).toNat) (d * 2 ^ t.toNat)
    ⟨if n < 0 then -(m : Int) else (m : Int), t⟩

/-- Go conversion `float64(x)` of an integer. -/
def F64.ofInt (x : Int) : F64 := roundRatio x 1

/-- Float64 division by a non-zero divisor (the only divisor in the source is `1e9`). -/
def F64.div (a b : F64) : F64 :=
  let k := a.exp - b.exp
  let n := a.man * 2 ^ k.toNat * (if b.man < 0 then -1 else 1)
  roundRatio n (b.man.natAbs * 2 ^ (-k).toNat)

/-- Float64 addition. -/
def F64.add (a b : F64) : F64 :=
  let e := min a.exp b.exp
  let n := a.man * 2 ^ (a.exp - e).toNat + b.man * 2 ^ (b.exp - e).toNat
  roundRatio (n * 2 ^ e.toNat) (2 ^ (-e).toNat)

/-- Go `math.Ceil` followed by the conversion `int64(...)`, for a value within the `int64`
range. -/
def F64.ceilInt (a : F64) : Int :=
  if a.exp ≥ 0 then a.man * 2 ^ a.exp.toNat else -((-a.man) / 2 ^ (-a.exp).toNat)

/-- Go `Duration.Seconds`: `float64(d / Second) + float64(d % Second) / 1e9` in float64
arithmetic. -/
def Seconds (d : Int) : F64 :=
  let sec := Int.tdiv d 1000000000
  let nsec := Int.tmod d 1000000000
  (F64.ofInt sec).add ((F64.ofInt nsec).div (F64.ofInt 1000000000))

/-- The function `getDurationInSeconds` of eventhandlers.go:
`int64(math.Ceil(end.Sub(start).Seconds()))`. -/
def getDurationInSeconds (start end_ : Time) : Int :=
  (Seconds (end_.Sub start)).ceilInt

/-- Go `strconv.FormatInt(n, 10)`. -/
def FormatInt (n : Int) : GoString :=
  if n < 0 then '-' :: Nat.toDigits 10 n.natAbs else Nat.toDigits 10 n.natAbs

/-! ## Date-time parsing (Go `time.Parse` with the layout `time.RFC3339`) -/

/-- Go `time.isDigit`: whether `s[i]` exists and is a decimal digit. -/
def isDigit (s : GoString) (i : Nat) : Bool :=
  match s[i]? with
  | none => false
  | some c => '0' ≤ c && c ≤ '9'

/-- Go `time.atoi`: an optional sign and decimal digits, nothing else. -/
def atoi (s : GoString) : Option Int :=
  let neg := decide (s.head? = some '-')
  let body :=
    match s with
    | c :: cs => if c = '-' || c = '+' then cs else c :: cs
    | [] => []
  match leadingInt 0 body with
  | none => none
  | some (q, rem) =>
    if rem.length > 0 then none
    else
      let x := wrap64 q
      some (if neg then wrap64 (-x) else x)

/-- Go `time.cutspace`: the text without its leading spaces. -/
def cutspace (s : GoString) : GoString := s.dropWhile (fun c => c = ' ')

/-- The loop of Go `time.skip`; the first argument bounds the number of rounds by the length
of the layout text. -/
def skipLoop : Nat → GoString → GoString → Option GoString
  | _, value, [] => some value
  | 0, _, _ :: _ => none
  | fuel + 1, value, p :: ps =>
    if p = ' ' then
      if value.length > 0 ∧ value.head? ≠ some ' ' then none
      else skipLoop fuel (cutspace value) (cutspace (p :: ps))
    else
      match value with
      | [] => none
      | v :: vs => if v ≠ p then none else skipLoop fuel vs ps

/-- Go `time.skip(value, prefix)`: `value` without the literal text of the layout it has to
start with, `none` for `errBad`. -/
def skip (value pfx : GoString) : Option GoString := skipLoop pfx.length value pfx

/-- Go `time.parseRFC3339`, the fast path of `time.Parse`: it gives up on a text shorter
than "2006-01-02T15:04:05" and on one whose character at index 4 is not `-`. The other
checks and the construction of the time are `fastRest`. -/
def parseRFC3339 (fastRest : GoString → Option Time) (s : GoString) : Option Time :=
  if s.length < 19 then none
  else if s[4]? ≠ some '-' then none
  else fastRest s

/-- Go `time.Parse(time.RFC3339, value)`, `none` being its error return. The layout is
"2006-01-02T15:04:05Z07:00": its first chunk is the four-digit year with no text before
it, its second starts with the separator `-`. After the fast path, the general `parse`
reads the year and the separator; what it does with the year and the text after the
separator is `parseRest`. -/
def timeParseRFC3339 (fastRest : GoString → Option Time)
    (parseRest : Int → GoString → Option Time) (value : GoString) : Option Time :=
  match parseRFC3339 fastRest value with
  | some t => some t
  | none =>
    match skip value [] with
    | none => none
    | some value1 =>
      if value1.length < 4 || !isDigit value1 0 then none
      else
        match atoi (value1.take 4) with
        | none => none
        | some year =>
          match skip (value1.drop 4) ['-'] with
          | none => none
          | some value2 => parseRest year value2

/-! ## Timestamps and query templates -/

/-- A Go `error`: a `*strconv.NumError` by its three fields, any other error by its text. -/
inductive GoError where
  | text (msg : String)
  | numError (Func : String) (Num : GoString) (Err : String)
  deriving DecidableEq, Repr

/-- An error made of a text (`errors.New`). -/
instance : Coe String GoError := ⟨GoError.text⟩

/-- Go `strconv.ErrSyntax`. -/
def ErrSyntax : String := "invalid syntax"

/-- Go `strconv.ErrRange`. -/
def ErrRange : String := "value out of range"

/-- The loop of Go `strconv.ParseUint(s, 10, 64)` over the characters, `n` being the value
read so far: it stops with `ErrSyntax` at a character that is not a decimal digit and with
`ErrRange` as soon as the value exceeds `uint64`, whichever comes first. -/
def parseUintLoop : Nat → GoString → Except String Nat
  | n, [] => .ok n
  | n, c :: cs =>
    if !('0' ≤ c && c ≤ '9') then .error ErrSyntax
    else if n ≥ 1844674407370955162 then .error ErrRange
    else
      let n1 := n * 10 + (c.toNat - '0'.toNat)
      if n1 > 18446744073709551615 then .error ErrRange else parseUintLoop n1 cs

/-- Go `strconv.ParseUint(s, 10, 64)`: the value and the error; with `ErrRange` the value
is the largest `uint64`. -/
def ParseUint (s : GoString) : Nat × Option String :=
  if s = [] then (0, some ErrSyntax)
  else
    match parseUintLoop 0 s with
    | .ok n => (n, none)
    | .error e => (if e = ErrRange then 18446744073709551615 else 0, some e)

/-- Go `strconv.ParseInt(s, 10, 64)`: an optional sign, then at least one decimal digit and
nothing else; values outside the `int64` range are an error. The error is the
`*strconv.NumError` with the function name, the input and `ErrSyntax` or `ErrRange`. -/
def ParseInt (s : GoString) : Except GoError Int :=
  match s with
  | [] => .error (.numError "ParseInt" s ErrSyntax)
  | c :: cs =>
    let neg := decide (c = '-')
    let s1 := if c = '+' || c = '-' then cs else c :: cs
    match ParseUint s1 with
    | (un, err) =>
      match (if err = some ErrRange then none else err) with
      | some e => .error (.numError "ParseInt" s e)
      | none =>
        if !neg && un ≥ 9223372036854775808 then .error (.numError "ParseInt" s ErrRange)
        else if neg && un > 9223372036854775808 then .error (.numError "ParseInt" s ErrRange)
        else .ok (if neg then -(un : Int) else (un : Int))

/-- The function `parseUnixTimestamp` of eventhandlers.go. `timeParse` stands for
`time.Parse(time.RFC3339, ·)` of the Go library, `none` being its error return. On the error
path Go also returns `time.Now()`, which no caller reads. -/
def parseUnixTimestamp (timeParse : GoString → Option Time) (timestamp : GoString) :
    Except GoError Time :=
  match timeParse timestamp with
  | some parsedTime => .ok parsedTime
  | none =>
    match ParseInt timestamp with
    | .error err => .error err
    | .ok timestampInt => .ok (timeUnix timestampInt)

/-- A Go `map[string]string`. -/
abbrev GoMap := List (GoString × GoString)

/-- Map indexing `m[k]`: the zero value, the empty string, when the key is absent. -/
def GoMap.index (m : GoMap) (k : GoString) : GoString :=
  match m.lookup k with
  | some v => v
  | none => []

/-- The part `GetSLI` of a get-sli.triggered event (`keptnv2.GetSLITriggered`). -/
structure GetSLITriggered where
  SLIProvider : GoString
  Start : GoString
  End : GoString
  Indicators : List GoString
  deriving DecidableEq, Repr

/-- The payload `keptnv2.GetSLITriggeredEventData`; `Labels` is `none` for a nil map. -/
structure GetSLITriggeredEventData where
  Project : GoString
  Stage : GoString
  Service : GoString
  Labels : Option GoMap
  GetSLI : GetSLITriggered
  deriving DecidableEq, Repr

/-- The function `replaceQueryParameters` of eventhandlers.go. -/
def replaceQueryParameters (data : GetSLITriggeredEventData) (query : GoString)
    (start end_ : Time) : GoString :=
  let query := stringsReplaceAll query "$PROJECT".toList data.Project
  let query := stringsReplaceAll query "$STAGE".toList data.Stage
  let query := stringsReplaceAll query "$SERVICE".toList data.Service
  let query := stringsReplaceAll query "$project".toList data.Project
  let query := stringsReplaceAll query "$stage".toList data.Stage
  let query := stringsReplaceAll query "$service".toList data.Service
  let durationString := FormatInt (getDurationInSeconds start end_)
  let query := stringsReplaceAll query "$DURATION".toList durationString
  query

/-! ## The get-sli handler -/

/-- Values of `keptnv2.StatusType`. -/
inductive StatusType where
  | succeeded | errored | unknown | aborted
  deriving DecidableEq, Repr

/-- Values of `keptnv2.ResultType`. -/
inductive ResultType where
  | pass | warning | failed
  deriving DecidableEq, Repr

/-- The fields of `keptnv2.EventData` the handler sets; `Labels` is `none` when left nil. -/
structure EventData where
  Status : StatusType
  Result : ResultType
  Labels : Option GoMap
  deriving DecidableEq, Repr

/-- One `keptnv2.SLIResult` as the handler fills it: metric name and value (`V` stands for
`float64`). -/
structure SLIResult (V : Type) where
  Metric : GoString
  Value : V
  deriving DecidableEq, Repr

/-- The part `GetSLI` of `keptnv2.GetSLIFinishedEventData`. -/
structure GetSLIFinished (V : Type) where
  Start : GoString
  End : GoString
  IndicatorValues : List (SLIResult V)
  deriving DecidableEq, Repr

/-- The payload `keptnv2.GetSLIFinishedEventData`. -/
structure GetSLIFinishedEventData (V : Type) where
  EventData : EventData
  GetSLI : GetSLIFinished V
  deriving DecidableEq, Repr

/-- What the handler hands to `SendTaskFinishedEvent`: a bare `EventData` on the
configuration-failure path, a `GetSLIFinishedEventData` at the end of the loop. -/
inductive FinishedPayload (V : Type) where
  | eventData (d : EventData)
  | getSLIFinished (d : GetSLIFinishedEventData V)
  deriving DecidableEq, Repr

/-- One row of `types.MetricsQueryRequest.Queries`. -/
structure MetricsQueryRow where
  Query : GoString
  RowId : GoString
  Quantization : Int
  Rollup : GoString
  deriving DecidableEq, Repr

/-- One `types.TimeRangeBoundary`. -/
structure TimeRangeBoundary where
  Type_ : GoString
  EpochMillis : Int
  RangeName : GoString
  deriving DecidableEq, Repr

/-- The request `types.MetricsQueryRequest` the handler builds. -/
structure MetricsQueryRequest where
  Queries : List MetricsQueryRow
  Type_ : GoString
  From : TimeRangeBoundary
  To : TimeRangeBoundary
  deriving DecidableEq, Repr

/-- What `client.RunMetricsQueries` returns: `mRes.QueryResult` as rows of time series of
point values, the HTTP response pointer (`none` for nil) and the error (`none` for nil). -/
structure MetricsQueryResult (V : Type) where
  QueryResult : List (List (List V))
  hRes : Option Nat
  err : Option GoError

/-- The calls the handler makes on its collaborators, in the order it makes them. -/
inductive Effect (V : Type) where
  | sendTaskStarted
  | getSLIConfiguration (project stage service resource : GoString)
  | sendTaskFinished (payload : FinishedPayload V)
  | sleep (seconds : Int)
  | runMetricsQueries (req : MetricsQueryRequest)
  deriving DecidableEq, Repr

/-- The collaborators of the handler: the Keptn client, the Sumo Logic client, the
RFC 3339 parser of the Go library and the configured delay. The metrics client is indexed
by the number of queries already run, so that it may answer equal requests differently. -/
structure Env (V : Type) where
  timeParse : GoString → Option Time
  sleepBeforeAPIInSeconds : Int
  SendTaskStartedEvent : GetSLITriggeredEventData → Option GoError
  GetSLIConfiguration : GoString → GoString → GoString → GoString → GoMap × Option GoError
  SendTaskFinishedEvent : FinishedPayload V → Option GoError
  RunMetricsQueries : Nat → MetricsQueryRequest → MetricsQueryResult V

/-- The constant `sliFile`. -/
def sliFile : GoString := "sumologic-service/sli.yaml".toList

/-- State of the indicator loop: the finished-event status and result, the values gathered,
the calls made so far and the number of metrics queries among them. -/
structure LoopState (V : Type) where
  Status : StatusType
  Result : ResultType
  sliResults : List (SLIResult V)
  trace : List (Effect V)
  queries : Nat
  deriving DecidableEq, Repr

/-- How the indicator loop ends or goes on. -/
inductive LoopResult (V : Type) where
  | next (st : LoopState V)
  | abort (err : GoError) (trace : List (Effect V))
  | panic (msg : String) (trace : List (Effect V))
  deriving DecidableEq, Repr

/-- The request of one loop iteration. -/
def metricsQueryRequest (formattedQuery : GoString) (quantizeDuration : Int)
    (quantizeRollup : GoString) (start end_ : Time) : MetricsQueryRequest :=
  { Queries := [⟨formattedQuery, ['A'], quantizeDuration, quantizeRollup⟩]
    Type_ := "BeginBoundedTimeRange".toList
    From := ⟨"EpochTimeRangeBoundary".toList, start.UnixMilli, "from".toList⟩
    To := ⟨"EpochTimeRangeBoundary".toList, end_.UnixMilli, "to".toList⟩ }

/-- The expression `mRes.QueryResult[0].TimeSeriesList.TimeSeries[0].Points.Values[0]`;
`none` when one of the three index expressions is out of range. -/
def firstValue {V : Type} (queryResult : List (List (List V))) : Option V :=
  match queryResult with
  | (((v :: _) :: _) :: _) => some v
  | _ => none

/-- One iteration of the loop over the indicators in `HandleGetSliTriggeredEvent`. -/
def indicatorStep {V : Type} (env : Env V) (data : GetSLITriggeredEventData)
    (sliConfig : GoMap) (start end_ : Time) (st : LoopState V) (indicatorName : GoString) :
    LoopResult V :=
  let trace1 := st.trace ++ [.sleep env.sleepBeforeAPIInSeconds]
  let query := replaceQueryParameters data (sliConfig.index indicatorName) start end_
  match processQuery query with
  | .panicked msg => .panic msg trace1
  | .returned ⟨_, _, _, some err⟩ => .abort err trace1
  | .returned ⟨formattedQuery, quantizeDuration, quantizeRollup, none⟩ =>
    let req := metricsQueryRequest formattedQuery quantizeDuration quantizeRollup start end_
    let trace2 := trace1 ++ [.sleep 30, .runMetricsQueries req]
    let res := env.RunMetricsQueries st.queries req
    match res.err with
    | some _ =>
      match res.hRes with
      | none => .panic "runtime error: invalid memory address or nil pointer dereference" trace2
      | some _ =>
        .next { st with
          Status := .errored, Result := .failed, trace := trace2, queries := st.queries + 1 }
    | none =>
      match firstValue res.QueryResult with
      | none => .panic "runtime error: index out of range [0] with length 0" trace2
      | some v =>
        .next { st with
          sliResults := st.sliResults ++ [⟨indicatorName, v⟩]
          trace := trace2, queries := st.queries + 1 }

/-- The loop `for _, indicatorName := range indicators`. -/
def indicatorLoop {V : Type} (env : Env V) (data : GetSLITriggeredEventData)
    (sliConfig : GoMap) (start end_ : Time) : List GoString → LoopState V → LoopResult V
  | [], st => .next st
  | indicatorName :: rest, st =>
    match indicatorStep env data sliConfig start end_ st indicatorName with
    | .next st1 => indicatorLoop env data sliConfig start end_ rest st1
    | .abort err trace => .abort err trace
    | .panic msg trace => .panic msg trace

/-- The state in which the indicator loop starts. -/
def initialLoopState {V : Type} (data : GetSLITriggeredEventData) : LoopState V :=
  ⟨.succeeded, .pass, [],
    [.sendTaskStarted, .getSLIConfiguration data.Project data.Stage data.Service sliFile], 0⟩

/-- What a run of the handler amounts to: the error it returned (or its panic) and the
calls it made. -/
structure Outcome (V : Type) where
  result : Run (Option GoError)
  trace : List (Effect V)
  deriving DecidableEq, Repr

/-- The function `HandleGetSliTriggeredEvent` of eventhandlers.go. -/
def HandleGetSliTriggeredEvent {V : Type} (env : Env V) (data : GetSLITriggeredEventData) :
    Outcome V :=
  if data.GetSLI.SLIProvider ≠ "sumologic".toList then ⟨.returned none, []⟩
  else
    match env.SendTaskStartedEvent data with
    | some err => ⟨.returned (some err), [.sendTaskStarted]⟩
    | none =>
      match parseUnixTimestamp env.timeParse data.GetSLI.Start with
      | .error err => ⟨.returned (some err), [.sendTaskStarted]⟩
      | .ok start =>
        match parseUnixTimestamp env.timeParse data.GetSLI.End with
        | .error err => ⟨.returned (some err), [.sendTaskStarted]⟩
        | .ok end_ =>
          let labels : GoMap := match data.Labels with
            | none => []
            | some l => l
          let trace0 : List (Effect V) := (initialLoopState data).trace
          match env.GetSLIConfiguration data.Project data.Stage data.Service sliFile with
          | (_, some _) =>
            let payload : FinishedPayload V := .eventData ⟨.errored, .failed, some labels⟩
            ⟨.returned (env.SendTaskFinishedEvent payload), trace0 ++ [.sendTaskFinished payload]⟩
          | (sliConfig, none) =>
            match indicatorLoop env data sliConfig start end_ data.GetSLI.Indicators
                (initialLoopState data) with
            | .abort err trace => ⟨.returned (some err), trace⟩
            | .panic msg trace => ⟨.panicked msg, trace⟩
            | .next st =>
              let payload : FinishedPayload V := .getSLIFinished
                { EventData := ⟨st.Status, st.Result, none⟩
                  GetSLI := ⟨data.GetSLI.Start, data.GetSLI.End, st.sliResults⟩ }
              ⟨.returned (env.SendTaskFinishedEvent payload),
                st.trace ++ [.sendTaskFinished payload]⟩
/-! ## Notions used to state the properties -/

/-- Number of positions of `s` at which `w` occurs (overlapping occurrences are counted
separately). -/
def countOccurrences (w : GoString) : GoString → Nat
  | [] => if w = [] then 1 else 0
  | c :: cs => (if w.isPrefixOf (c :: cs) then 1 else 0) + countOccurrences w cs

/-- The language of a pattern: `r.Matches m` says that the text `m` has the shape `r`. -/
inductive Regex.Matches : Regex → GoString → Prop where
  | lit (w : GoString) : Regex.Matches (.lit w) w
  | cls (p : Char → Bool) (c : Char) (h : p c = true) : Regex.Matches (.cls p) [c]
  | star (p : Char → Bool) (m : GoString) (h : ∀ c ∈ m, p c = true) : Regex.Matches (.star p) m
  | plus (p : Char → Bool) (m : GoString) (hne : m ≠ []) (h : ∀ c ∈ m, p c = true) :
      Regex.Matches (.plus p) m
  | optNone (r : Regex) : Regex.Matches (.opt r) []
  | optSome (r : Regex) (m : GoString) (h : Regex.Matches r m) : Regex.Matches (.opt r) m
  | cat (a b : Regex) (m1 m2 : GoString) (h1 : Regex.Matches a m1) (h2 : Regex.Matches b m2) :
      Regex.Matches (.cat a b) (m1 ++ m2)
  | group (r : Regex) (m : GoString) (h : Regex.Matches r m) : Regex.Matches (.group r) m

/-- The language of a pattern together with the texts of its capture groups, listed in the
order in which the groups close (the order of the opening parentheses when, as in `qRe`, no
group lies within another). -/
inductive Regex.Captures : Regex → GoString → List GoString → Prop where
  | lit (w : GoString) : Regex.Captures (.lit w) w []
  | cls (p : Char → Bool) (c : Char) (h : p c = true) : Regex.Captures (.cls p) [c] []
  | star (p : Char → Bool) (m : GoString) (h : ∀ c ∈ m, p c = true) :
      Regex.Captures (.star p) m []
  | plus (p : Char → Bool) (m : GoString) (hne : m ≠ []) (h : ∀ c ∈ m, p c = true) :
      Regex.Captures (.plus p) m []
  | optNone (r : Regex) : Regex.Captures (.opt r) [] []
  | optSome (r : Regex) (m : GoString) (cs : List GoString) (h : Regex.Captures r m cs) :
      Regex.Captures (.opt r) m cs
  | cat (a b : Regex) (m1 m2 : GoString) (c1 c2 : List GoString)
      (h1 : Regex.Captures a m1 c1) (h2 : Regex.Captures b m2 c2) :
      Regex.Captures (.cat a b) (m1 ++ m2) (c1 ++ c2)
  | group (r : Regex) (m : GoString) (cs : List GoString) (h : Regex.Captures r m cs) :
      Regex.Captures (.group r) m (cs ++ [m])

/-- The number a string of decimal digits denotes. -/
def decimalValue (digits : GoString) : Nat :=
  digits.foldl (fun a c => a * 10 + (c.toNat - '0'.toNat)) 0

/-- The duration token of the quantize clause as `processQuery` extracts it: the first
submatch of the first match of `qRe`, taken from the clause matched again on its own. -/
def durationToken (query : GoString) : Option GoString :=
  match qRe.FindAllString query with
  | [] => none
  | quantizePart :: _ =>
    match qRe.FindAllStringSubmatch quantizePart with
    | [] => none
    | submatches :: _ => submatches[1]?

/-- Nanoseconds in the units a one-letter duration token may have. -/
def unitNanos (u : Char) : Option Nat :=
  if u = 's' then some 1000000000
  else if u = 'm' then some 60000000000
  else if u = 'h' then some 3600000000000
  else none

/-- Whether a call is the emission of a finished signal. -/
def Effect.isFinished {V : Type} : Effect V → Bool
  | .sendTaskFinished _ => true
  | _ => false

/-- Whether a call is a metrics query (an executor call). -/
def Effect.isQuery {V : Type} : Effect V → Bool
  | .runMetricsQueries _ => true
  | _ => false

/-- The seven placeholders of `replaceQueryParameters`, in the order they are replaced. -/
def placeholders : List GoString :=
  ["$PROJECT".toList, "$STAGE".toList, "$SERVICE".toList, "$project".toList,
   "$stage".toList, "$service".toList, "$DURATION".toList]

/-- Whether every `$` of the text starts one of the given words. -/
def dollarsBound (ps : List GoString) : GoString → Bool
  | [] => true
  | c :: cs => (c != '$' || ps.any (fun p => p.isPrefixOf (c :: cs))) && dollarsBound ps cs

/-- Ceiling of a count of nanoseconds expressed in seconds. -/
def ceilSeconds (nanos : Int) : Int := -((-nanos) / 1000000000)

/-- The request the handler builds for an indicator whose rendered template parses. -/
def indicatorRequest (data : GetSLITriggeredEventData) (sliConfig : GoMap) (start end_ : Time)
    (indicatorName : GoString) : MetricsQueryRequest :=
  match processQuery (replaceQueryParameters data (sliConfig.index indicatorName) start end_) with
  | .returned p => metricsQueryRequest p.formattedQuery p.quantizeVal p.rollup start end_
  | .panicked _ => metricsQueryRequest [] 0 [] start end_

/-- Whether the rendered template of an indicator parses: `processQuery` returns without
error. -/
def indicatorParses (data : GetSLITriggeredEventData) (sliConfig : GoMap) (start end_ : Time)
    (indicatorName : GoString) : Bool :=
  match processQuery (replaceQueryParameters data (sliConfig.index indicatorName) start end_) with
  | .returned p => p.err.isNone
  | .panicked _ => false

/-- Whether the handler can take an answer of the metrics client without panicking: a
failure comes with an HTTP response, a success with a first data point. -/
def MetricsQueryResult.wellShaped {V : Type} (res : MetricsQueryResult V) : Bool :=
  match res.err with
  | some _ => res.hRes.isSome
  | none => (firstValue res.QueryResult).isSome

/-- The answers of the metrics client to the queries of the indicators, in request order,
the first of them being query number `first`. -/
def indicatorAnswers {V : Type} (env : Env V) (data : GetSLITriggeredEventData)
    (sliConfig : GoMap) (start end_ : Time) (first : Nat) (indicators : List GoString) :
    List (GoString × MetricsQueryResult V) :=
  (indicators.enumFrom first).map fun p =>
    (p.2, env.RunMetricsQueries p.1 (indicatorRequest data sliConfig start end_ p.2))

/-- The indicator values the spec asks for: one per answer without error, in the order of
the answers, failed indicators left out. -/
def succeededValues {V : Type} (answers : List (GoString × MetricsQueryResult V)) :
    List (SLIResult V) :=
  answers.filterMap fun a =>
    match a.2.err with
    | some _ => none
    | none => (firstValue a.2.QueryResult).map fun v => ⟨a.1, v⟩

/-- Whether at least one answer is an error. -/
def anyFailed {V : Type} (answers : List (GoString × MetricsQueryResult V)) : Bool :=
  answers.any fun a => a.2.err.isSome

/-- The finished signal the spec asks for at the end of the loop. -/
def aggregatePayload {V : Type} (data : GetSLITriggeredEventData)
    (answers : List (GoString × MetricsQueryResult V)) : FinishedPayload V :=
  .getSLIFinished
    { EventData :=
        ⟨if anyFailed answers then .errored else .succeeded,
          if anyFailed answers then .failed else .pass, none⟩
      GetSLI := ⟨data.GetSLI.Start, data.GetSLI.End, succeededValues answers⟩ }

/-! ## Sample inputs -/

/-- A sample SLI configuration. -/
def exampleConfig : GoMap :=
  [("throughput".toList, "metric=throughput service=$SERVICE | quantize to 1m using avg | sum".toList),
   ("errorrate".toList, "metric=errors window=$DURATION | quantize to 30s using sum".toList)]

/-- A sample SLI configuration whose second template holds the clause without the unit
letter of the duration. -/
def malformedConfig : GoMap :=
  [("throughput".toList, "metric=throughput service=$SERVICE | quantize to 1m using avg | sum".toList),
   ("errorrate".toList, "quantize to 5 using avg".toList)]

/-- A sample get-sli request with two indicators. -/
def exampleData : GetSLITriggeredEventData :=
  { Project := "sockshop".toList, Stage := "dev".toList, Service := "carts".toList
    Labels := none
    GetSLI := ⟨"sumologic".toList, "1600000000".toList, "1600000300".toList,
      ["throughput".toList, "errorrate".toList]⟩ }

/-- Sample collaborators: times are given as epoch seconds, every call succeeds, and the
metrics client answers its `i`-th query with `answer i`. -/
def exampleEnv (answer : Nat → MetricsQueryResult F64) : Env F64 :=
  { timeParse := fun _ => none
    sleepBeforeAPIInSeconds := 30
    SendTaskStartedEvent := fun _ => none
    GetSLIConfiguration := fun _ _ _ _ => (exampleConfig, none)
    SendTaskFinishedEvent := fun _ => none
    RunMetricsQueries := fun i _ => answer i }


/-- A metrics answer with one data point. -/
def answerOk : MetricsQueryResult F64 := ⟨[[[⟨42, 0⟩]]], some 200, none⟩

/-- A metrics answer that is an error with an HTTP response. -/
def answerFailed : MetricsQueryResult F64 := ⟨[], some 500, some "500 Internal Server Error"⟩

/-- A metrics answer without error whose single row has no time series. -/
def answerNoData : MetricsQueryResult F64 := ⟨[[]], some 200, none⟩

/-- A metrics answer that is an error without an HTTP response (a transport failure). -/
def answerNoResponse : MetricsQueryResult F64 := ⟨[], none, some "dial tcp: connection refused"⟩

/-! ## Theorems: processQuery -/

/-- The word as a list of characters. -/
theorem quantizeWord_eq : quantizeWord = ['q', 'u', 'a', 'n', 't', 'i', 'z', 'e'] := by decide

/-- The pattern `re` matches at a position exactly when the word starts there. -/
theorem re_matchAt (s : GoString) :
    re.matchAt s = if quantizeWord.isPrefixOf s then some (quantizeWord, []) else none := by
  unfold Regex.matchAt re
  simp only [Regex.run]
  split
  · rename_i h
    obtain ⟨t, rfl⟩ := List.isPrefixOf_iff_prefix.mp h
    simp
  · rfl

/-- The word does not overlap itself: where it starts, the next seven positions hold no
occurrence, so skipping them loses none. -/
theorem countOccurrences_skip (c : Char) (cs : GoString)
    (h : quantizeWord.isPrefixOf (c :: cs) = true) :
    countOccurrences quantizeWord cs = countOccurrences quantizeWord (cs.drop 7) := by
  obtain ⟨t, ht⟩ := List.isPrefixOf_iff_prefix.mp h
  rw [quantizeWord_eq] at ht ⊢
  simp only [List.cons_append, List.nil_append, List.cons.injEq] at ht
  obtain ⟨_, rfl⟩ := ht
  simp [countOccurrences, List.isPrefixOf]

/-- The non-overlapping matches of `re` found from a position are as many as the occurrences
of the word from there. -/
theorem re_findAllFrom_length (s : GoString) : ∀ (k : Nat) (am : Bool),
    (re.findAllFrom k am s).length = countOccurrences quantizeWord (s.drop k) := by
  induction s with
  | nil =>
    intro k am
    cases k with
    | zero => simp [Regex.findAllFrom, re_matchAt, countOccurrences, quantizeWord_eq]
    | succ k => simp [Regex.findAllFrom, countOccurrences, quantizeWord_eq]
  | cons c cs ih =>
    intro k am
    cases k with
    | succ k => simpa [Regex.findAllFrom] using ih k am
    | zero =>
      simp only [Regex.findAllFrom, re_matchAt, List.drop_zero, countOccurrences]
      by_cases h : quantizeWord.isPrefixOf (c :: cs) = true
      · simp only [h, if_true]
        have hlen : quantizeWord.length = 8 := by decide
        simp only [hlen]
        simp [ih, countOccurrences_skip c cs h]
        omega
      · simp only [h]
        simp [ih]

/-- `len(re.FindAllString(query, -1))` is the number of occurrences of the word. -/
theorem re_FindAllString_length (s : GoString) :
    (re.FindAllString s).length = countOccurrences quantizeWord s := by
  simp [Regex.FindAllString, re_findAllFrom_length]

/-- C3: when the word `quantize` does not occur exactly once in the query (no occurrence, or
two or more), `processQuery` returns the error "please specify 1 `quantize` in the query"
together with the empty query, the interval 0 and the empty rollup. -/
theorem processQuery_count_ne_one (query : GoString)
    (h : countOccurrences quantizeWord query ≠ 1) :
    processQuery query = .returned ⟨[], 0, [], some errOneQuantize⟩ := by
  unfold processQuery
  simp only [re_FindAllString_length]
  simp [h]

/-- C3 at a query with two occurrences and at one with none. -/
theorem processQuery_count_ne_one_witness :
    processQuery "a quantize b quantize".toList = .returned ⟨[], 0, [], some errOneQuantize⟩ ∧
    processQuery "foo | bar".toList = .returned ⟨[], 0, [], some errOneQuantize⟩ :=
  ⟨processQuery_count_ne_one _ (by decide), processQuery_count_ne_one _ (by decide)⟩

/-- C1, counterexample: the rewritten query for "foo | quantize to 5m using avg | bar" is not
"foo | bar". -/
theorem processQuery_example_not_single_space :
    processQuery "foo | quantize to 5m using avg | bar".toList ≠
      .returned ⟨"foo | bar".toList, 300000, "Avg".toList, none⟩ := by decide

/-- C1 (as amended): on "foo | quantize to 5m using avg | bar" `processQuery` succeeds with
the interval 300000 ms and the rollup "Avg"; the rewritten query is "foo |   bar", with the
three spaces that the blank before the clause, the inserted blank and the blank after the
clause add up to. -/
theorem processQuery_example :
    processQuery "foo | quantize to 5m using avg | bar".toList =
      .returned ⟨"foo |   bar".toList, 300000, "Avg".toList, none⟩ := by decide

/-- C2, the failing input: "quantize to 5 using avg" contains `quantize` exactly once, the
clause does not have the required shape, and `processQuery` panics on the index `[0]` into
the empty list of matches instead of returning an error. -/
theorem processQuery_missing_unit_panics :
    countOccurrences quantizeWord "quantize to 5 using avg".toList = 1 ∧
    processQuery "quantize to 5 using avg".toList = .panicked (indexOutOfRange 0 0) := by decide

/-- Whenever the word occurs once and the clause pattern finds no match, `processQuery`
panics: the shape check that follows the index expression is never reached. -/
theorem processQuery_panics_of_no_match (query : GoString)
    (h1 : countOccurrences quantizeWord query = 1) (h2 : qRe.FindAllString query = []) :
    processQuery query = .panicked (indexOutOfRange 0 0) := by
  unfold processQuery
  simp only [re_FindAllString_length, h1, h2]
  rfl

/-! ### Soundness of the matcher -/

/-- What a greedy repetition consumed satisfies the class, and the continuation accepted the
rest. -/
theorem starRun_sound {α : Type} (p : Char → Bool) (k : GoString → Option α) (x : α) :
    ∀ s : GoString, starRun p k s = some x →
      ∃ m rest, s = m ++ rest ∧ (∀ c ∈ m, p c = true) ∧ k rest = some x := by
  intro s
  induction s with
  | nil =>
    intro h
    exact ⟨[], [], rfl, by simp, by simpa [starRun] using h⟩
  | cons c cs ih =>
    intro h
    simp only [starRun] at h
    by_cases hp : p c = true
    · simp only [hp, if_true] at h
      cases hrec : starRun p k cs with
      | some y =>
        rw [hrec] at h
        simp only [Option.some.injEq] at h
        subst h
        obtain ⟨m, rest, hs, hm, hk⟩ := ih hrec
        refine ⟨c :: m, rest, by simp [hs], ?_, hk⟩
        intro d hd
        rcases List.mem_cons.mp hd with rfl | hd
        · exact hp
        · exact hm d hd
      | none =>
        rw [hrec] at h
        exact ⟨[], c :: cs, rfl, by simp, h⟩
    · simp only [hp] at h
      exact ⟨[], c :: cs, rfl, by simp, by simpa using h⟩

/-- Soundness of the matcher: an accepted run splits the input into a text of the shape of
the pattern and a rest the continuation accepted. -/
theorem Regex.run_sound {α : Type} (r : Regex) :
    ∀ (s : GoString) (caps : List GoString) (k : GoString → List GoString → Option α) (x : α),
      r.run s caps k = some x →
      ∃ m rest caps1, s = m ++ rest ∧ r.Matches m ∧ k rest caps1 = some x := by
  induction r with
  | lit w =>
    intro s caps k x h
    simp only [Regex.run] at h
    by_cases hw : w.isPrefixOf s = true
    · simp only [hw, if_true] at h
      obtain ⟨t, rfl⟩ := List.isPrefixOf_iff_prefix.mp hw
      exact ⟨w, t, caps, rfl, .lit w, by simpa using h⟩
    · simp [hw] at h
  | cls p =>
    intro s caps k x h
    cases s with
    | nil => simp [Regex.run] at h
    | cons c cs =>
      simp only [Regex.run] at h
      by_cases hp : p c = true
      · simp only [hp, if_true] at h
        exact ⟨[c], cs, caps, rfl, .cls p c hp, h⟩
      · simp [hp] at h
  | star p =>
    intro s caps k x h
    simp only [Regex.run] at h
    obtain ⟨m, rest, hs, hm, hk⟩ := starRun_sound p _ x s h
    exact ⟨m, rest, caps, hs, .star p m hm, hk⟩
  | plus p =>
    intro s caps k x h
    cases s with
    | nil => simp [Regex.run] at h
    | cons c cs =>
      simp only [Regex.run] at h
      by_cases hp : p c = true
      · simp only [hp, if_true] at h
        obtain ⟨m, rest, hs, hm, hk⟩ := starRun_sound p _ x cs h
        refine ⟨c :: m, rest, caps, by simp [hs], .plus p (c :: m) (by simp) ?_, hk⟩
        intro d hd
        rcases List.mem_cons.mp hd with rfl | hd
        · exact hp
        · exact hm d hd
      · simp [hp] at h
  | opt r ih =>
    intro s caps k x h
    simp only [Regex.run] at h
    cases hrec : r.run s caps k with
    | some y =>
      rw [hrec] at h
      simp only [Option.some.injEq] at h
      subst h
      obtain ⟨m, rest, caps1, hs, hm, hk⟩ := ih s caps k y hrec
      exact ⟨m, rest, caps1, hs, .optSome r m hm, hk⟩
    | none =>
      rw [hrec] at h
      exact ⟨[], s, caps, rfl, .optNone r, h⟩
  | cat a b iha ihb =>
    intro s caps k x h
    simp only [Regex.run] at h
    obtain ⟨m1, rest1, caps1, hs1, hm1, hk1⟩ := iha s caps _ x h
    obtain ⟨m2, rest2, caps2, hs2, hm2, hk2⟩ := ihb rest1 caps1 k x hk1
    exact ⟨m1 ++ m2, rest2, caps2, by simp [hs1, hs2], .cat a b m1 m2 hm1 hm2, hk2⟩
  | group r ih =>
    intro s caps k x h
    simp only [Regex.run] at h
    obtain ⟨m, rest, caps1, hs, hm, hk⟩ := ih s caps _ x h
    exact ⟨m, rest, _, hs, .group r m hm, hk⟩

/-- An anchored match has the shape of the pattern and starts the input. -/
theorem Regex.matchAt_sound (r : Regex) (s m : GoString) (caps : List GoString)
    (h : r.matchAt s = some (m, caps)) : r.Matches m ∧ m <+: s := by
  unfold Regex.matchAt at h
  obtain ⟨m1, rest, caps1, hs, hm, hk⟩ := r.run_sound s [] _ _ h
  simp only [Option.some.injEq, Prod.mk.injEq] at hk
  have : m = m1 := by
    rw [← hk.1, hs]
    simp
  subst this
  exact ⟨hm, ⟨rest, hs.symm⟩⟩

/-- Every match delivered has the shape of the pattern and lies within the text searched. -/
theorem Regex.findAllFrom_sound (r : Regex) (s : GoString) : ∀ (k : Nat) (am : Bool),
    ∀ e ∈ r.findAllFrom k am s, ∃ m caps, e = m :: caps ∧ r.Matches m ∧ m <:+: s := by
  induction s with
  | nil =>
    intro k am e he
    cases k with
    | succ k => simp [Regex.findAllFrom] at he
    | zero =>
      simp only [Regex.findAllFrom] at he
      cases hm : r.matchAt [] with
      | none => simp [hm] at he
      | some mc =>
        obtain ⟨m, caps⟩ := mc
        rw [hm] at he
        cases am with
        | true => simp at he
        | false =>
          simp at he
          obtain ⟨h1, h2⟩ := r.matchAt_sound [] m caps hm
          exact ⟨m, caps, he, h1, h2.isInfix⟩
  | cons c cs ih =>
    intro k am e he
    cases k with
    | succ k =>
      simp only [Regex.findAllFrom] at he
      obtain ⟨m, caps, h1, h2, h3⟩ := ih k am e he
      exact ⟨m, caps, h1, h2, h3.trans (List.suffix_cons c cs).isInfix⟩
    | zero =>
      simp only [Regex.findAllFrom] at he
      cases hm : r.matchAt (c :: cs) with
      | none =>
        rw [hm] at he
        obtain ⟨m, caps, h1, h2, h3⟩ := ih 0 false e he
        exact ⟨m, caps, h1, h2, h3.trans (List.suffix_cons c cs).isInfix⟩
      | some mc =>
        obtain ⟨m, caps⟩ := mc
        rw [hm] at he
        obtain ⟨hm1, hm2⟩ := r.matchAt_sound (c :: cs) m caps hm
        simp only at he
        by_cases hlen : m.length = 0
        · simp only [hlen, if_true, List.mem_append] at he
          rcases he with he | he
          · cases am with
            | true => simp at he
            | false =>
              simp at he
              exact ⟨m, caps, he, hm1, hm2.isInfix⟩
          · obtain ⟨m', caps', h1, h2, h3⟩ := ih 0 false e he
            exact ⟨m', caps', h1, h2, h3.trans (List.suffix_cons c cs).isInfix⟩
        · simp only [hlen, if_false, List.mem_cons] at he
          rcases he with he | he
          · exact ⟨m, caps, he, hm1, hm2.isInfix⟩
          · obtain ⟨m', caps', h1, h2, h3⟩ := ih _ true e he
            exact ⟨m', caps', h1, h2, h3.trans (List.suffix_cons c cs).isInfix⟩

/-- A text of the shape of `qRe` starts with the word `quantize`. -/
theorem qRe_matches_startsWith (m : GoString) (h : qRe.Matches m) : quantizeWord <+: m := by
  unfold qRe at h
  cases h with
  | cat _ _ m1 m2 h1 h2 =>
    cases h1 with
    | lit _ => exact List.prefix_append _ _

/-- The first match of `qRe` in the query starts with the word and lies within the query. -/
theorem qRe_FindAllString_head (query part : GoString) (tl : List GoString)
    (h : qRe.FindAllString query = part :: tl) :
    quantizeWord <+: part ∧ part <:+: query := by
  unfold Regex.FindAllString at h
  cases hf : qRe.findAllFrom 0 false query with
  | nil => simp [hf] at h
  | cons e es =>
    rw [hf] at h
    simp only [List.map_cons, List.cons.injEq] at h
    obtain ⟨m, caps, h1, h2, h3⟩ := qRe.findAllFrom_sound query 0 false e (by simp [hf])
    subst h1
    simp only [List.headD_cons] at h
    rw [← h.1]
    exact ⟨qRe_matches_startsWith m h2, h3⟩

/-! ### Occurrences and replacement -/

/-- No occurrence is counted exactly when the word is not a substring. -/
theorem countOccurrences_eq_zero_iff (w : GoString) :
    ∀ s : GoString, countOccurrences w s = 0 ↔ ¬ w <:+: s := by
  intro s
  induction s with
  | nil => by_cases h : w = [] <;> simp [countOccurrences, h]
  | cons c cs ih =>
    simp only [countOccurrences, List.infix_cons_iff, not_or, Nat.add_eq_zero_iff, ih]
    by_cases h : w.isPrefixOf (c :: cs) = true
    · have h1 := List.isPrefixOf_iff_prefix.mp h
      simp [h, h1]
    · have h1 : ¬ w <+: c :: cs := fun hp => h (List.isPrefixOf_iff_prefix.mpr hp)
      simp [h, h1]

/-- Dropping a prefix of the text does not add occurrences. -/
theorem countOccurrences_drop_le (w : GoString) :
    ∀ (s : GoString) (k : Nat), countOccurrences w (s.drop k) ≤ countOccurrences w s := by
  intro s
  induction s with
  | nil => intro k; simp
  | cons c cs ih =>
    intro k
    cases k with
    | zero => simp
    | succ k =>
      simp only [List.drop_succ_cons]
      exact Nat.le_trans (ih k) (by simp [countOccurrences])

/-- A character foreign to the word, put in front, adds no occurrence. -/
theorem countOccurrences_cons_of_not_mem (w : GoString) (a : Char) (s : GoString)
    (hw : w ≠ []) (ha : a ∉ w) :
    countOccurrences w (a :: s) = countOccurrences w s := by
  have : w.isPrefixOf (a :: s) = false := by
    cases w with
    | nil => exact absurd rfl hw
    | cons b bs =>
      have hb : b ≠ a := fun h => ha (by simp [h])
      simp [List.isPrefixOf, hb]
  simp [countOccurrences, this]

/-- Skipping `k` characters of an occurrence is dropping them. -/
theorem replaceFrom_skip (old new : GoString) (hold : old ≠ []) :
    ∀ (s : GoString) (k : Nat), replaceFrom old new k s = replaceFrom old new 0 (s.drop k) := by
  intro s
  induction s with
  | nil =>
    intro k
    cases k <;> simp [replaceFrom, hold]
  | cons c cs ih =>
    intro k
    cases k with
    | zero => simp
    | succ k => simpa [replaceFrom] using ih k

/-- One step of the replacement scan, for a non-empty pattern. -/
theorem replaceFrom_cons (old new : GoString) (hold : old ≠ []) (c : Char) (cs : GoString) :
    replaceFrom old new 0 (c :: cs) =
      if old.isPrefixOf (c :: cs) then new ++ replaceFrom old new 0 (cs.drop (old.length - 1))
      else c :: replaceFrom old new 0 cs := by
  simp only [replaceFrom, hold, if_false]
  rw [replaceFrom_skip old new hold cs (old.length - 1)]

/-- A text free of the character that starts the replacement is a prefix of the output
only where it was a prefix of the input. -/
theorem replaceFrom_start_of_start (old : GoString) (hold : old ≠ []) (a : Char)
    (l : GoString) : ∀ (w : GoString), a ∉ w → ∀ s : GoString,
      w <+: replaceFrom old (a :: l) 0 s → w <+: s := by
  intro w
  induction w with
  | nil => intro _ s _; exact List.nil_prefix
  | cons p ps ih =>
    intro ha s h
    cases s with
    | nil => simp [replaceFrom, hold] at h
    | cons c cs =>
      rw [replaceFrom_cons old _ hold] at h
      by_cases hp : old.isPrefixOf (c :: cs) = true
      · rw [if_pos hp, List.cons_append, List.cons_prefix_cons] at h
        exact absurd (by simp [h.1]) ha
      · rw [if_neg hp, List.cons_prefix_cons] at h
        exact List.cons_prefix_cons.mpr ⟨h.1, ih (fun hm => ha (by simp [hm])) cs h.2⟩

/-- Replacing by a single character foreign to the word adds no occurrence of the word. -/
theorem countOccurrences_replaceFrom_le (w old : GoString) (a : Char) (hw : w ≠ [])
    (ha : a ∉ w) (hold : old ≠ []) :
    ∀ (n : Nat) (s : GoString), s.length ≤ n →
      countOccurrences w (replaceFrom old [a] 0 s) ≤ countOccurrences w s := by
  intro n
  induction n with
  | zero =>
    intro s hs
    have : s = [] := List.length_eq_zero.mp (Nat.le_zero.mp hs)
    subst this
    simp [replaceFrom, hold]
  | succ n ih =>
    intro s hs
    cases s with
    | nil => simp [replaceFrom, hold]
    | cons c cs =>
      rw [replaceFrom_cons old _ hold]
      have hcs : cs.length ≤ n := by simpa using hs
      by_cases hp : old.isPrefixOf (c :: cs) = true
      · rw [if_pos hp, List.singleton_append]
        rw [countOccurrences_cons_of_not_mem w a _ hw ha]
        have h1 := ih (cs.drop (old.length - 1)) (by simp; omega)
        have h2 := countOccurrences_drop_le w cs (old.length - 1)
        have h3 : countOccurrences w cs ≤ countOccurrences w (c :: cs) := by
          simp [countOccurrences]
        omega
      · rw [if_neg hp]
        have h1 := ih cs hcs
        have h2 : (w.isPrefixOf (c :: replaceFrom old [a] 0 cs) = true) →
            w.isPrefixOf (c :: cs) = true := by
          intro h
          have h' := List.isPrefixOf_iff_prefix.mp h
          have h'' : w <+: replaceFrom old [a] 0 (c :: cs) := by
            rw [replaceFrom_cons old _ hold, if_neg hp]
            exact h'
          exact List.isPrefixOf_iff_prefix.mpr
            (replaceFrom_start_of_start old hold a [] w ha (c :: cs) h'')
        simp only [countOccurrences]
        by_cases h3 : w.isPrefixOf (c :: replaceFrom old [a] 0 cs) = true
        · rw [if_pos h3, if_pos (h2 h3)]
          omega
        · rw [if_neg h3]
          omega

/-- Replacing a pattern that starts with the word, where the pattern occurs, by a single
character foreign to the word removes at least one occurrence of the word. -/
theorem countOccurrences_replaceFrom_lt (w old : GoString) (a : Char) (hw : w ≠ [])
    (ha : a ∉ w) (hold : old ≠ []) (hwo : w <+: old) :
    ∀ s : GoString, old <:+: s →
      countOccurrences w (replaceFrom old [a] 0 s) < countOccurrences w s := by
  intro s
  induction s with
  | nil =>
    intro h
    exact absurd (List.infix_nil.mp h) hold
  | cons c cs ih =>
    intro h
    rw [replaceFrom_cons old _ hold]
    by_cases hp : old.isPrefixOf (c :: cs) = true
    · rw [if_pos hp, List.singleton_append]
      rw [countOccurrences_cons_of_not_mem w a _ hw ha]
      have h1 := countOccurrences_replaceFrom_le w old a hw ha hold _
        (cs.drop (old.length - 1)) (Nat.le_refl _)
      have h2 := countOccurrences_drop_le w cs (old.length - 1)
      have h3 : w.isPrefixOf (c :: cs) = true :=
        List.isPrefixOf_iff_prefix.mpr (hwo.trans (List.isPrefixOf_iff_prefix.mp hp))
      simp only [countOccurrences, h3, if_true]
      omega
    · rw [if_neg hp]
      have hinf : old <:+: cs := by
        rcases List.infix_cons_iff.mp h with h | h
        · exact absurd (List.isPrefixOf_iff_prefix.mpr h) hp
        · exact h
      have h1 := ih hinf
      have h2 : (w.isPrefixOf (c :: replaceFrom old [a] 0 cs) = true) →
          w.isPrefixOf (c :: cs) = true := by
        intro h
        have h' := List.isPrefixOf_iff_prefix.mp h
        have h'' : w <+: replaceFrom old [a] 0 (c :: cs) := by
          rw [replaceFrom_cons old _ hold, if_neg hp]
          exact h'
        exact List.isPrefixOf_iff_prefix.mpr
          (replaceFrom_start_of_start old hold a [] w ha (c :: cs) h'')
      simp only [countOccurrences]
      by_cases h3 : w.isPrefixOf (c :: replaceFrom old [a] 0 cs) = true
      · rw [if_pos h3, if_pos (h2 h3)]
        omega
      · rw [if_neg h3]
        omega

/-- The trimmed text is a substring of the text. -/
theorem stringsTrimSpace_within (s : GoString) : stringsTrimSpace s <:+: s := by
  unfold stringsTrimSpace
  have h1 : ((s.dropWhile isSpace).reverse.dropWhile isSpace).reverse <+: s.dropWhile isSpace := by
    rw [← List.reverse_suffix]
    simpa using List.dropWhile_suffix (l := (s.dropWhile isSpace).reverse) isSpace
  exact h1.isInfix.trans (List.dropWhile_suffix isSpace).isInfix

/-- C4: whenever `processQuery` returns without error, the rewritten query contains no
occurrence of the word `quantize`. -/
theorem processQuery_removes_quantize (query : GoString) (p : QueryParts)
    (h : processQuery query = .returned p) (hok : p.err = none) :
    ¬ quantizeWord <:+: p.formattedQuery := by
  unfold processQuery at h
  simp only [re_FindAllString_length] at h
  split at h
  · cases h; simp at hok
  · rename_i hcount
    simp only [ne_eq, Decidable.not_not] at hcount
    split at h
    · cases h
    · rename_i quantizePart tl hfind
      obtain ⟨hpre, hinf⟩ := qRe_FindAllString_head query quantizePart tl hfind
      split at h
      · cases h; simp at hok
      · split at h
        · cases h
        · split at h
          · cases h
          · split at h
            · cases h; simp at hok
            · split at h
              · cases h
              · rename_i last hlast
                split at h
                · cases h
                · have hw : quantizeWord ≠ [] := by decide
                  have hsp : ' ' ∉ quantizeWord := by decide
                  have hold : quantizePart ≠ [] := by
                    intro hnil
                    rw [hnil] at hpre
                    exact hw (List.prefix_nil.mp hpre)
                  have hlt := countOccurrences_replaceFrom_lt quantizeWord quantizePart ' '
                    hw hsp hold hpre query hinf
                  have hzero : countOccurrences quantizeWord
                      (stringsReplaceAll query quantizePart [' ']) = 0 := by
                    unfold stringsReplaceAll
                    omega
                  have hno := (countOccurrences_eq_zero_iff quantizeWord _).mp hzero
                  have htrim := stringsTrimSpace_within (stringsReplaceAll query quantizePart [' '])
                  simp only [Run.returned.injEq] at h
                  subst h
                  simp only
                  intro hcon
                  apply hno
                  refine List.IsInfix.trans ?_ htrim
                  split at hcon
                  · exact hcon.trans (List.dropLast_prefix _).isInfix
                  · exact hcon

/-- C4 at the query "foo | quantize to 5m using avg | bar". -/
theorem processQuery_removes_quantize_witness :
    processQuery "foo | quantize to 5m using avg | bar".toList =
        .returned ⟨"foo |   bar".toList, 300000, "Avg".toList, none⟩ ∧
      ¬ quantizeWord <:+: "foo |   bar".toList :=
  ⟨by decide, processQuery_removes_quantize "foo | quantize to 5m using avg | bar".toList
    ⟨"foo |   bar".toList, 300000, "Avg".toList, none⟩ (by decide) rfl⟩

/-! ## Theorems: replaceQueryParameters -/

/-- If every `$` starts one of the words, the same holds after dropping a prefix. -/
theorem dollarsBound_drop (ps : List GoString) :
    ∀ (s : GoString) (k : Nat), dollarsBound ps s = true → dollarsBound ps (s.drop k) = true := by
  intro s
  induction s with
  | nil => intro k h; simpa using h
  | cons c cs ih =>
    intro k h
    cases k with
    | zero => simpa using h
    | succ k =>
      simp only [dollarsBound, Bool.and_eq_true] at h
      simpa using ih k h.2

/-- A text without `$`, put in front, keeps every `$` bound. -/
theorem dollarsBound_append (ps : List GoString) (new s : GoString) (hnew : '$' ∉ new)
    (hs : dollarsBound ps s = true) : dollarsBound ps (new ++ s) = true := by
  induction new with
  | nil => simpa using hs
  | cons a as ih =>
    have ha : a ≠ '$' := fun h => hnew (by simp [h])
    have has : '$' ∉ as := fun h => hnew (by simp [h])
    simp only [List.cons_append, dollarsBound, Bool.and_eq_true, Bool.or_eq_true, bne_iff_ne]
    exact ⟨Or.inl ha, ih has⟩

/-- A text without `$` that starts the input also starts the output of a replacement whose
pattern begins with `$`. -/
theorem replaceFrom_keeps_start (old new : GoString) (hold : old.head? = some '$') :
    ∀ (w : GoString), '$' ∉ w → ∀ s : GoString, w <+: s → w <+: replaceFrom old new 0 s := by
  have hne : old ≠ [] := by
    intro h
    simp [h] at hold
  intro w
  induction w with
  | nil => intro _ s _; exact List.nil_prefix
  | cons x xs ih =>
    intro hx s h
    cases s with
    | nil => simp at h
    | cons c cs =>
      rw [List.cons_prefix_cons] at h
      obtain ⟨rfl, h2⟩ := h
      have hxd : x ≠ '$' := fun h => hx (by simp [h])
      have hnp : ¬ old.isPrefixOf (x :: cs) = true := by
        cases old with
        | nil => exact absurd rfl hne
        | cons o os =>
          simp only [List.head?_cons, Option.some.injEq] at hold
          subst hold
          simp [List.isPrefixOf, Ne.symm hxd]
      rw [replaceFrom_cons old new hne, if_neg hnp, List.cons_prefix_cons]
      exact ⟨rfl, ih (fun h => hx (by simp [h])) cs h2⟩

/-- One replacement step: if every `$` of the input starts the pattern or one of the words
still to come, every `$` of the output starts one of the words still to come. -/
theorem dollarsBound_replaceFrom (old new : GoString) (ps : List GoString)
    (hold : old.head? = some '$')
    (hps : ∀ p ∈ ps, p.head? = some '$' ∧ '$' ∉ p.tail) (hnew : '$' ∉ new) :
    ∀ (n : Nat) (s : GoString), s.length ≤ n → dollarsBound (old :: ps) s = true →
      dollarsBound ps (replaceFrom old new 0 s) = true := by
  have hne : old ≠ [] := by
    intro h
    simp [h] at hold
  intro n
  induction n with
  | zero =>
    intro s hs _
    have : s = [] := List.length_eq_zero.mp (Nat.le_zero.mp hs)
    subst this
    simp [replaceFrom, hne, dollarsBound]
  | succ n ih =>
    intro s hs h
    cases s with
    | nil => simp [replaceFrom, hne, dollarsBound]
    | cons c cs =>
      have hcs : cs.length ≤ n := by simpa using hs
      rw [replaceFrom_cons old new hne]
      by_cases hp : old.isPrefixOf (c :: cs) = true
      · rw [if_pos hp]
        apply dollarsBound_append ps new _ hnew
        apply ih _ (by simp; omega)
        apply dollarsBound_drop
        simp only [dollarsBound, Bool.and_eq_true] at h
        exact h.2
      · rw [if_neg hp]
        simp only [dollarsBound, Bool.and_eq_true, Bool.or_eq_true, bne_iff_ne,
          List.any_eq_true] at h ⊢
        refine ⟨?_, ih cs hcs h.2⟩
        by_cases hc : c = '$'
        · right
          rcases h.1 with h1 | ⟨p, hpmem, hpp⟩
          · exact absurd hc h1
          · rcases List.mem_cons.mp hpmem with rfl | hpmem
            · exact absurd hpp hp
            · refine ⟨p, hpmem, ?_⟩
              obtain ⟨hph, hpt⟩ := hps p hpmem
              cases p with
              | nil => simp at hph
              | cons q qs =>
                have hpp' := List.isPrefixOf_iff_prefix.mp hpp
                rw [List.cons_prefix_cons] at hpp'
                apply List.isPrefixOf_iff_prefix.mpr
                rw [List.cons_prefix_cons]
                exact ⟨hpp'.1, replaceFrom_keeps_start old new hold qs hpt cs hpp'.2⟩
        · exact Or.inl hc

/-- When no word is left to start a `$`, the text has no `$`. -/
theorem not_mem_of_dollarsBound_nil : ∀ s : GoString, dollarsBound [] s = true → '$' ∉ s := by
  intro s
  induction s with
  | nil => intro _; simp
  | cons c cs ih =>
    intro h
    simp only [dollarsBound, List.any_nil, Bool.or_false, Bool.and_eq_true, bne_iff_ne] at h
    intro hmem
    rcases List.mem_cons.mp hmem with h1 | h1
    · exact h.1 h1.symm
    · exact ih h.2 h1

/-- No decimal digit is the character `$`. -/
theorem digitChar_ne_dollar : ∀ d < 10, Nat.digitChar d ≠ '$' := by decide

/-- The digits of a number contain no `$`. -/
theorem toDigitsCore_no_dollar : ∀ (fuel n : Nat) (ds : List Char), '$' ∉ ds →
    '$' ∉ Nat.toDigitsCore 10 fuel n ds := by
  intro fuel
  induction fuel with
  | zero => intro n ds h; simpa [Nat.toDigitsCore] using h
  | succ fuel ih =>
    intro n ds h
    have hd : '$' ∉ Nat.digitChar (n % 10) :: ds := by
      intro hm
      rcases List.mem_cons.mp hm with h1 | h1
      · exact digitChar_ne_dollar _ (Nat.mod_lt n (by decide)) h1.symm
      · exact h h1
    simp only [Nat.toDigitsCore]
    split
    · exact hd
    · exact ih _ _ hd

/-- The decimal string of an integer contains no `$`. -/
theorem FormatInt_no_dollar (n : Int) : '$' ∉ FormatInt n := by
  unfold FormatInt Nat.toDigits
  split
  · intro hm
    rcases List.mem_cons.mp hm with h1 | h1
    · exact absurd h1 (by decide)
    · exact toDigitsCore_no_dollar _ _ [] (by simp) h1
  · exact toDigitsCore_no_dollar _ _ [] (by simp)

/-- Each placeholder is a `$` followed by text without `$`. -/
theorem placeholders_shape : ∀ p ∈ placeholders, p.head? = some '$' ∧ '$' ∉ p.tail := by decide

/-- C9 (as amended): when every `$` of the template starts one of the seven placeholders and
the project, stage and service values contain no `$`, the string returned by
`replaceQueryParameters` contains no `$`, hence no occurrence of any placeholder. -/
theorem replaceQueryParameters_no_placeholder (data : GetSLITriggeredEventData)
    (query : GoString) (start end_ : Time)
    (hp : '$' ∉ data.Project) (hs : '$' ∉ data.Stage) (hv : '$' ∉ data.Service)
    (hq : dollarsBound placeholders query = true) :
    '$' ∉ replaceQueryParameters data query start end_ ∧
    ∀ p ∈ placeholders, ¬ p <:+: replaceQueryParameters data query start end_ := by
  have hsh : ∀ (ps : List GoString), ps ⊆ placeholders →
      ∀ p ∈ ps, p.head? = some '$' ∧ '$' ∉ p.tail :=
    fun ps hsub p hp => placeholders_shape p (hsub hp)
  have key : '$' ∉ replaceQueryParameters data query start end_ := by
    have h1 := dollarsBound_replaceFrom "$PROJECT".toList data.Project
      ["$STAGE".toList, "$SERVICE".toList, "$project".toList, "$stage".toList,
        "$service".toList, "$DURATION".toList]
      (by decide) (hsh _ (by simp [placeholders])) hp _ query (Nat.le_refl _) hq
    have h2 := dollarsBound_replaceFrom "$STAGE".toList data.Stage
      ["$SERVICE".toList, "$project".toList, "$stage".toList, "$service".toList,
        "$DURATION".toList]
      (by decide) (hsh _ (by simp [placeholders])) hs _ _ (Nat.le_refl _) h1
    have h3 := dollarsBound_replaceFrom "$SERVICE".toList data.Service
      ["$project".toList, "$stage".toList, "$service".toList, "$DURATION".toList]
      (by decide) (hsh _ (by simp [placeholders])) hv _ _ (Nat.le_refl _) h2
    have h4 := dollarsBound_replaceFrom "$project".toList data.Project
      ["$stage".toList, "$service".toList, "$DURATION".toList]
      (by decide) (hsh _ (by simp [placeholders])) hp _ _ (Nat.le_refl _) h3
    have h5 := dollarsBound_replaceFrom "$stage".toList data.Stage
      ["$service".toList, "$DURATION".toList]
      (by decide) (hsh _ (by simp [placeholders])) hs _ _ (Nat.le_refl _) h4
    have h6 := dollarsBound_replaceFrom "$service".toList data.Service
      ["$DURATION".toList]
      (by decide) (hsh _ (by simp [placeholders])) hv _ _ (Nat.le_refl _) h5
    have h7 := dollarsBound_replaceFrom "$DURATION".toList
      (FormatInt (getDurationInSeconds start end_)) []
      (by decide) (hsh _ (by simp)) (FormatInt_no_dollar _) _ _ (Nat.le_refl _) h6
    exact not_mem_of_dollarsBound_nil _ h7
  refine ⟨key, ?_⟩
  intro p hpm hinf
  have h1 := (placeholders_shape p hpm).1
  have h2 : '$' ∈ p := by
    cases p with
    | nil => simp at h1
    | cons a as =>
      simp only [List.head?_cons, Option.some.injEq] at h1
      simp [h1]
  exact key (hinf.subset h2)

/-- C9 (as amended) at a template with four placeholders. -/
theorem replaceQueryParameters_no_placeholder_witness :
    '$' ∉ replaceQueryParameters exampleData
      "metric=throughput svc=$SERVICE stage=$stage project=$PROJECT | quantize to $DURATIONs using avg".toList
      (timeUnix 1600000000) (timeUnix 1600000300) :=
  (replaceQueryParameters_no_placeholder exampleData _ _ _ (by decide) (by decide) (by decide)
    (by decide)).1

/-- C9, counterexamples: with the stage value "$PROJECT" the template "$STAGE" is rendered
as "$PROJECT", a placeholder brought in by a value after its turn; with the stage value
"ject" the template "$pro$stage" is rendered as "$project", a placeholder that the
replacement itself puts together after its turn. -/
theorem replaceQueryParameters_placeholder_survives :
    "$PROJECT".toList <:+: replaceQueryParameters { exampleData with Stage := "$PROJECT".toList }
      "$STAGE".toList (timeUnix 1600000000) (timeUnix 1600000300) ∧
    "$project".toList <:+: replaceQueryParameters { exampleData with Stage := "ject".toList }
      "$pro$stage".toList (timeUnix 1600000000) (timeUnix 1600000300) := by
  have h1 : replaceQueryParameters { exampleData with Stage := "$PROJECT".toList }
      "$STAGE".toList (timeUnix 1600000000) (timeUnix 1600000300) = "$PROJECT".toList := by
    decide
  have h2 : replaceQueryParameters { exampleData with Stage := "ject".toList }
      "$pro$stage".toList (timeUnix 1600000000) (timeUnix 1600000300)
        = "$project".toList := by
    decide
  rw [h1, h2]
  exact ⟨List.infix_refl _, List.infix_refl _⟩

/-! ## Theorems: getDurationInSeconds -/

/-- With enough fuel `bitLog` is the binary logarithm. -/
theorem bitLog_eq_log : ∀ (fuel n : Nat), n ≤ fuel → bitLog fuel n = Nat.log 2 n := by
  intro fuel
  induction fuel with
  | zero =>
    intro n h
    have : n = 0 := Nat.le_zero.mp h
    subst this
    simp [bitLog]
  | succ fuel ih =>
    intro n h
    simp only [bitLog]
    by_cases h2 : n < 2
    · rw [if_pos h2, Nat.log_of_lt h2]
    · rw [if_neg h2, ih (n / 2) (by omega),
        Nat.log_of_one_lt_of_le (by decide) (Nat.le_of_not_lt h2)]

/-- The function `floorLog2` is the binary logarithm of Mathlib. -/
theorem floorLog2_eq_log (n : Nat) : floorLog2 n = Nat.log 2 n :=
  bitLog_eq_log n n (Nat.le_refl n)

/-- Multiplying by `2 ^ k` adds `k` to the binary logarithm. -/
theorem log_mul_pow (a k : Nat) (ha : 0 < a) : Nat.log 2 (a * 2 ^ k) = Nat.log 2 a + k := by
  induction k with
  | zero => simp
  | succ k ih =>
    rw [Nat.pow_succ, ← Nat.mul_assoc,
      Nat.log_mul_base (by decide) (Nat.mul_ne_zero (Nat.pos_iff_ne_zero.mp ha) (by positivity)),
      ih]
    omega

/-- The exponent of the leading bit of the integer `a`, given as the ratio `a * 2 ^ k / 2 ^ k`. -/
theorem ratioExponent_scaled (a k : Nat) (ha : 0 < a) :
    ratioExponent (a * 2 ^ k) (2 ^ k) = (Nat.log 2 a : Int) := by
  unfold ratioExponent
  simp only [floorLog2_eq_log, log_mul_pow a k ha, Nat.log_pow (by decide : 1 < 2)]
  have he : ((Nat.log 2 a + k : Nat) : Int) - (k : Int) = (Nat.log 2 a : Int) := by
    push_cast
    omega
  simp only [he]
  have hge : (Nat.log 2 a : Int) ≥ 0 := Int.natCast_nonneg _
  have hpow : 2 ^ Nat.log 2 a ≤ a := Nat.pow_log_le_self 2 (Nat.pos_iff_ne_zero.mp ha)
  have hnb : ¬ a * 2 ^ k < 2 ^ k * 2 ^ Nat.log 2 a := by
    rw [Nat.mul_comm (2 ^ k)]
    exact Nat.not_lt.mpr (Nat.mul_le_mul_right _ hpow)
  simp [hge, hnb]

/-- An exact quotient is not changed by rounding. -/
theorem roundQuotient_exact (q den : Nat) (hden : 0 < den) : roundQuotient (q * den) den = q := by
  unfold roundQuotient
  simp [Nat.mul_div_cancel _ hden, hden]

/-- An integer below `2 ^ 53` in magnitude is a float64: rounding it is exact. -/
theorem roundRatio_exact (n : Int) (a k : Nat) (hnat : n.natAbs = a * 2 ^ k) (ha : 0 < a)
    (hlt : a < 2 ^ 53) :
    roundRatio n (2 ^ k) =
      ⟨if n < 0 then -((a * 2 ^ (52 - Nat.log 2 a) : Nat) : Int)
        else ((a * 2 ^ (52 - Nat.log 2 a) : Nat) : Int), (Nat.log 2 a : Int) - 52⟩ := by
  have hL : Nat.log 2 a < 53 := Nat.log_lt_of_lt_pow (Nat.pos_iff_ne_zero.mp ha) hlt
  have hpos : 0 < a * 2 ^ k := Nat.mul_pos ha (by positivity)
  have hn0 : n ≠ 0 := by
    intro h
    rw [h] at hnat
    simp at hnat
    omega
  unfold roundRatio
  rw [if_neg hn0]
  simp only [hnat, ratioExponent_scaled a k ha]
  have ht : max ((Nat.log 2 a : Int) - 52) (-1074) = (Nat.log 2 a : Int) - 52 := by omega
  simp only [ht]
  have h1 : (-((Nat.log 2 a : Int) - 52)).toNat = 52 - Nat.log 2 a := by omega
  have h2 : ((Nat.log 2 a : Int) - 52).toNat = 0 := by omega
  rw [h1, h2, Nat.pow_zero, Nat.mul_one]
  have h3 : a * 2 ^ k * 2 ^ (52 - Nat.log 2 a) = (a * 2 ^ (52 - Nat.log 2 a)) * 2 ^ k := by ring
  rw [h3, roundQuotient_exact _ _ (by positivity)]

/-- Within the `int64` range nothing wraps. -/
theorem wrap64_of_range (x : Int) (h1 : -9223372036854775808 ≤ x)
    (h2 : x < 9223372036854775808) : wrap64 x = x := by
  unfold wrap64
  omega

/-- The conversion `float64(x)` is exact for integers below `2 ^ 53` in magnitude. -/
theorem F64_ofInt_exact (a : Nat) (neg : Bool) (ha : 0 < a) (hlt : a < 2 ^ 53) :
    F64.ofInt (if neg then -(a : Int) else (a : Int)) =
      ⟨if neg then -((a * 2 ^ (52 - Nat.log 2 a) : Nat) : Int)
        else ((a * 2 ^ (52 - Nat.log 2 a) : Nat) : Int), (Nat.log 2 a : Int) - 52⟩ := by
  have hpos : (0 : Int) < (a : Int) := by exact_mod_cast ha
  have h := roundRatio_exact (if neg then -(a : Int) else (a : Int)) a 0
    (by cases neg <;> simp) ha hlt
  unfold F64.ofInt
  rw [pow_zero] at h
  rw [h]
  cases neg
  · have : ¬ ((a : Int) < 0) := by omega
    simp [this]
  · have : (-(a : Int) < 0) := by omega
    simp [this]

/-- Adding the float64 zero to such an integer returns it. -/
theorem F64_add_zero_exact (a : Nat) (neg : Bool) (ha : 0 < a) (hlt : a < 2 ^ 53) :
    F64.add ⟨if neg then -((a * 2 ^ (52 - Nat.log 2 a) : Nat) : Int)
        else ((a * 2 ^ (52 - Nat.log 2 a) : Nat) : Int), (Nat.log 2 a : Int) - 52⟩ ⟨0, 0⟩ =
      ⟨if neg then -((a * 2 ^ (52 - Nat.log 2 a) : Nat) : Int)
        else ((a * 2 ^ (52 - Nat.log 2 a) : Nat) : Int), (Nat.log 2 a : Int) - 52⟩ := by
  have hL : Nat.log 2 a < 53 := Nat.log_lt_of_lt_pow (Nat.pos_iff_ne_zero.mp ha) hlt
  have hM : (0 : Int) < ((a * 2 ^ (52 - Nat.log 2 a) : Nat) : Int) := by
    exact_mod_cast Nat.mul_pos ha (by positivity)
  unfold F64.add
  simp only
  have hmin : min ((Nat.log 2 a : Int) - 52) 0 = (Nat.log 2 a : Int) - 52 := by omega
  have h1 : (-((Nat.log 2 a : Int) - 52)).toNat = 52 - Nat.log 2 a := by omega
  have h2 : ((Nat.log 2 a : Int) - 52).toNat = 0 := by omega
  simp only [hmin, sub_self, Int.toNat_zero, pow_zero, mul_one, zero_mul, add_zero, h1, h2]
  cases neg
  · have hnot : ¬ (((a * 2 ^ (52 - Nat.log 2 a) : Nat) : Int) < 0) := by omega
    simp only [Bool.false_eq_true, if_false]
    rw [roundRatio_exact _ a (52 - Nat.log 2 a) (Int.natAbs_ofNat _) ha hlt, if_neg hnot]
  · have hneg : (-((a * 2 ^ (52 - Nat.log 2 a) : Nat) : Int) < 0) := by omega
    simp only [if_true]
    rw [roundRatio_exact _ a (52 - Nat.log 2 a) (by rw [Int.natAbs_neg, Int.natAbs_ofNat])
      ha hlt, if_pos hneg]

/-- The ceiling of the float64 of such an integer is the integer. -/
theorem F64_ceilInt_exact (a : Nat) (neg : Bool) (ha : 0 < a) (hlt : a < 2 ^ 53) :
    F64.ceilInt ⟨if neg then -((a * 2 ^ (52 - Nat.log 2 a) : Nat) : Int)
        else ((a * 2 ^ (52 - Nat.log 2 a) : Nat) : Int), (Nat.log 2 a : Int) - 52⟩ =
      if neg then -(a : Int) else (a : Int) := by
  have hL : Nat.log 2 a < 53 := Nat.log_lt_of_lt_pow (Nat.pos_iff_ne_zero.mp ha) hlt
  unfold F64.ceilInt
  simp only
  have h1 : (-((Nat.log 2 a : Int) - 52)).toNat = 52 - Nat.log 2 a := by omega
  have hpw : ((2 : Int) ^ (52 - Nat.log 2 a)) ≠ 0 := by positivity
  by_cases hL52 : Nat.log 2 a = 52
  · simp [hL52]
  · have hlt : ¬ ((Nat.log 2 a : Int) - 52 ≥ 0) := by omega
    rw [if_neg hlt, h1]
    cases neg
    · simp only [Bool.false_eq_true, if_false]
      push_cast
      rw [Int.neg_mul_ediv_cancel _ _ hpw]
      omega
    · simp only [if_true]
      push_cast
      rw [neg_neg, Int.mul_ediv_cancel _ hpw]

/-- The float64 value of a whole number of seconds below `2 ^ 53` is that number. -/
theorem Seconds_whole (x : Int) (hx : x.natAbs < 2 ^ 53) :
    (Seconds (x * 1000000000)).ceilInt = x := by
  unfold Seconds
  simp only [Int.mul_tdiv_cancel x (by decide : (1000000000 : Int) ≠ 0), Int.mul_tmod_left]
  have hz : (F64.ofInt 0).div (F64.ofInt 1000000000) = ⟨0, 0⟩ := by decide
  rw [hz]
  by_cases h0 : x = 0
  · subst h0
    decide
  · have ha : 0 < x.natAbs := Int.natAbs_pos.mpr h0
    have hxeq : x = if decide (x < 0) then -(x.natAbs : Int) else (x.natAbs : Int) := by
      by_cases hneg : x < 0
      · simp only [hneg, decide_True, if_true]
        omega
      · simp only [hneg, decide_False, Bool.false_eq_true, if_false]
        omega
    rw [hxeq, F64_ofInt_exact _ _ ha hx, F64_add_zero_exact _ _ ha hx,
      F64_ceilInt_exact _ _ ha hx]

/-- For instants on whole seconds that are at most 9223372036 seconds apart `Sub` is the
exact difference in nanoseconds. -/
theorem Time_Sub_whole (start end_ : Time) (hs : start.nsec = 0) (he : end_.nsec = 0)
    (he1 : -9223372036854775808 ≤ end_.sec) (he2 : end_.sec < 9223372036854775808)
    (hd1 : -9223372036 ≤ end_.sec - start.sec) (hd2 : end_.sec - start.sec ≤ 9223372036) :
    end_.Sub start = (end_.sec - start.sec) * 1000000000 := by
  unfold Time.Sub
  simp only [hs, he, sub_self, add_zero]
  have hw1 : wrap64 (end_.sec - start.sec) = end_.sec - start.sec := wrap64_of_range _ (by omega) (by omega)
  have hw2 : wrap64 ((end_.sec - start.sec) * 1000000000) = (end_.sec - start.sec) * 1000000000 :=
    wrap64_of_range _ (by omega) (by omega)
  rw [hw1, hw2, hw2]
  have hadd : (start.Add ((end_.sec - start.sec) * 1000000000)).Equal end_ = true := by
    unfold Time.Add
    simp only [Int.mul_tdiv_cancel _ (by decide : (1000000000 : Int) ≠ 0), Int.mul_tmod_left,
      hs, add_zero]
    simp only [ge_iff_le, show ¬ ((1000000000 : Int) ≤ 0) by decide, if_false, lt_self_iff_false]
    unfold Time.addSec
    have hsum : wrap64 (start.sec + (end_.sec - start.sec)) = end_.sec := by
      rw [wrap64_of_range _ (by omega) (by omega)]
      omega
    simp only [hsum]
    have hdec : decide (end_.sec > start.sec) = decide (end_.sec - start.sec > 0) := by
      by_cases h : end_.sec > start.sec
      · have h' : end_.sec - start.sec > 0 := by omega
        simp [h, h']
      · have h' : ¬ end_.sec - start.sec > 0 := by omega
        simp [h, h']
    rw [if_pos hdec]
    simp [Time.Equal, he]
  rw [if_pos hadd]

/-- Whole seconds: for instants on whole seconds that are at most 9223372036 seconds apart,
`getDurationInSeconds` is the difference `end - start` in seconds, of either sign, which is
the ceiling of the exact difference, and `replaceQueryParameters` puts the decimal string of
that integer in the place of `$DURATION`. -/
theorem getDurationInSeconds_whole_seconds (start end_ : Time)
    (hs : start.nsec = 0) (he : end_.nsec = 0)
    (he1 : -9223372036854775808 ≤ end_.sec) (he2 : end_.sec < 9223372036854775808)
    (hd1 : -9223372036 ≤ end_.sec - start.sec) (hd2 : end_.sec - start.sec ≤ 9223372036) :
    getDurationInSeconds start end_ = end_.sec - start.sec ∧
    getDurationInSeconds start end_ = ceilSeconds (end_.unixNanos - start.unixNanos) ∧
    ∀ (data : GetSLITriggeredEventData) (query : GoString),
      replaceQueryParameters data query start end_ =
        stringsReplaceAll
          (stringsReplaceAll (stringsReplaceAll (stringsReplaceAll (stringsReplaceAll
            (stringsReplaceAll (stringsReplaceAll query "$PROJECT".toList data.Project)
              "$STAGE".toList data.Stage) "$SERVICE".toList data.Service)
            "$project".toList data.Project) "$stage".toList data.Stage)
            "$service".toList data.Service)
          "$DURATION".toList (FormatInt (end_.sec - start.sec)) := by
  have hdur : getDurationInSeconds start end_ = end_.sec - start.sec := by
    unfold getDurationInSeconds
    rw [Time_Sub_whole start end_ hs he he1 he2 hd1 hd2]
    apply Seconds_whole
    have : (2 : Nat) ^ 53 = 9007199254740992 := by norm_num
    omega
  refine ⟨hdur, ?_, ?_⟩
  · rw [hdur]
    unfold ceilSeconds Time.unixNanos
    rw [hs, he]
    have : -((end_.sec - unixToInternal) * 1000000000 + 0
        - ((start.sec - unixToInternal) * 1000000000 + 0))
        = (start.sec - end_.sec) * 1000000000 := by ring
    rw [this, Int.mul_ediv_cancel _ (by decide : (1000000000 : Int) ≠ 0)]
    omega
  · intro data query
    unfold replaceQueryParameters
    simp only [hdur]

set_option maxRecDepth 100000 in
/-- Whole seconds at a window of 300 seconds, at the reversed window and at an empty one. -/
theorem getDurationInSeconds_whole_seconds_witness :
    getDurationInSeconds (timeUnix 1600000000) (timeUnix 1600000300) = 300 ∧
    getDurationInSeconds (timeUnix 1600000300) (timeUnix 1600000000) = -300 ∧
    getDurationInSeconds (timeUnix 1600000000) (timeUnix 1600000000) = 0 :=
  ⟨(getDurationInSeconds_whole_seconds (timeUnix 1600000000) (timeUnix 1600000300)
      rfl rfl (by decide) (by decide) (by decide) (by decide)).1,
   (getDurationInSeconds_whole_seconds (timeUnix 1600000300) (timeUnix 1600000000)
      rfl rfl (by decide) (by decide) (by decide) (by decide)).1,
   (getDurationInSeconds_whole_seconds (timeUnix 1600000000) (timeUnix 1600000000)
      rfl rfl (by decide) (by decide) (by decide) (by decide)).1⟩

set_option maxRecDepth 100000 in
/-- C10, counterexamples: for instants 10000000000 seconds apart `Sub` saturates and the result
is 9223372037; for instants 31536000 seconds and one nanosecond apart the float64 sum rounds
the nanosecond away and the result is 31536000, not 31536001. -/
theorem getDurationInSeconds_not_ceiling :
    (getDurationInSeconds (timeUnix 0) (timeUnix 10000000000) = 9223372037 ∧
      ceilSeconds ((timeUnix 10000000000).unixNanos - (timeUnix 0).unixNanos) = 10000000000 ∧
      getDurationInSeconds (timeUnix 0) (timeUnix 10000000000) ≠
        ceilSeconds ((timeUnix 10000000000).unixNanos - (timeUnix 0).unixNanos)) ∧
    (getDurationInSeconds (timeUnix 0) ⟨unixToInternal + 31536000, 1⟩ = 31536000 ∧
      ceilSeconds ((⟨unixToInternal + 31536000, 1⟩ : Time).unixNanos - (timeUnix 0).unixNanos)
        = 31536001 ∧
      getDurationInSeconds (timeUnix 0) ⟨unixToInternal + 31536000, 1⟩ ≠
        ceilSeconds ((⟨unixToInternal + 31536000, 1⟩ : Time).unixNanos
          - (timeUnix 0).unixNanos)) := by
  decide

/-! ### The ceiling with nanoseconds -/

/-- Truncated division and remainder by `10 ^ 9` in terms of floor division. -/
theorem tdiv_tmod_billion (d : Int) :
    d.tdiv 1000000000 = (if 0 ≤ d then d / 1000000000 else -((-d) / 1000000000)) ∧
    d.tmod 1000000000 = (if 0 ≤ d then d % 1000000000 else -((-d) % 1000000000)) := by
  by_cases h : 0 ≤ d
  · rw [if_pos h, if_pos h]
    exact ⟨Int.tdiv_eq_ediv h (by decide), Int.tmod_eq_emod h (by decide)⟩
  · rw [if_neg h, if_neg h]
    have hn : 0 ≤ -d := by omega
    have h1 : (-d).tdiv 1000000000 = (-d) / 1000000000 := Int.tdiv_eq_ediv hn (by decide)
    have h2 : (-d).tmod 1000000000 = (-d) % 1000000000 := Int.tmod_eq_emod hn (by decide)
    rw [Int.neg_tdiv] at h1
    have h3 := Int.tdiv_add_tmod d 1000000000
    have h4 := Int.tdiv_add_tmod (-d) 1000000000
    rw [Int.neg_tdiv] at h4
    constructor
    · omega
    · omega

/-- Adding a duration that leads to a valid time within the `int64` seconds gives that
time. -/
theorem Time_Add_exact (t u : Time) (d : Int)
    (ht : 0 ≤ t.nsec ∧ t.nsec < 1000000000) (hu : 0 ≤ u.nsec ∧ u.nsec < 1000000000)
    (hu1 : -9223372036854775808 ≤ u.sec) (hu2 : u.sec < 9223372036854775808)
    (hd : u.sec * 1000000000 + u.nsec = t.sec * 1000000000 + t.nsec + d) :
    t.Add d = u := by
  obtain ⟨hq, hr⟩ := tdiv_tmod_billion d
  unfold Time.Add
  simp only
  generalize d.tdiv 1000000000 = q at hq ⊢
  generalize d.tmod 1000000000 = r at hr ⊢
  have hqr : d = q * 1000000000 + r ∧ -1000000000 < r ∧ r < 1000000000 := by
    by_cases h : 0 ≤ d
    · rw [if_pos h] at hq hr
      omega
    · rw [if_neg h] at hq hr
      omega
  obtain ⟨hd0, hr1, hr2⟩ := hqr
  have key : ∀ (n k : Int), 0 ≤ n → n < 1000000000 →
      (t.sec + k) * 1000000000 + n = u.sec * 1000000000 + u.nsec →
      Time.addSec ⟨t.sec, n⟩ k = u := by
    intro n k hn1 hn2 hk
    have hsec : t.sec + k = u.sec := by omega
    have hnsec : n = u.nsec := by omega
    unfold Time.addSec
    simp only
    rw [hsec, wrap64_of_range _ hu1 hu2]
    have hdec : decide (u.sec > t.sec) = decide (k > 0) := by
      by_cases h : k > 0
      · have h' : u.sec > t.sec := by omega
        simp [h, h']
      · have h' : ¬ u.sec > t.sec := by omega
        simp [h, h']
    rw [if_pos hdec, hnsec]
  split
  · exact key _ _ (by omega) (by omega) (by omega)
  · split
    · exact key _ _ (by omega) (by omega) (by omega)
    · exact key _ _ (by omega) (by omega) (by omega)

/-- A wrapped term of a sum may be taken unwrapped. -/
theorem wrap64_add_wrap (a b : Int) : wrap64 (wrap64 a + b) = wrap64 (a + b) := by
  unfold wrap64
  omega

/-- For valid instants whose difference fits a `Duration`, `Sub` is the exact difference in
nanoseconds. -/
theorem Time_Sub_exact (start end_ : Time)
    (hs : 0 ≤ start.nsec ∧ start.nsec < 1000000000)
    (he : 0 ≤ end_.nsec ∧ end_.nsec < 1000000000)
    (he1 : -9223372036854775808 ≤ end_.sec) (he2 : end_.sec < 9223372036854775808)
    (hd1 : -9223372036854775808 ≤ end_.unixNanos - start.unixNanos)
    (hd2 : end_.unixNanos - start.unixNanos < 9223372036854775808) :
    end_.Sub start = end_.unixNanos - start.unixNanos := by
  have hval : end_.unixNanos - start.unixNanos
      = (end_.sec - start.sec) * 1000000000 + (end_.nsec - start.nsec) := by
    unfold Time.unixNanos
    ring
  rw [hval] at hd1 hd2
  unfold Time.Sub
  simp only
  have hw1 : wrap64 (end_.sec - start.sec) = end_.sec - start.sec :=
    wrap64_of_range _ (by omega) (by omega)
  have hw3 : wrap64 (wrap64 ((end_.sec - start.sec) * 1000000000) + (end_.nsec - start.nsec))
      = (end_.sec - start.sec) * 1000000000 + (end_.nsec - start.nsec) := by
    rw [wrap64_add_wrap]
    exact wrap64_of_range _ hd1 hd2
  rw [hw1, hw3]
  have hadd : start.Add ((end_.sec - start.sec) * 1000000000 + (end_.nsec - start.nsec))
      = end_ := Time_Add_exact start end_ _ hs he he1 he2 (by ring)
  rw [hadd]
  have heq : end_.Equal end_ = true := by simp [Time.Equal]
  rw [if_pos heq, hval]

/-- A ratio below `2 ^ E` has its leading bit below `E`. -/
theorem ratioExponent_lt (a d E : Nat) (ha : 0 < a) (h : a < d * 2 ^ E) :
    ratioExponent a d < (E : Int) := by
  have hla : 2 ^ Nat.log 2 a ≤ a := Nat.pow_log_le_self 2 (Nat.pos_iff_ne_zero.mp ha)
  have hld : d < 2 ^ (Nat.log 2 d + 1) := Nat.lt_pow_succ_log_self (by decide) d
  have hlt : 2 ^ Nat.log 2 a < 2 ^ (Nat.log 2 d + 1 + E) := by
    calc 2 ^ Nat.log 2 a ≤ a := hla
      _ < d * 2 ^ E := h
      _ < 2 ^ (Nat.log 2 d + 1) * 2 ^ E := Nat.mul_lt_mul_of_pos_right hld (by positivity)
      _ = 2 ^ (Nat.log 2 d + 1 + E) := (Nat.pow_add 2 _ _).symm
  have hlog : Nat.log 2 a < Nat.log 2 d + 1 + E := (Nat.pow_lt_pow_iff_right (by decide)).mp hlt
  unfold ratioExponent
  simp only [floorLog2_eq_log]
  by_cases he : ((Nat.log 2 a : Int) - (Nat.log 2 d : Int)) = (E : Int)
  · have hge : ((Nat.log 2 a : Int) - (Nat.log 2 d : Int)) ≥ 0 := by omega
    have hto : ((Nat.log 2 a : Int) - (Nat.log 2 d : Int)).toNat = E := by omega
    simp only [hge, if_true, hto, h, decide_True]
    omega
  · split <;> omega

/-- The rounded quotient is within one half of the exact one. -/
theorem roundQuotient_near (num den : Nat) (hden : 0 < den) :
    2 * (roundQuotient num den * den) ≤ 2 * num + den ∧
    2 * num ≤ 2 * (roundQuotient num den * den) + den := by
  have h1 := Nat.div_add_mod num den
  have h2 := Nat.mod_lt num hden
  unfold roundQuotient
  simp only
  generalize num / den = q at h1 ⊢
  generalize num % den = r at h1 h2 ⊢
  have h3 : den * q = q * den := Nat.mul_comm _ _
  have h4 : (q + 1) * den = q * den + den := by ring
  split
  · omega
  · split
    · rw [h4]; omega
    · split
      · omega
      · rw [h4]; omega

/-- A whole even number of denominators added to the numerator adds that number to the
rounded quotient. -/
theorem roundQuotient_add_mul (q r den : Nat) (hden : 0 < den) (hq : q % 2 = 0) :
    roundQuotient (q * den + r) den = q + roundQuotient r den := by
  unfold roundQuotient
  have h1 : (q * den + r) / den = q + r / den := by
    rw [Nat.add_comm, Nat.add_mul_div_right _ _ hden, Nat.add_comm]
  have h2 : (q * den + r) % den = r % den := by
    rw [Nat.add_comm, Nat.add_mul_mod_self_right]
  simp only [h1, h2]
  have h3 : (q + r / den) % 2 = (r / den) % 2 := by omega
  rw [h3]
  split
  · rfl
  · split
    · omega
    · split <;> omega

/-- A common factor of numerator and denominator does not change the rounded quotient. -/
theorem roundQuotient_mul_right (x y c : Nat) (hc : 0 < c) :
    roundQuotient (x * c) (y * c) = roundQuotient x y := by
  unfold roundQuotient
  simp only [Nat.mul_div_mul_right _ _ hc, Nat.mul_mod_mul_right]
  have h1 : (2 * (x % y * c) < y * c) ↔ (2 * (x % y) < y) := by
    rw [← Nat.mul_assoc]
    exact Nat.mul_lt_mul_right hc
  have h2 : (2 * (x % y * c) > y * c) ↔ (2 * (x % y) > y) := by
    rw [← Nat.mul_assoc]
    exact Nat.mul_lt_mul_right hc
  simp only [h1, h2]

/-- Rounding of a ratio below `2 ^ E`, `E ≤ 52`: the last bit kept has a negative exponent
`-U` with `53 ≤ U + E`, and the mantissa is the rounded quotient at that scale. -/
theorem roundRatio_small (n : Int) (d E : Nat) (hn : n ≠ 0) (hE : E ≤ 52)
    (h : n.natAbs < d * 2 ^ E) :
    ∃ U : Nat, 53 ≤ U + E ∧
      roundRatio n d =
        ⟨if n < 0 then -((roundQuotient (n.natAbs * 2 ^ U) d : Nat) : Int)
          else ((roundQuotient (n.natAbs * 2 ^ U) d : Nat) : Int), -(U : Int)⟩ := by
  have ha : 0 < n.natAbs := Int.natAbs_pos.mpr hn
  have he := ratioExponent_lt n.natAbs d E ha h
  refine ⟨(-(max (ratioExponent n.natAbs d - 52) (-1074))).toNat, by omega, ?_⟩
  unfold roundRatio
  rw [if_neg hn]
  simp only
  have ht : (max (ratioExponent n.natAbs d - 52) (-1074)).toNat = 0 := by omega
  have hU : ((-(max (ratioExponent n.natAbs d - 52) (-1074))).toNat : Int)
      = -(max (ratioExponent n.natAbs d - 52) (-1074)) := by omega
  rw [ht, pow_zero, Nat.mul_one, hU, neg_neg]


/-- The sub-second part of `Duration.Seconds`: `float64(nsec) / 1e9` is the quotient of
`nsec` by `10 ^ 9` rounded at a last bit `2 ^ (-T)` with `T ≥ 53`. -/
theorem F64_div_nsec (N : Nat) (neg : Bool) (hN : 0 < N) (hlt : N < 1000000000) :
    ∃ T : Nat, 53 ≤ T ∧
      (F64.ofInt (if neg then -(N : Int) else (N : Int))).div (F64.ofInt 1000000000) =
        ⟨if neg then -((roundQuotient (N * 2 ^ T) 1000000000 : Nat) : Int)
          else ((roundQuotient (N * 2 ^ T) 1000000000 : Nat) : Int), -(T : Int)⟩ := by
  have hN53 : N < 2 ^ 53 := by
    have : (2 : Nat) ^ 53 = 9007199254740992 := by norm_num
    omega
  have hL : Nat.log 2 N < 30 :=
    Nat.log_lt_of_lt_pow (Nat.pos_iff_ne_zero.mp hN) (by
      have : (2 : Nat) ^ 30 = 1073741824 := by norm_num
      omega)
  have hb : F64.ofInt 1000000000 = ⟨8388608000000000, -23⟩ := by decide
  rw [F64_ofInt_exact N neg hN hN53, hb]
  unfold F64.div
  simp only
  have hk1 : ((Nat.log 2 N : Int) - 52 - (-23)).toNat = 0 := by omega
  have hk2 : (-((Nat.log 2 N : Int) - 52 - (-23))).toNat = 29 - Nat.log 2 N := by omega
  have hsign : ¬ ((8388608000000000 : Int) < 0) := by decide
  have hab : (8388608000000000 : Int).natAbs = 8388608000000000 := by decide
  rw [hk1, hk2, if_neg hsign, pow_zero, mul_one, mul_one, hab]
  have hden : 8388608000000000 * 2 ^ (29 - Nat.log 2 N)
      = 1000000000 * 2 ^ (52 - Nat.log 2 N) := by
    have h52 : 52 - Nat.log 2 N = 23 + (29 - Nat.log 2 N) := by omega
    rw [h52, Nat.pow_add]
    have : (2 : Nat) ^ 23 = 8388608 := by norm_num
    rw [this]
    ring
  rw [hden]
  have hcpos : 0 < 2 ^ (52 - Nat.log 2 N) := by positivity
  have hMpos : (0 : Int) < ((N * 2 ^ (52 - Nat.log 2 N) : Nat) : Int) := by
    exact_mod_cast Nat.mul_pos hN hcpos
  have hnat : (if neg then -((N * 2 ^ (52 - Nat.log 2 N) : Nat) : Int)
      else ((N * 2 ^ (52 - Nat.log 2 N) : Nat) : Int)).natAbs = N * 2 ^ (52 - Nat.log 2 N) := by
    cases neg
    · simp only [Bool.false_eq_true, if_false, Int.natAbs_ofNat]
    · simp only [if_true, Int.natAbs_neg, Int.natAbs_ofNat]
  have hne : (if neg then -((N * 2 ^ (52 - Nat.log 2 N) : Nat) : Int)
      else ((N * 2 ^ (52 - Nat.log 2 N) : Nat) : Int)) ≠ 0 := by
    cases neg
    · simp only [Bool.false_eq_true, if_false]; omega
    · simp only [if_true]; omega
  have hlt0 : ((if neg then -((N * 2 ^ (52 - Nat.log 2 N) : Nat) : Int)
      else ((N * 2 ^ (52 - Nat.log 2 N) : Nat) : Int)) < 0) ↔ neg = true := by
    cases neg
    · simp only [Bool.false_eq_true, if_false, iff_false]; omega
    · simp only [if_true, iff_true]; omega
  obtain ⟨U, hU, hr⟩ := roundRatio_small _ (1000000000 * 2 ^ (52 - Nat.log 2 N)) 0 hne
    (by decide) (by
      rw [hnat, pow_zero, Nat.mul_one]
      exact Nat.mul_lt_mul_of_pos_right hlt hcpos)
  refine ⟨U, by omega, ?_⟩
  rw [hr, hnat]
  have hq : roundQuotient (N * 2 ^ (52 - Nat.log 2 N) * 2 ^ U)
      (1000000000 * 2 ^ (52 - Nat.log 2 N)) = roundQuotient (N * 2 ^ U) 1000000000 := by
    have : N * 2 ^ (52 - Nat.log 2 N) * 2 ^ U = N * 2 ^ U * 2 ^ (52 - Nat.log 2 N) := by ring
    rw [this, roundQuotient_mul_right _ _ _ hcpos]
  rw [hq]
  cases neg
  · have : ¬ (((N * 2 ^ (52 - Nat.log 2 N) : Nat) : Int) < 0) := by omega
    simp only [Bool.false_eq_true, if_false, this]
  · have : (-((N * 2 ^ (52 - Nat.log 2 N) : Nat) : Int) < 0) := by omega
    simp only [if_true, this]


/-- The sum of `Duration.Seconds`: whole seconds below `2 ^ 24` plus a fraction with last
bit `2 ^ (-T)`, `T ≥ 53`, is the rounding of the exact sum. -/
theorem F64_add_sec (S F T : Nat) (neg : Bool) (hS : S < 16777216) (hT : 53 ≤ T) :
    (F64.ofInt (if neg then -(S : Int) else (S : Int))).add
        ⟨if neg then -(F : Int) else (F : Int), -(T : Int)⟩ =
      roundRatio (if neg then -((S * 2 ^ T + F : Nat) : Int) else ((S * 2 ^ T + F : Nat) : Int))
        (2 ^ T) := by
  by_cases h0 : S = 0
  · subst h0
    have hz : F64.ofInt (if neg then -((0 : Nat) : Int) else ((0 : Nat) : Int)) = ⟨0, 0⟩ := by
      cases neg <;> decide
    rw [hz]
    unfold F64.add
    simp only
    have hmin : min (0 : Int) (-(T : Int)) = -(T : Int) := by omega
    have h1 : ((0 : Int) - -(T : Int)).toNat = T := by omega
    have h2 : (-(T : Int) - -(T : Int)).toNat = 0 := by omega
    have h3 : (-(T : Int)).toNat = 0 := by omega
    have h4 : (- -(T : Int)).toNat = T := by omega
    rw [hmin, h1, h2, h3, h4]
    congr 1
    cases neg <;> simp
  · have hSpos : 0 < S := Nat.pos_of_ne_zero h0
    have hS53 : S < 2 ^ 53 := by
      have : (2 : Nat) ^ 53 = 9007199254740992 := by norm_num
      omega
    have hL : Nat.log 2 S < 24 :=
      Nat.log_lt_of_lt_pow h0 (by
        have : (2 : Nat) ^ 24 = 16777216 := by norm_num
        omega)
    rw [F64_ofInt_exact S neg hSpos hS53]
    unfold F64.add
    simp only
    have hmin : min ((Nat.log 2 S : Int) - 52) (-(T : Int)) = -(T : Int) := by omega
    have h1 : ((Nat.log 2 S : Int) - 52 - -(T : Int)).toNat = T - (52 - Nat.log 2 S) := by omega
    have h2 : (-(T : Int) - -(T : Int)).toNat = 0 := by omega
    have h3 : (-(T : Int)).toNat = 0 := by omega
    have h4 : (- -(T : Int)).toNat = T := by omega
    rw [hmin, h1, h2, h3, h4]
    have hpow : S * 2 ^ (52 - Nat.log 2 S) * 2 ^ (T - (52 - Nat.log 2 S)) = S * 2 ^ T := by
      rw [Nat.mul_assoc, ← Nat.pow_add]
      congr 2
      omega
    congr 1
    cases neg
    · simp only [Bool.false_eq_true, if_false, pow_zero, mul_one]
      rw [← hpow]
      push_cast
      ring
    · simp only [if_true, pow_zero, mul_one]
      rw [← hpow]
      push_cast
      ring


/-- The rounded sum of whole seconds below `2 ^ 24` and a fraction below one: the whole
seconds at the scale `2 ^ U` of the last bit, `U ≥ 29`, plus the rounded fraction. -/
theorem roundRatio_sec (S F T : Nat) (neg : Bool) (hS : S < 16777216) (hF0 : 0 < F)
    (hF : F < 2 ^ T) :
    ∃ U : Nat, 29 ≤ U ∧
      roundRatio (if neg then -((S * 2 ^ T + F : Nat) : Int) else ((S * 2 ^ T + F : Nat) : Int))
          (2 ^ T) =
        ⟨if neg then -((S * 2 ^ U + roundQuotient (F * 2 ^ U) (2 ^ T) : Nat) : Int)
          else ((S * 2 ^ U + roundQuotient (F * 2 ^ U) (2 ^ T) : Nat) : Int), -(U : Int)⟩ := by
  have hpos : (0 : Int) < ((S * 2 ^ T + F : Nat) : Int) := by
    exact_mod_cast Nat.add_pos_right _ hF0
  have hnat : (if neg then -((S * 2 ^ T + F : Nat) : Int)
      else ((S * 2 ^ T + F : Nat) : Int)).natAbs = S * 2 ^ T + F := by
    cases neg
    · simp only [Bool.false_eq_true, if_false, Int.natAbs_ofNat]
    · simp only [if_true, Int.natAbs_neg, Int.natAbs_ofNat]
  have hne : (if neg then -((S * 2 ^ T + F : Nat) : Int)
      else ((S * 2 ^ T + F : Nat) : Int)) ≠ 0 := by
    cases neg
    · simp only [Bool.false_eq_true, if_false]; omega
    · simp only [if_true]; omega
  have hbound : S * 2 ^ T + F < 2 ^ T * 2 ^ 24 := by
    have h24 : (2 : Nat) ^ 24 = 16777216 := by norm_num
    have h1 : S * 2 ^ T + F < (S + 1) * 2 ^ T := by
      rw [Nat.add_mul, Nat.one_mul]
      omega
    have h2 : (S + 1) * 2 ^ T ≤ 2 ^ 24 * 2 ^ T := Nat.mul_le_mul_right _ (by omega)
    rw [Nat.mul_comm (2 ^ T)]
    omega
  obtain ⟨U, hU, hr⟩ := roundRatio_small _ (2 ^ T) 24 hne (by decide) (by rw [hnat]; exact hbound)
  refine ⟨U, by omega, ?_⟩
  rw [hr, hnat]
  have hq : roundQuotient ((S * 2 ^ T + F) * 2 ^ U) (2 ^ T)
      = S * 2 ^ U + roundQuotient (F * 2 ^ U) (2 ^ T) := by
    have h1 : (S * 2 ^ T + F) * 2 ^ U = (S * 2 ^ U) * 2 ^ T + F * 2 ^ U := by ring
    have heven : (S * 2 ^ U) % 2 = 0 := by
      have : U = (U - 1) + 1 := by omega
      rw [this, Nat.pow_succ, ← Nat.mul_assoc]
      exact Nat.mul_mod_left _ _
    rw [h1, roundQuotient_add_mul _ _ _ (by positivity) heven]
  rw [hq]
  cases neg
  · have : ¬ (((S * 2 ^ T + F : Nat) : Int) < 0) := by omega
    simp only [Bool.false_eq_true, if_false, this]
  · have : (-((S * 2 ^ T + F : Nat) : Int) < 0) := by omega
    simp only [if_true, this]

/-- The rounded fraction of a second lies strictly between `2 ^ (-30)` and
`1 - 2 ^ (-30)`. -/
theorem fraction_bounds (N T : Nat) (hN : 0 < N) (hlt : N < 1000000000) (hT : 53 ≤ T) :
    2 ^ T < roundQuotient (N * 2 ^ T) 1000000000 * 1073741824 ∧
    roundQuotient (N * 2 ^ T) 1000000000 < 2 ^ T ∧
    2 ^ T < (2 ^ T - roundQuotient (N * 2 ^ T) 1000000000) * 1073741824 := by
  obtain ⟨h1, h2⟩ := roundQuotient_near (N * 2 ^ T) 1000000000 (by decide)
  have hP : 2 ^ 53 ≤ 2 ^ T := Nat.pow_le_pow_right (by decide) hT
  have h53 : (2 : Nat) ^ 53 = 9007199254740992 := by norm_num
  have hX1 : 1 * 2 ^ T ≤ N * 2 ^ T := Nat.mul_le_mul_right _ hN
  have hX2 : N * 2 ^ T ≤ 999999999 * 2 ^ T := Nat.mul_le_mul_right _ (by omega)
  generalize roundQuotient (N * 2 ^ T) 1000000000 = F at h1 h2 ⊢
  generalize N * 2 ^ T = X at h1 h2 hX1 hX2
  generalize 2 ^ T = P at hP hX1 hX2 ⊢
  omega

/-- Bounds of the rounded fraction at the scale of the sum. -/
theorem roundQuotient_fraction (F T U : Nat) (hU : 29 ≤ U) :
    (2 ^ T < F * 1073741824 → 1 ≤ roundQuotient (F * 2 ^ U) (2 ^ T)) ∧
    (F < 2 ^ T → roundQuotient (F * 2 ^ U) (2 ^ T) ≤ 2 ^ U) ∧
    (2 ^ T < (2 ^ T - F) * 1073741824 → roundQuotient (F * 2 ^ U) (2 ^ T) < 2 ^ U) := by
  obtain ⟨h1, h2⟩ := roundQuotient_near (F * 2 ^ U) (2 ^ T) (by positivity)
  have hQ : 2 ^ 29 ≤ 2 ^ U := Nat.pow_le_pow_right (by decide) hU
  have h29 : (2 : Nat) ^ 29 = 536870912 := by norm_num
  rw [h29] at hQ
  generalize roundQuotient (F * 2 ^ U) (2 ^ T) = g at h1 h2 ⊢
  generalize 2 ^ U = Q at hQ h1 h2 ⊢
  generalize 2 ^ T = P at h1 h2 ⊢
  refine ⟨?_, ?_, ?_⟩
  · intro hF
    by_contra hg
    have hg0 : g = 0 := by omega
    subst hg0
    have hFQ : F * 536870912 ≤ F * Q := Nat.mul_le_mul_left _ hQ
    omega
  · intro hF
    by_contra hg
    have hg1 : (Q + 1) * P ≤ g * P := Nat.mul_le_mul_right _ (by omega)
    have hFQ : F * Q ≤ (P - 1) * Q := Nat.mul_le_mul_right _ (by omega)
    have e1 : (Q + 1) * P = Q * P + P := by ring
    have e2 : (P - 1) * Q + Q = Q * P := by
      have : P - 1 + 1 = P := by omega
      calc (P - 1) * Q + Q = (P - 1 + 1) * Q := by ring
        _ = Q * P := by rw [this]; ring
    omega
  · intro hF
    by_contra hg
    have hg1 : Q * P ≤ g * P := Nat.mul_le_mul_right _ (by omega)
    have hPF : (P - F) * 536870912 ≤ (P - F) * Q := Nat.mul_le_mul_left _ hQ
    have hFP : F < P := by
      by_contra hc
      have : P - F = 0 := by omega
      rw [this] at hF
      omega
    have e2 : (P - F) * Q + F * Q = Q * P := by
      have : P - F + F = P := by omega
      calc (P - F) * Q + F * Q = (P - F + F) * Q := by ring
        _ = Q * P := by rw [this]; ring
    omega


/-- Ceiling of a float64 with last bit `2 ^ (-U)` whose mantissa lies between two whole
numbers at that scale. -/
theorem F64_ceilInt_between (S g U : Nat) (hU : 0 < U) :
    (1 ≤ g → g ≤ 2 ^ U → F64.ceilInt ⟨((S * 2 ^ U + g : Nat) : Int), -(U : Int)⟩ = S + 1) ∧
    (g < 2 ^ U → F64.ceilInt ⟨-((S * 2 ^ U + g : Nat) : Int), -(U : Int)⟩ = -(S : Int)) := by
  have hneg : ¬ (-(U : Int) ≥ 0) := by omega
  have hto : (- -(U : Int)).toNat = U := by omega
  have hQ : (0 : Int) < 2 ^ U := by positivity
  constructor
  · intro h1 h2
    unfold F64.ceilInt
    simp only
    rw [if_neg hneg, hto]
    have hq : (-((S * 2 ^ U + g : Nat) : Int)) / 2 ^ U = -((S : Int) + 1) := by
      apply le_antisymm
      · have : (-((S * 2 ^ U + g : Nat) : Int)) / 2 ^ U < -((S : Int) + 1) + 1 := by
          rw [Int.ediv_lt_iff_lt_mul hQ]
          push_cast
          have hg : (1 : Int) ≤ (g : Int) := by exact_mod_cast h1
          nlinarith
        omega
      · rw [Int.le_ediv_iff_mul_le hQ]
        push_cast
        have hg : (g : Int) ≤ 2 ^ U := by exact_mod_cast h2
        nlinarith
    rw [hq]
    ring
  · intro h2
    unfold F64.ceilInt
    simp only
    rw [if_neg hneg, hto, neg_neg]
    have hq : (((S * 2 ^ U + g : Nat) : Int)) / 2 ^ U = (S : Int) := by
      apply le_antisymm
      · have : (((S * 2 ^ U + g : Nat) : Int)) / 2 ^ U < (S : Int) + 1 := by
          rw [Int.ediv_lt_iff_lt_mul hQ]
          push_cast
          have hg : (g : Int) < 2 ^ U := by exact_mod_cast h2
          nlinarith
        omega
      · rw [Int.le_ediv_iff_mul_le hQ]
        push_cast
        have hg : (0 : Int) ≤ (g : Int) := Int.natCast_nonneg _
        nlinarith
    rw [hq]

/-- The float64 seconds of a duration of `S` whole seconds, `S < 2 ^ 24`, and `N`
nanoseconds, `0 < N < 10 ^ 9`, of either sign: the ceiling is that of the exact value. -/
theorem Seconds_parts (S N : Nat) (neg : Bool) (hS : S < 16777216) (hN : 0 < N)
    (hlt : N < 1000000000) :
    ((F64.ofInt (if neg then -(S : Int) else (S : Int))).add
      ((F64.ofInt (if neg then -(N : Int) else (N : Int))).div
        (F64.ofInt 1000000000))).ceilInt = if neg then -(S : Int) else (S : Int) + 1 := by
  obtain ⟨T, hT, hdiv⟩ := F64_div_nsec N neg hN hlt
  obtain ⟨hb1, hb2, hb3⟩ := fraction_bounds N T hN hlt hT
  have hF0 : 0 < roundQuotient (N * 2 ^ T) 1000000000 := by
    by_contra h
    have : roundQuotient (N * 2 ^ T) 1000000000 = 0 := by omega
    rw [this] at hb1
    have : 0 < 2 ^ T := by positivity
    omega
  rw [hdiv, F64_add_sec S _ T neg hS hT]
  obtain ⟨U, hU, hround⟩ := roundRatio_sec S _ T neg hS hF0 hb2
  rw [hround]
  obtain ⟨hg1, hg2, hg3⟩ := roundQuotient_fraction (roundQuotient (N * 2 ^ T) 1000000000) T U hU
  obtain ⟨hc1, hc2⟩ := F64_ceilInt_between S
    (roundQuotient (roundQuotient (N * 2 ^ T) 1000000000 * 2 ^ U) (2 ^ T)) U (by omega)
  cases neg
  · simp only [Bool.false_eq_true, if_false]
    exact hc1 (hg1 hb1) (hg2 hb2)
  · simp only [if_true]
    exact hc2 (hg3 hb3)

/-- The seconds of a duration computed in float64 as `Duration.Seconds` does have the
ceiling of the exact value, for every duration below `2 ^ 24` seconds in magnitude and for
every whole number of seconds. -/
theorem Seconds_ceiling (d : Int)
    (h : (-16777216000000000 < d ∧ d < 16777216000000000) ∨
      (d % 1000000000 = 0 ∧ -9223372036854775808 ≤ d ∧ d < 9223372036854775808)) :
    (Seconds d).ceilInt = ceilSeconds d := by
  obtain ⟨hq, hr⟩ := tdiv_tmod_billion d
  by_cases hz : d % 1000000000 = 0
  · have hd : d = (d / 1000000000) * 1000000000 := by omega
    have hx : (d / 1000000000).natAbs < 2 ^ 53 := by
      have : (2 : Nat) ^ 53 = 9007199254740992 := by norm_num
      omega
    have hs := Seconds_whole (d / 1000000000) hx
    rw [← hd] at hs
    rw [hs]
    unfold ceilSeconds
    omega
  · have h1 : -16777216000000000 < d ∧ d < 16777216000000000 := by
      rcases h with h | h
      · exact h
      · exact absurd h.1 hz
    unfold Seconds ceilSeconds
    simp only
    rw [hq, hr]
    by_cases hpos : 0 ≤ d
    · rw [if_pos hpos, if_pos hpos]
      have hS : d / 1000000000 = (((d / 1000000000).toNat : Nat) : Int) := by omega
      have hN : d % 1000000000 = (((d % 1000000000).toNat : Nat) : Int) := by omega
      have hp := Seconds_parts (d / 1000000000).toNat (d % 1000000000).toNat false
        (by omega) (by omega) (by omega)
      simp only [Bool.false_eq_true, if_false] at hp
      rw [← hS, ← hN] at hp
      rw [hp]
      omega
    · rw [if_neg hpos, if_neg hpos]
      have hS : (-d) / 1000000000 = ((((-d) / 1000000000).toNat : Nat) : Int) := by omega
      have hN : (-d) % 1000000000 = ((((-d) % 1000000000).toNat : Nat) : Int) := by omega
      have hp := Seconds_parts ((-d) / 1000000000).toNat ((-d) % 1000000000).toNat true
        (by omega) (by omega) (by omega)
      simp only [if_true] at hp
      rw [← hS, ← hN] at hp
      rw [hp]

/-- C10 (as amended): for valid instants that are less than 16777216 seconds apart, or a
whole number of seconds apart that fits a `Duration`, `getDurationInSeconds` is the ceiling
of the difference `end - start` in seconds, of either sign: zero when the instants are
equal, negative when the end precedes the start by a second or more; and
`replaceQueryParameters` puts the decimal string of that integer in the place of
`$DURATION`. -/
theorem getDurationInSeconds_ceiling (start end_ : Time)
    (hs : 0 ≤ start.nsec ∧ start.nsec < 1000000000)
    (he : 0 ≤ end_.nsec ∧ end_.nsec < 1000000000)
    (he1 : -9223372036854775808 ≤ end_.sec) (he2 : end_.sec < 9223372036854775808)
    (hwin : (-16777216000000000 < end_.unixNanos - start.unixNanos ∧
        end_.unixNanos - start.unixNanos < 16777216000000000) ∨
      ((end_.unixNanos - start.unixNanos) % 1000000000 = 0 ∧
        -9223372036000000000 ≤ end_.unixNanos - start.unixNanos ∧
        end_.unixNanos - start.unixNanos ≤ 9223372036000000000)) :
    getDurationInSeconds start end_ = ceilSeconds (end_.unixNanos - start.unixNanos) ∧
    (end_.unixNanos = start.unixNanos → getDurationInSeconds start end_ = 0) ∧
    (end_.unixNanos - start.unixNanos ≤ -1000000000 → getDurationInSeconds start end_ < 0) ∧
    ∀ (data : GetSLITriggeredEventData) (query : GoString),
      replaceQueryParameters data query start end_ =
        stringsReplaceAll
          (stringsReplaceAll (stringsReplaceAll (stringsReplaceAll (stringsReplaceAll
            (stringsReplaceAll (stringsReplaceAll query "$PROJECT".toList data.Project)
              "$STAGE".toList data.Stage) "$SERVICE".toList data.Service)
            "$project".toList data.Project) "$stage".toList data.Stage)
            "$service".toList data.Service)
          "$DURATION".toList (FormatInt (ceilSeconds (end_.unixNanos - start.unixNanos))) := by
  have hsub : end_.Sub start = end_.unixNanos - start.unixNanos :=
    Time_Sub_exact start end_ hs he he1 he2 (by omega) (by omega)
  have hdur : getDurationInSeconds start end_
      = ceilSeconds (end_.unixNanos - start.unixNanos) := by
    unfold getDurationInSeconds
    rw [hsub]
    apply Seconds_ceiling
    rcases hwin with h | h
    · exact Or.inl h
    · exact Or.inr ⟨h.1, by omega, by omega⟩
  refine ⟨hdur, ?_, ?_, ?_⟩
  · intro h
    rw [hdur, h, sub_self]
    rfl
  · intro h
    rw [hdur]
    unfold ceilSeconds
    omega
  · intro data query
    unfold replaceQueryParameters
    simp only [hdur]

set_option maxRecDepth 100000 in
/-- C10 (as amended) at windows of 300.333 seconds, of 299.667 seconds backwards, of
16777215 seconds and one nanosecond, and of 9223372036 whole seconds. -/
theorem getDurationInSeconds_ceiling_witness :
    getDurationInSeconds (timeUnix 1600000000) ⟨unixToInternal + 1600000300, 333000000⟩ = 301 ∧
    getDurationInSeconds ⟨unixToInternal + 1600000300, 0⟩
      ⟨unixToInternal + 1600000000, 333000000⟩ = -299 ∧
    getDurationInSeconds (timeUnix 0) ⟨unixToInternal + 16777215, 1⟩ = 16777216 ∧
    getDurationInSeconds (timeUnix 0) (timeUnix 9223372036) = 9223372036 :=
  ⟨(getDurationInSeconds_ceiling (timeUnix 1600000000)
      ⟨unixToInternal + 1600000300, 333000000⟩ (by decide) (by decide) (by decide) (by decide)
      (Or.inl (by decide))).1.trans (by decide),
   (getDurationInSeconds_ceiling ⟨unixToInternal + 1600000300, 0⟩
      ⟨unixToInternal + 1600000000, 333000000⟩ (by decide) (by decide) (by decide) (by decide)
      (Or.inl (by decide))).1.trans (by decide),
   (getDurationInSeconds_ceiling (timeUnix 0) ⟨unixToInternal + 16777215, 1⟩
      (by decide) (by decide) (by decide) (by decide) (Or.inl (by decide))).1.trans (by decide),
   (getDurationInSeconds_ceiling (timeUnix 0) (timeUnix 9223372036)
      (by decide) (by decide) (by decide) (by decide) (Or.inr (by decide))).1.trans (by decide)⟩

set_option maxRecDepth 100000 in
/-- The bound of 16777216 seconds is the first at which the float64 sum loses the ceiling:
one nanosecond after 16777216 seconds the result is 16777216, not 16777217, and one
nanosecond short of 16777217 seconds backwards it is -16777217, not -16777216. -/
theorem getDurationInSeconds_first_failure :
    getDurationInSeconds (timeUnix 0) ⟨unixToInternal + 16777216, 1⟩ = 16777216 ∧
    ceilSeconds ((⟨unixToInternal + 16777216, 1⟩ : Time).unixNanos - (timeUnix 0).unixNanos)
      = 16777217 ∧
    getDurationInSeconds ⟨unixToInternal + 16777216, 999999999⟩ (timeUnix 0) = -16777217 ∧
    ceilSeconds ((timeUnix 0).unixNanos
      - (⟨unixToInternal + 16777216, 999999999⟩ : Time).unixNanos) = -16777216 := by
  decide

/-! ## Theorems: the handler -/

/-- C7: for a provider other than "sumologic" the handler returns nil and makes no call at
all: no started or finished signal, no configuration fetch, no metrics query. -/
theorem HandleGetSliTriggeredEvent_other_provider {V : Type} (env : Env V)
    (data : GetSLITriggeredEventData) (h : data.GetSLI.SLIProvider ≠ "sumologic".toList) :
    HandleGetSliTriggeredEvent env data = ⟨.returned none, []⟩ := by
  unfold HandleGetSliTriggeredEvent
  rw [if_pos h]

/-- C6: when the started signal is sent, both timestamps parse and the fetch of the SLI
configuration fails, the handler makes exactly three calls, the started signal, the fetch
and one finished signal with status errored, result failed and the labels of the request
(the empty map when it has none), so no metrics query is run; it returns what sending the
finished signal returned, hence no error when that succeeded. -/
theorem HandleGetSliTriggeredEvent_config_failure {V : Type} (env : Env V)
    (data : GetSLITriggeredEventData) (start end_ : Time) (cfg : GoMap) (err : GoError)
    (hprov : data.GetSLI.SLIProvider = "sumologic".toList)
    (hstarted : env.SendTaskStartedEvent data = none)
    (hstart : parseUnixTimestamp env.timeParse data.GetSLI.Start = .ok start)
    (hend : parseUnixTimestamp env.timeParse data.GetSLI.End = .ok end_)
    (hcfg : env.GetSLIConfiguration data.Project data.Stage data.Service sliFile
      = (cfg, some err)) :
    HandleGetSliTriggeredEvent env data =
      ⟨.returned (env.SendTaskFinishedEvent
          (.eventData ⟨.errored, .failed, some (data.Labels.getD [])⟩)),
        [.sendTaskStarted,
         .getSLIConfiguration data.Project data.Stage data.Service sliFile,
         .sendTaskFinished (.eventData ⟨.errored, .failed, some (data.Labels.getD [])⟩)]⟩ ∧
    (env.SendTaskFinishedEvent (.eventData ⟨.errored, .failed, some (data.Labels.getD [])⟩)
        = none →
      (HandleGetSliTriggeredEvent env data).result = .returned none) := by
  have hlab : (match data.Labels with | none => ([] : GoMap) | some l => l)
      = data.Labels.getD [] := by
    cases data.Labels <;> rfl
  have key : HandleGetSliTriggeredEvent env data =
      ⟨.returned (env.SendTaskFinishedEvent
          (.eventData ⟨.errored, .failed, some (data.Labels.getD [])⟩)),
        [.sendTaskStarted,
         .getSLIConfiguration data.Project data.Stage data.Service sliFile,
         .sendTaskFinished (.eventData ⟨.errored, .failed, some (data.Labels.getD [])⟩)]⟩ := by
    unfold HandleGetSliTriggeredEvent
    simp only [hprov, ne_eq, not_true_eq_false, if_false, hstarted, hstart, hend, hcfg, hlab]
    rfl
  refine ⟨key, ?_⟩
  intro hsend
  rw [key, hsend]

/-- The loop over a concatenation is the loop over the first part followed, when that
goes through, by the loop over the second. -/
theorem indicatorLoop_append {V : Type} (env : Env V) (data : GetSLITriggeredEventData)
    (cfg : GoMap) (start end_ : Time) (pre rest : List GoString) :
    ∀ st st1 : LoopState V, indicatorLoop env data cfg start end_ pre st = .next st1 →
      indicatorLoop env data cfg start end_ (pre ++ rest) st
        = indicatorLoop env data cfg start end_ rest st1 := by
  induction pre with
  | nil =>
    intro st st1 h
    simp only [indicatorLoop, LoopResult.next.injEq] at h
    simp [h]
  | cons a as ih =>
    intro st st1 h
    simp only [indicatorLoop, List.cons_append] at h ⊢
    cases hstep : indicatorStep env data cfg start end_ st a with
    | next st2 =>
      rw [hstep] at h
      exact ih st2 st1 h
    | abort e tr => rw [hstep] at h; cases h
    | panic m tr => rw [hstep] at h; cases h

/-- An iteration that goes through appends two delays and one metrics query to the calls. -/
theorem indicatorStep_next {V : Type} (env : Env V) (data : GetSLITriggeredEventData)
    (cfg : GoMap) (start end_ : Time) (st st1 : LoopState V) (name : GoString)
    (h : indicatorStep env data cfg start end_ st name = .next st1) :
    ∃ req, st1.trace = st.trace ++
      [.sleep env.sleepBeforeAPIInSeconds, .sleep 30, .runMetricsQueries req] := by
  unfold indicatorStep at h
  dsimp only at h
  split at h
  · cases h
  · cases h
  · split at h
    · split at h
      · cases h
      · simp only [LoopResult.next.injEq] at h
        subst h
        exact ⟨_, List.append_assoc _ _ _⟩
    · split at h
      · cases h
      · simp only [LoopResult.next.injEq] at h
        subst h
        exact ⟨_, List.append_assoc _ _ _⟩

/-- A loop that goes through sends no finished signal and runs one metrics query per
indicator. -/
theorem indicatorLoop_trace {V : Type} (env : Env V) (data : GetSLITriggeredEventData)
    (cfg : GoMap) (start end_ : Time) (l : List GoString) :
    ∀ st st1 : LoopState V, indicatorLoop env data cfg start end_ l st = .next st1 →
      st1.trace.filter Effect.isFinished = st.trace.filter Effect.isFinished ∧
      (st1.trace.filter Effect.isQuery).length
        = (st.trace.filter Effect.isQuery).length + l.length := by
  induction l with
  | nil =>
    intro st st1 h
    simp only [indicatorLoop, LoopResult.next.injEq] at h
    subst h
    simp
  | cons a as ih =>
    intro st st1 h
    simp only [indicatorLoop] at h
    cases hstep : indicatorStep env data cfg start end_ st a with
    | next st2 =>
      rw [hstep] at h
      obtain ⟨req, hreq⟩ := indicatorStep_next env data cfg start end_ st st2 a hstep
      obtain ⟨h1, h2⟩ := ih st2 st1 h
      rw [h1, h2, hreq]
      simp [List.filter_append, List.filter, Effect.isFinished, Effect.isQuery]
      omega
    | abort e tr => rw [hstep] at h; cases h
    | panic m tr => rw [hstep] at h; cases h

/-- The fatal paths that end in an error return. If sending the started signal fails, or the
start or the end timestamp does not parse, the handler returns that error having called
nothing but the started signal. If `processQuery` returns an error for an indicator that the
loop reaches, the handler returns that error, its calls end with the delay that precedes the
parse, no finished signal is among them, and metrics queries were run only for the
indicators before the failing one. A template on which `processQuery` panics is not among
these paths. -/
theorem HandleGetSliTriggeredEvent_fatal_paths {V : Type} (env : Env V)
    (data : GetSLITriggeredEventData)
    (hprov : data.GetSLI.SLIProvider = "sumologic".toList) :
    (∀ e, env.SendTaskStartedEvent data = some e →
      HandleGetSliTriggeredEvent env data = ⟨.returned (some e), [.sendTaskStarted]⟩) ∧
    (∀ e, env.SendTaskStartedEvent data = none →
      parseUnixTimestamp env.timeParse data.GetSLI.Start = .error e →
      HandleGetSliTriggeredEvent env data = ⟨.returned (some e), [.sendTaskStarted]⟩) ∧
    (∀ start e, env.SendTaskStartedEvent data = none →
      parseUnixTimestamp env.timeParse data.GetSLI.Start = .ok start →
      parseUnixTimestamp env.timeParse data.GetSLI.End = .error e →
      HandleGetSliTriggeredEvent env data = ⟨.returned (some e), [.sendTaskStarted]⟩) ∧
    (∀ start end_ cfg pre name post st parts e,
      env.SendTaskStartedEvent data = none →
      parseUnixTimestamp env.timeParse data.GetSLI.Start = .ok start →
      parseUnixTimestamp env.timeParse data.GetSLI.End = .ok end_ →
      env.GetSLIConfiguration data.Project data.Stage data.Service sliFile = (cfg, none) →
      data.GetSLI.Indicators = pre ++ name :: post →
      indicatorLoop env data cfg start end_ pre (initialLoopState data) = .next st →
      processQuery (replaceQueryParameters data (cfg.index name) start end_)
        = .returned parts →
      parts.err = some e →
      (HandleGetSliTriggeredEvent env data).result = .returned (some e) ∧
      (HandleGetSliTriggeredEvent env data).trace
        = st.trace ++ [.sleep env.sleepBeforeAPIInSeconds] ∧
      (HandleGetSliTriggeredEvent env data).trace.filter Effect.isFinished = [] ∧
      ((HandleGetSliTriggeredEvent env data).trace.filter Effect.isQuery).length
        = pre.length) := by
  refine ⟨?_, ?_, ?_, ?_⟩
  · intro e h
    unfold HandleGetSliTriggeredEvent
    simp [hprov, h]
  · intro e h1 h2
    unfold HandleGetSliTriggeredEvent
    simp [hprov, h1, h2]
  · intro start e h1 h2 h3
    unfold HandleGetSliTriggeredEvent
    simp [hprov, h1, h2, h3]
  · intro start end_ cfg pre name post st parts e h1 h2 h3 h4 hind hloop hpq herr
    have hstep : indicatorStep env data cfg start end_ st name
        = .abort e (st.trace ++ [.sleep env.sleepBeforeAPIInSeconds]) := by
      unfold indicatorStep
      obtain ⟨fq, qv, ru, er⟩ := parts
      simp only at herr
      subst herr
      simp only [hpq]
    have hwhole : indicatorLoop env data cfg start end_ data.GetSLI.Indicators
        (initialLoopState data) = .abort e (st.trace ++ [.sleep env.sleepBeforeAPIInSeconds]) := by
      rw [hind, indicatorLoop_append env data cfg start end_ pre _ _ st hloop]
      simp only [indicatorLoop, hstep]
    have hout : HandleGetSliTriggeredEvent env data
        = ⟨.returned (some e), st.trace ++ [.sleep env.sleepBeforeAPIInSeconds]⟩ := by
      unfold HandleGetSliTriggeredEvent
      simp only [hprov, ne_eq, not_true_eq_false, if_false, h1, h2, h3, h4, hwhole]
    obtain ⟨ht1, ht2⟩ := indicatorLoop_trace env data cfg start end_ pre _ st hloop
    rw [hout]
    refine ⟨rfl, rfl, ?_, ?_⟩
    · simp only [List.filter_append, ht1]
      simp [initialLoopState, List.filter, Effect.isFinished]
    · simp only [List.filter_append, List.length_append, ht2]
      simp [initialLoopState, List.filter, Effect.isQuery]

/-- C7 at the sample request with provider "other-vendor". -/
theorem HandleGetSliTriggeredEvent_other_provider_witness :
    HandleGetSliTriggeredEvent (exampleEnv fun _ => answerOk)
      { exampleData with GetSLI := { exampleData.GetSLI with SLIProvider := "other-vendor".toList } }
      = ⟨.returned none, []⟩ :=
  HandleGetSliTriggeredEvent_other_provider _ _ (by decide)

/-- C6 at the sample request with a configuration store that fails. -/
theorem HandleGetSliTriggeredEvent_config_failure_witness :
    (HandleGetSliTriggeredEvent
      { exampleEnv (fun _ => answerOk) with
        GetSLIConfiguration := fun _ _ _ _ => ([], some "resource not found") } exampleData).trace
      = [.sendTaskStarted,
         .getSLIConfiguration "sockshop".toList "dev".toList "carts".toList sliFile,
         .sendTaskFinished (.eventData ⟨.errored, .failed, some []⟩)] :=
  congrArg Outcome.trace
    (HandleGetSliTriggeredEvent_config_failure
      { exampleEnv (fun _ => answerOk) with
        GetSLIConfiguration := fun _ _ _ _ => ([], some "resource not found") } exampleData
      (timeUnix 1600000000) (timeUnix 1600000300) [] "resource not found" rfl rfl rfl rfl rfl).1

set_option maxRecDepth 100000 in
/-- The fatal paths at sample runs: a started signal that cannot be sent, a start and an end
timestamp that do not parse, and a second indicator without template. -/
theorem HandleGetSliTriggeredEvent_fatal_paths_witness :
    HandleGetSliTriggeredEvent
        { exampleEnv (fun _ => answerOk) with SendTaskStartedEvent := fun _ => some "no broker" }
        exampleData = ⟨.returned (some "no broker"), [.sendTaskStarted]⟩ ∧
    HandleGetSliTriggeredEvent (exampleEnv fun _ => answerOk)
        { exampleData with GetSLI := { exampleData.GetSLI with Start := "abc".toList } }
      = ⟨.returned (some (.numError "ParseInt" "abc".toList ErrSyntax)),
          [.sendTaskStarted]⟩ ∧
    HandleGetSliTriggeredEvent (exampleEnv fun _ => answerOk)
        { exampleData with GetSLI := { exampleData.GetSLI with End := "".toList } }
      = ⟨.returned (some (.numError "ParseInt" [] ErrSyntax)),
          [.sendTaskStarted]⟩ ∧
    (HandleGetSliTriggeredEvent (exampleEnv fun _ => answerOk)
        { exampleData with
          GetSLI := { exampleData.GetSLI with
            Indicators := ["throughput".toList, "latency".toList, "errorrate".toList] } }).result
      = .returned (some errOneQuantize) ∧
    ((HandleGetSliTriggeredEvent (exampleEnv fun _ => answerOk)
        { exampleData with
          GetSLI := { exampleData.GetSLI with
            Indicators := ["throughput".toList, "latency".toList, "errorrate".toList] } }).trace.filter
        Effect.isQuery).length = 1 :=
  ⟨(HandleGetSliTriggeredEvent_fatal_paths _ exampleData rfl).1 "no broker" rfl,
   (HandleGetSliTriggeredEvent_fatal_paths (exampleEnv fun _ => answerOk)
      { exampleData with GetSLI := { exampleData.GetSLI with Start := "abc".toList } }
      rfl).2.1 _ rfl rfl,
   (HandleGetSliTriggeredEvent_fatal_paths (exampleEnv fun _ => answerOk)
      { exampleData with GetSLI := { exampleData.GetSLI with End := "".toList } }
      rfl).2.2.1 (timeUnix 1600000000) _ rfl rfl rfl,
   ((HandleGetSliTriggeredEvent_fatal_paths (exampleEnv fun _ => answerOk)
      { exampleData with
        GetSLI := { exampleData.GetSLI with
          Indicators := ["throughput".toList, "latency".toList, "errorrate".toList] } }
      rfl).2.2.2 (timeUnix 1600000000) (timeUnix 1600000300) exampleConfig
      ["throughput".toList] "latency".toList ["errorrate".toList]
      ⟨.succeeded, .pass, [⟨"throughput".toList, ⟨42, 0⟩⟩],
        [.sendTaskStarted,
         .getSLIConfiguration "sockshop".toList "dev".toList "carts".toList sliFile,
         .sleep 30, .sleep 30,
         .runMetricsQueries (metricsQueryRequest "metric=throughput service=carts |   sum".toList
            60000 "Avg".toList (timeUnix 1600000000) (timeUnix 1600000300))], 1⟩
      ⟨[], 0, [], some errOneQuantize⟩ errOneQuantize rfl rfl rfl rfl rfl (by decide) (by decide)
      rfl).1,
   ((HandleGetSliTriggeredEvent_fatal_paths (exampleEnv fun _ => answerOk)
      { exampleData with
        GetSLI := { exampleData.GetSLI with
          Indicators := ["throughput".toList, "latency".toList, "errorrate".toList] } }
      rfl).2.2.2 (timeUnix 1600000000) (timeUnix 1600000300) exampleConfig
      ["throughput".toList] "latency".toList ["errorrate".toList]
      ⟨.succeeded, .pass, [⟨"throughput".toList, ⟨42, 0⟩⟩],
        [.sendTaskStarted,
         .getSLIConfiguration "sockshop".toList "dev".toList "carts".toList sliFile,
         .sleep 30, .sleep 30,
         .runMetricsQueries (metricsQueryRequest "metric=throughput service=carts |   sum".toList
            60000 "Avg".toList (timeUnix 1600000000) (timeUnix 1600000300))], 1⟩
      ⟨[], 0, [], some errOneQuantize⟩ errOneQuantize rfl rfl rfl rfl rfl (by decide) (by decide)
      rfl).2.2.2⟩

/-- When `processQuery` panics on the rendered template of an indicator that the loop
reaches, the handler panics with it: it returns no error to its caller, its calls end with
the delay that precedes the parse and no finished signal is among them. -/
theorem HandleGetSliTriggeredEvent_parse_panic {V : Type} (env : Env V)
    (data : GetSLITriggeredEventData) (start end_ : Time) (cfg : GoMap)
    (pre post : List GoString) (name : GoString) (st : LoopState V) (msg : String)
    (hprov : data.GetSLI.SLIProvider = "sumologic".toList)
    (h1 : env.SendTaskStartedEvent data = none)
    (h2 : parseUnixTimestamp env.timeParse data.GetSLI.Start = .ok start)
    (h3 : parseUnixTimestamp env.timeParse data.GetSLI.End = .ok end_)
    (h4 : env.GetSLIConfiguration data.Project data.Stage data.Service sliFile = (cfg, none))
    (hind : data.GetSLI.Indicators = pre ++ name :: post)
    (hloop : indicatorLoop env data cfg start end_ pre (initialLoopState data) = .next st)
    (hpq : processQuery (replaceQueryParameters data (cfg.index name) start end_)
      = .panicked msg) :
    HandleGetSliTriggeredEvent env data
      = ⟨.panicked msg, st.trace ++ [.sleep env.sleepBeforeAPIInSeconds]⟩ ∧
    (HandleGetSliTriggeredEvent env data).trace.filter Effect.isFinished = [] := by
  have hstep : indicatorStep env data cfg start end_ st name
      = .panic msg (st.trace ++ [.sleep env.sleepBeforeAPIInSeconds]) := by
    unfold indicatorStep
    simp only [hpq]
  have hwhole : indicatorLoop env data cfg start end_ data.GetSLI.Indicators
      (initialLoopState data) = .panic msg (st.trace ++ [.sleep env.sleepBeforeAPIInSeconds]) := by
    rw [hind, indicatorLoop_append env data cfg start end_ pre _ _ st hloop]
    simp only [indicatorLoop, hstep]
  have hout : HandleGetSliTriggeredEvent env data
      = ⟨.panicked msg, st.trace ++ [.sleep env.sleepBeforeAPIInSeconds]⟩ := by
    unfold HandleGetSliTriggeredEvent
    simp only [hprov, ne_eq, not_true_eq_false, if_false, h1, h2, h3, h4, hwhole]
  obtain ⟨ht1, _⟩ := indicatorLoop_trace env data cfg start end_ pre _ st hloop
  rw [hout]
  refine ⟨rfl, ?_⟩
  simp only [List.filter_append, ht1]
  simp [initialLoopState, List.filter, Effect.isFinished]

set_option maxRecDepth 100000 in
/-- C8, the failing input: the second indicator has the template "quantize to 5 using avg",
on which `processQuery` fails to parse the clause. The handler does not return that failure
as an error: it panics on the index `[0]` of `processQuery`, after the first indicator was
queried, so its caller gets no error value; no finished signal is emitted. -/
theorem HandleGetSliTriggeredEvent_malformed_clause_crash :
    (HandleGetSliTriggeredEvent
        { exampleEnv (fun _ => answerOk) with
          GetSLIConfiguration := fun _ _ _ _ => (malformedConfig, none) } exampleData).result
      = .panicked "runtime error: index out of range [0] with length 0" ∧
    (∀ e, (HandleGetSliTriggeredEvent
        { exampleEnv (fun _ => answerOk) with
          GetSLIConfiguration := fun _ _ _ _ => (malformedConfig, none) } exampleData).result
      ≠ .returned (some e)) ∧
    ((HandleGetSliTriggeredEvent
        { exampleEnv (fun _ => answerOk) with
          GetSLIConfiguration := fun _ _ _ _ => (malformedConfig, none) } exampleData).trace.filter
        Effect.isFinished) = [] ∧
    ((HandleGetSliTriggeredEvent
        { exampleEnv (fun _ => answerOk) with
          GetSLIConfiguration := fun _ _ _ _ => (malformedConfig, none) } exampleData).trace.filter
        Effect.isQuery).length = 1 := by
  have h : (HandleGetSliTriggeredEvent
        { exampleEnv (fun _ => answerOk) with
          GetSLIConfiguration := fun _ _ _ _ => (malformedConfig, none) } exampleData).result
      = .panicked "runtime error: index out of range [0] with length 0" := by decide
  refine ⟨h, ?_, by decide, by decide⟩
  intro e he
  rw [h] at he
  cases he

set_option maxRecDepth 100000 in
/-- C5, the failing inputs: when the first metrics query fails without an HTTP response, the
handler panics on `*hRes`; when it succeeds with a row that has no time series, the handler
panics on the index `[0]`. In both runs no finished signal is emitted, and in the first the
second indicator is never queried. -/
theorem HandleGetSliTriggeredEvent_executor_crash :
    (HandleGetSliTriggeredEvent
        (exampleEnv fun i => if i = 0 then answerNoResponse else answerOk) exampleData).result
      = .panicked "runtime error: invalid memory address or nil pointer dereference" ∧
    ((HandleGetSliTriggeredEvent
        (exampleEnv fun i => if i = 0 then answerNoResponse else answerOk) exampleData).trace.filter
        Effect.isFinished) = [] ∧
    ((HandleGetSliTriggeredEvent
        (exampleEnv fun i => if i = 0 then answerNoResponse else answerOk) exampleData).trace.filter
        Effect.isQuery).length = 1 ∧
    (HandleGetSliTriggeredEvent
        (exampleEnv fun i => if i = 0 then answerNoData else answerOk) exampleData).result
      = .panicked "runtime error: index out of range [0] with length 0" ∧
    ((HandleGetSliTriggeredEvent
        (exampleEnv fun i => if i = 0 then answerNoData else answerOk) exampleData).trace.filter
        Effect.isFinished) = [] := by
  decide


/-- An iteration on a template that parses and an answer the handler can take goes through;
it records the value of a success and the status of a failure. -/
theorem indicatorStep_wellShaped {V : Type} (env : Env V) (data : GetSLITriggeredEventData)
    (cfg : GoMap) (start end_ : Time) (st : LoopState V) (name : GoString)
    (hparse : indicatorParses data cfg start end_ name = true)
    (hshape : ∀ i req, (env.RunMetricsQueries i req).wellShaped = true) :
    ∃ st1, indicatorStep env data cfg start end_ st name = .next st1 ∧
      st1.queries = st.queries + 1 ∧
      st1.sliResults = st.sliResults ++
        succeededValues (indicatorAnswers env data cfg start end_ st.queries [name]) ∧
      st1.Status = (if anyFailed (indicatorAnswers env data cfg start end_ st.queries [name])
        then .errored else st.Status) ∧
      st1.Result = (if anyFailed (indicatorAnswers env data cfg start end_ st.queries [name])
        then .failed else st.Result) := by
  unfold indicatorParses at hparse
  cases hq : processQuery (replaceQueryParameters data (cfg.index name) start end_) with
  | panicked msg => simp [hq] at hparse
  | returned p =>
    obtain ⟨fq, qv, ru, er⟩ := p
    rw [hq] at hparse
    simp only [Option.isNone_iff_eq_none] at hparse
    subst hparse
    have hreq : indicatorRequest data cfg start end_ name
        = metricsQueryRequest fq qv ru start end_ := by
      simp [indicatorRequest, hq]
    have hs := hshape st.queries (metricsQueryRequest fq qv ru start end_)
    unfold MetricsQueryResult.wellShaped at hs
    unfold indicatorStep
    simp only [hq, indicatorAnswers, List.enumFrom, List.map_cons, List.map_nil, hreq,
      succeededValues, anyFailed, List.filterMap_cons, List.filterMap_nil, List.any_cons,
      List.any_nil, Bool.or_false]
    cases herr : (env.RunMetricsQueries st.queries (metricsQueryRequest fq qv ru start end_)).err with
    | some e =>
      rw [herr] at hs
      simp only [Option.isSome_iff_exists] at hs
      obtain ⟨r, hr⟩ := hs
      simp [herr, hr]
    | none =>
      rw [herr] at hs
      simp only [Option.isSome_iff_exists] at hs
      obtain ⟨v, hv⟩ := hs
      simp [herr, hv]

/-- The answers for a list of indicators: the answer for the first, then those for the rest. -/
theorem indicatorAnswers_cons {V : Type} (env : Env V) (data : GetSLITriggeredEventData)
    (cfg : GoMap) (start end_ : Time) (i : Nat) (name : GoString) (rest : List GoString) :
    indicatorAnswers env data cfg start end_ i (name :: rest) =
      indicatorAnswers env data cfg start end_ i [name] ++
        indicatorAnswers env data cfg start end_ (i + 1) rest := by
  simp [indicatorAnswers, List.enumFrom]

/-- The loop on templates that parse and answers the handler can take goes through and
gathers the values of the successes in request order; the status is errored exactly when
some answer was an error. -/
theorem indicatorLoop_wellShaped {V : Type} (env : Env V) (data : GetSLITriggeredEventData)
    (cfg : GoMap) (start end_ : Time)
    (hshape : ∀ i req, (env.RunMetricsQueries i req).wellShaped = true)
    (l : List GoString) :
    ∀ st : LoopState V, (∀ name ∈ l, indicatorParses data cfg start end_ name = true) →
      ∃ st1, indicatorLoop env data cfg start end_ l st = .next st1 ∧
        st1.sliResults = st.sliResults ++
          succeededValues (indicatorAnswers env data cfg start end_ st.queries l) ∧
        st1.Status = (if anyFailed (indicatorAnswers env data cfg start end_ st.queries l)
          then .errored else st.Status) ∧
        st1.Result = (if anyFailed (indicatorAnswers env data cfg start end_ st.queries l)
          then .failed else st.Result) := by
  induction l with
  | nil =>
    intro st _
    exact ⟨st, rfl, by simp [indicatorAnswers, succeededValues],
      by simp [indicatorAnswers, anyFailed], by simp [indicatorAnswers, anyFailed]⟩
  | cons name rest ih =>
    intro st hparse
    obtain ⟨st1, hstep, hq, hv, hs, hr⟩ := indicatorStep_wellShaped env data cfg start end_ st
      name (hparse name (by simp)) hshape
    obtain ⟨st2, hloop, hv2, hs2, hr2⟩ := ih st1 (fun n hn => hparse n (by simp [hn]))
    refine ⟨st2, ?_, ?_, ?_, ?_⟩
    · simp only [indicatorLoop, hstep]
      exact hloop
    · rw [hv2, hv, hq, indicatorAnswers_cons env data cfg start end_ st.queries name rest]
      simp only [succeededValues, List.filterMap_append, List.append_assoc]
    · rw [hs2, hs, hq, indicatorAnswers_cons env data cfg start end_ st.queries name rest]
      simp only [anyFailed, List.any_append, Bool.or_eq_true]
      by_cases h1 : (indicatorAnswers env data cfg start end_ st.queries [name]).any
          (fun a => a.2.err.isSome) = true <;>
        by_cases h2 : (indicatorAnswers env data cfg start end_ (st.queries + 1) rest).any
          (fun a => a.2.err.isSome) = true <;> simp [h1, h2]
    · rw [hr2, hr, hq, indicatorAnswers_cons env data cfg start end_ st.queries name rest]
      simp only [anyFailed, List.any_append, Bool.or_eq_true]
      by_cases h1 : (indicatorAnswers env data cfg start end_ st.queries [name]).any
          (fun a => a.2.err.isSome) = true <;>
        by_cases h2 : (indicatorAnswers env data cfg start end_ (st.queries + 1) rest).any
          (fun a => a.2.err.isSome) = true <;> simp [h1, h2]

/-- Partial-failure aggregation, for answers the handler can take. When the started signal is sent, both
timestamps parse, the configuration is fetched, every rendered template parses and every
answer of the metrics client is either an error with an HTTP response or a success with a
first data point, the handler queries every indicator, then sends exactly one finished
signal, its last call: the values of the indicators answered without error, in request
order, and the status errored/failed exactly when some answer was an error. -/
theorem HandleGetSliTriggeredEvent_aggregates {V : Type} (env : Env V)
    (data : GetSLITriggeredEventData) (start end_ : Time) (cfg : GoMap)
    (hprov : data.GetSLI.SLIProvider = "sumologic".toList)
    (hstarted : env.SendTaskStartedEvent data = none)
    (hstart : parseUnixTimestamp env.timeParse data.GetSLI.Start = .ok start)
    (hend : parseUnixTimestamp env.timeParse data.GetSLI.End = .ok end_)
    (hcfg : env.GetSLIConfiguration data.Project data.Stage data.Service sliFile = (cfg, none))
    (hparse : ∀ name ∈ data.GetSLI.Indicators,
      indicatorParses data cfg start end_ name = true)
    (hshape : ∀ i req, (env.RunMetricsQueries i req).wellShaped = true) :
    (HandleGetSliTriggeredEvent env data).result = .returned (env.SendTaskFinishedEvent
      (aggregatePayload data
        (indicatorAnswers env data cfg start end_ 0 data.GetSLI.Indicators))) ∧
    (HandleGetSliTriggeredEvent env data).trace.filter Effect.isFinished =
      [.sendTaskFinished (aggregatePayload data
        (indicatorAnswers env data cfg start end_ 0 data.GetSLI.Indicators))] ∧
    (HandleGetSliTriggeredEvent env data).trace.getLast? =
      some (.sendTaskFinished (aggregatePayload data
        (indicatorAnswers env data cfg start end_ 0 data.GetSLI.Indicators))) ∧
    ((HandleGetSliTriggeredEvent env data).trace.filter Effect.isQuery).length
      = data.GetSLI.Indicators.length := by
  obtain ⟨st, hloop, hv, hs, hr⟩ := indicatorLoop_wellShaped env data cfg start end_ hshape
    data.GetSLI.Indicators (initialLoopState data) hparse
  obtain ⟨ht1, ht2⟩ := indicatorLoop_trace env data cfg start end_ data.GetSLI.Indicators
    _ st hloop
  have hpay : (FinishedPayload.getSLIFinished
        { EventData := ⟨st.Status, st.Result, none⟩
          GetSLI := ⟨data.GetSLI.Start, data.GetSLI.End, st.sliResults⟩ } : FinishedPayload V)
      = aggregatePayload data
          (indicatorAnswers env data cfg start end_ 0 data.GetSLI.Indicators) := by
    unfold aggregatePayload
    rw [hv, hs, hr]
    simp [initialLoopState]
  have hout : HandleGetSliTriggeredEvent env data =
      ⟨.returned (env.SendTaskFinishedEvent (aggregatePayload data
          (indicatorAnswers env data cfg start end_ 0 data.GetSLI.Indicators))),
        st.trace ++ [.sendTaskFinished (aggregatePayload data
          (indicatorAnswers env data cfg start end_ 0 data.GetSLI.Indicators))]⟩ := by
    unfold HandleGetSliTriggeredEvent
    simp only [hprov, ne_eq, not_true_eq_false, if_false, hstarted, hstart, hend, hcfg, hloop,
      hpay]
  rw [hout]
  refine ⟨rfl, ?_, ?_, ?_⟩
  · simp only [List.filter_append, ht1]
    simp [initialLoopState, List.filter, Effect.isFinished]
  · simp
  · simp only [List.filter_append, List.length_append, ht2]
    simp [initialLoopState, List.filter, Effect.isQuery]

set_option maxRecDepth 100000 in
/-- The aggregation at the example of the spec: "throughput" answered with a value and
"errorrate" with an error give a finished signal with status errored, result failed and the
value of "throughput" alone. -/
theorem HandleGetSliTriggeredEvent_aggregates_witness :
    (HandleGetSliTriggeredEvent
        (exampleEnv fun i => if i = 0 then answerOk else answerFailed) exampleData).trace.filter
        Effect.isFinished =
      [.sendTaskFinished (.getSLIFinished
        { EventData := ⟨.errored, .failed, none⟩
          GetSLI := ⟨"1600000000".toList, "1600000300".toList,
            [⟨"throughput".toList, ⟨42, 0⟩⟩]⟩ })] :=
  (HandleGetSliTriggeredEvent_aggregates
    (exampleEnv fun i => if i = 0 then answerOk else answerFailed) exampleData
    (timeUnix 1600000000) (timeUnix 1600000300) exampleConfig rfl rfl rfl rfl rfl
    (by decide) (by intro i req; by_cases h : i = 0 <;> simp [exampleEnv, h] <;> decide)).2.1.trans
    (by decide)

/-! ## Theorems: the clause and its submatches -/

/-! ### Submatches of the matcher -/

/-- An accepted run splits the input into a text of the shape of the pattern and a rest;
the continuation accepted the rest with the captures of that text added to those before. -/
theorem Regex.run_captures {α : Type} (r : Regex) :
    ∀ (s : GoString) (caps : List GoString) (k : GoString → List GoString → Option α) (x : α),
      r.run s caps k = some x →
      ∃ m rest cs, s = m ++ rest ∧ r.Captures m cs ∧ k rest (caps ++ cs) = some x := by
  induction r with
  | lit w =>
    intro s caps k x h
    simp only [Regex.run] at h
    by_cases hw : w.isPrefixOf s = true
    · simp only [hw, if_true] at h
      obtain ⟨t, rfl⟩ := List.isPrefixOf_iff_prefix.mp hw
      exact ⟨w, t, [], rfl, .lit w, by simpa using h⟩
    · simp [hw] at h
  | cls p =>
    intro s caps k x h
    cases s with
    | nil => simp [Regex.run] at h
    | cons c cs =>
      simp only [Regex.run] at h
      by_cases hp : p c = true
      · simp only [hp, if_true] at h
        exact ⟨[c], cs, [], rfl, .cls p c hp, by simpa using h⟩
      · simp [hp] at h
  | star p =>
    intro s caps k x h
    simp only [Regex.run] at h
    obtain ⟨m, rest, hs, hm, hk⟩ := starRun_sound p _ x s h
    exact ⟨m, rest, [], hs, .star p m hm, by simpa using hk⟩
  | plus p =>
    intro s caps k x h
    cases s with
    | nil => simp [Regex.run] at h
    | cons c cs =>
      simp only [Regex.run] at h
      by_cases hp : p c = true
      · simp only [hp, if_true] at h
        obtain ⟨m, rest, hs, hm, hk⟩ := starRun_sound p _ x cs h
        refine ⟨c :: m, rest, [], by simp [hs], .plus p (c :: m) (by simp) ?_, by simpa using hk⟩
        intro d hd
        rcases List.mem_cons.mp hd with rfl | hd
        · exact hp
        · exact hm d hd
      · simp [hp] at h
  | opt r ih =>
    intro s caps k x h
    simp only [Regex.run] at h
    cases hrec : r.run s caps k with
    | some y =>
      rw [hrec] at h
      simp only [Option.some.injEq] at h
      subst h
      obtain ⟨m, rest, cs, hs, hm, hk⟩ := ih s caps k y hrec
      exact ⟨m, rest, cs, hs, .optSome r m cs hm, hk⟩
    | none =>
      rw [hrec] at h
      exact ⟨[], s, [], rfl, .optNone r, by simpa using h⟩
  | cat a b iha ihb =>
    intro s caps k x h
    simp only [Regex.run] at h
    obtain ⟨m1, rest1, c1, hs1, hm1, hk1⟩ := iha s caps _ x h
    obtain ⟨m2, rest2, c2, hs2, hm2, hk2⟩ := ihb rest1 (caps ++ c1) k x hk1
    exact ⟨m1 ++ m2, rest2, c1 ++ c2, by simp [hs1, hs2], .cat a b m1 m2 c1 c2 hm1 hm2,
      by simpa using hk2⟩
  | group r ih =>
    intro s caps k x h
    simp only [Regex.run] at h
    obtain ⟨m, rest, cs, hs, hm, hk⟩ := ih s caps _ x h
    refine ⟨m, rest, cs ++ [m], hs, .group r m cs hm, ?_⟩
    have : List.take (s.length - rest.length) s = m := by
      rw [hs]
      simp
    rw [this] at hk
    simpa using hk

/-- An anchored match has the shape of the pattern, with the submatches as its captures. -/
theorem Regex.matchAt_captures (r : Regex) (s m : GoString) (caps : List GoString)
    (h : r.matchAt s = some (m, caps)) : r.Captures m caps := by
  unfold Regex.matchAt at h
  obtain ⟨m1, rest, cs, hs, hm, hk⟩ := r.run_captures s [] _ _ h
  simp only [List.nil_append, Option.some.injEq, Prod.mk.injEq] at hk
  have : m = m1 := by
    rw [← hk.1, hs]
    simp
  rw [this, ← hk.2]
  exact hm

/-- Every match delivered is the matched text followed by its captures. -/
theorem Regex.findAllFrom_captures (r : Regex) (s : GoString) : ∀ (k : Nat) (am : Bool),
    ∀ e ∈ r.findAllFrom k am s, ∃ m caps, e = m :: caps ∧ r.Captures m caps := by
  induction s with
  | nil =>
    intro k am e he
    cases k with
    | succ k => simp [Regex.findAllFrom] at he
    | zero =>
      simp only [Regex.findAllFrom] at he
      cases hm : r.matchAt [] with
      | none => simp [hm] at he
      | some mc =>
        obtain ⟨m, caps⟩ := mc
        rw [hm] at he
        cases am with
        | true => simp at he
        | false =>
          simp at he
          exact ⟨m, caps, he, r.matchAt_captures [] m caps hm⟩
  | cons c cs ih =>
    intro k am e he
    cases k with
    | succ k =>
      simp only [Regex.findAllFrom] at he
      exact ih k am e he
    | zero =>
      simp only [Regex.findAllFrom] at he
      cases hm : r.matchAt (c :: cs) with
      | none =>
        rw [hm] at he
        exact ih 0 false e he
      | some mc =>
        obtain ⟨m, caps⟩ := mc
        rw [hm] at he
        have hcap := r.matchAt_captures (c :: cs) m caps hm
        simp only at he
        by_cases hlen : m.length = 0
        · simp only [hlen, if_true, List.mem_append] at he
          rcases he with he | he
          · cases am with
            | true => simp at he
            | false =>
              simp at he
              exact ⟨m, caps, he, hcap⟩
          · exact ih 0 false e he
        · simp only [hlen, if_false, List.mem_cons] at he
          rcases he with he | he
          · exact ⟨m, caps, he, hcap⟩
          · exact ih _ true e he

/-- The shape of a quantize clause: the word, `to`, a token of digits and one lower-case
letter, `using`, a word of lower-case letters; the two captures are the token and that
word. -/
theorem qRe_captures (m : GoString) (caps : List GoString) (h : qRe.Captures m caps) :
    ∃ digits u word, caps = [digits ++ [u], word] ∧ digits ≠ [] ∧
      (∀ c ∈ digits, reDigit c = true) ∧ reLower u = true ∧ word ≠ [] ∧
      (∀ c ∈ word, reLower c = true) := by
  unfold qRe at h
  cases h with
  | cat _ _ _ _ _ _ h1 h2 =>
  cases h1
  cases h2 with
  | cat _ _ _ _ _ _ h1 h2 =>
  cases h1
  cases h2 with
  | cat _ _ _ _ _ _ h1 h2 =>
  cases h1
  cases h2 with
  | cat _ _ _ _ _ _ h1 h2 =>
  cases h1
  cases h2 with
  | cat _ _ _ _ _ _ h1 h2 =>
  cases h1 with
  | group _ _ _ hg =>
  cases hg with
  | cat _ _ _ _ _ _ hd hu =>
  cases hd with
  | plus _ digits hdne hdall =>
  cases hu with
  | cls _ u hu =>
  cases h2 with
  | cat _ _ _ _ _ _ h1 h2 =>
  cases h1
  cases h2 with
  | cat _ _ _ _ _ _ h1 h2 =>
  cases h1
  cases h2 with
  | cat _ _ _ _ _ _ h1 h2 =>
  cases h1
  cases h2 with
  | cat _ _ _ _ _ _ h1 h2 =>
  cases h1 with
  | group _ _ _ hg =>
  cases hg with
  | plus _ word hwne hwall =>
  cases h2 with
  | cat _ _ _ _ _ _ h1 h2 =>
  cases h1
  cases h2 with
  | optNone =>
    refine ⟨_, _, _, ?_, hdne, hdall, hu, hwne, hwall⟩
    simp
  | optSome _ _ _ h3 =>
    cases h3
    refine ⟨_, _, _, ?_, hdne, hdall, hu, hwne, hwall⟩
    simp

/-! ### The duration token -/

/-- Reading further digits does not make the accumulated number smaller. -/
theorem foldl_digits_ge (digits : GoString) : ∀ x : Nat,
    x ≤ digits.foldl (fun a c => a * 10 + (c.toNat - '0'.toNat)) x := by
  induction digits with
  | nil => intro x; simp
  | cons c cs ih =>
    intro x
    simp only [List.foldl_cons]
    exact Nat.le_trans (by omega) (ih _)

/-- The function `leadingInt` on digits followed by another character: the digits are
read as a number unless it exceeds `2 ^ 63`. -/
theorem leadingInt_digits (digits : GoString) (u : Char) (rest : GoString)
    (hu : reDigit u = false) : ∀ x : Nat, x ≤ 9223372036854775808 →
    (∀ c ∈ digits, reDigit c = true) →
    leadingInt x (digits ++ u :: rest) =
      if digits.foldl (fun a c => a * 10 + (c.toNat - '0'.toNat)) x ≤ 9223372036854775808
      then some (digits.foldl (fun a c => a * 10 + (c.toNat - '0'.toNat)) x, u :: rest)
      else none := by
  have hu' : (u < '0' ∨ u > '9') := by
    simp only [reDigit, Bool.and_eq_false_imp, decide_eq_true_eq, decide_eq_false_iff_not] at hu
    by_cases h : '0' ≤ u
    · right
      exact Char.not_le.mp (hu h)
    · left
      exact Char.not_le.mp h
  induction digits with
  | nil =>
    intro x hx _
    simp only [List.nil_append, List.foldl_nil, leadingInt]
    simp [hu', hx]
  | cons c cs ih =>
    intro x hx hd
    have hc : reDigit c = true := hd c (by simp)
    have hc' : ¬ (c < '0' ∨ c > '9') := by
      simp only [reDigit, Bool.and_eq_true, decide_eq_true_eq] at hc
      intro h
      rcases h with h | h
      · exact Char.not_le.mpr h hc.1
      · exact Char.not_le.mpr h hc.2
    simp only [List.cons_append, leadingInt, List.foldl_cons]
    have h63 : (2 : Nat) ^ 63 = 9223372036854775808 := by norm_num
    simp only [h63, Bool.or_eq_true, decide_eq_true_eq, hc', if_false]
    have hmono := foldl_digits_ge cs (x * 10 + (c.toNat - '0'.toNat))
    by_cases h1 : x > 9223372036854775808 / 10
    · rw [if_pos h1, if_neg (by omega)]
    · rw [if_neg h1]
      by_cases h2 : x * 10 + (c.toNat - '0'.toNat) > 9223372036854775808
      · simp only [h2, if_true]
        rw [if_neg (by omega)]
      · simp only [h2, if_false]
        exact ih _ (by omega) (fun d hd' => hd d (by simp [hd']))

/-- The units of one letter that `time.unitMap` knows are `s`, `m` and `h`. -/
theorem unitMap_letter (u : Char) : unitMap [u] = unitNanos u := by
  unfold unitMap unitNanos
  have e1 : "ns".toList = ['n', 's'] := rfl
  have e2 : "us".toList = ['u', 's'] := rfl
  have e3 : "µs".toList = ['µ', 's'] := rfl
  have e4 : "μs".toList = ['μ', 's'] := rfl
  have e5 : "ms".toList = ['m', 's'] := rfl
  have e6 : "s".toList = ['s'] := rfl
  have e7 : "m".toList = ['m'] := rfl
  have e8 : "h".toList = ['h'] := rfl
  simp [e1, e2, e3, e4, e5, e6, e7, e8]

/-- What `time.ParseDuration` makes of a token of digits and one lower-case letter: the
number times the unit when the letter is `s`, `m` or `h` and the product fits an `int64`,
an error otherwise. -/
theorem ParseDuration_token (digits : GoString) (u : Char) (hne : digits ≠ [])
    (hd : ∀ c ∈ digits, reDigit c = true) (hu : reLower u = true) :
    ParseDuration (digits ++ [u]) =
      match unitNanos u with
      | none => none
      | some unit =>
        if decimalValue digits * unit ≤ 9223372036854775807
        then some ((decimalValue digits * unit : Nat) : Int) else none := by
  have hud : reDigit u = false := by
    simp only [reLower, Bool.and_eq_true, decide_eq_true_eq] at hu
    simp only [reDigit, Bool.and_eq_false_imp, decide_eq_true_eq, decide_eq_false_iff_not]
    intro _ h9
    exact absurd (Char.le_trans hu.1 h9) (by decide)
  have hudot : u ≠ '.' := by
    simp only [reLower, Bool.and_eq_true, decide_eq_true_eq] at hu
    intro h
    rw [h] at hu
    exact absurd hu.1 (by decide)
  obtain ⟨c, cs, rfl⟩ := List.exists_cons_of_ne_nil hne
  have hc : reDigit c = true := hd c (by simp)
  have hlead := leadingInt_digits (c :: cs) u [] hud 0 (by omega) hd
  have hval : List.foldl (fun a c => a * 10 + (c.toNat - '0'.toNat)) 0 (c :: cs)
      = decimalValue (c :: cs) := rfl
  rw [hval] at hlead
  unfold ParseDuration
  have hs0 : (c :: cs ++ [u]) ≠ ['0'] := by
    intro h
    simp at h
  have hs1 : (c :: cs ++ [u]) ≠ [] := by simp
  rw [if_neg hs0, if_neg hs1]
  have hlen : (c :: cs ++ [u]).length = (cs.length + 1) + 1 := by simp
  rw [hlen]
  have hslen : (cs ++ [u]).length = cs.length + 1 := by simp
  simp only [List.cons_append] at hlead ⊢
  generalize cs ++ [u] = s at hlead hslen ⊢
  simp only [parseDurationLoop]
  have hfirst : (!(decide (c = '.') || (decide ('0' ≤ c) && decide (c ≤ '9')))) = false := by
    simp only [reDigit] at hc
    simp [hc]
  simp only [hfirst, Bool.false_eq_true, if_false, hlead]
  have hpred : (!(decide (u = '.') || (decide ('0' ≤ u) && decide (u ≤ '9')))) = true := by
    simp only [reDigit] at hud
    simp [hud, hudot]
  have h63 : (2 : Nat) ^ 63 = 9223372036854775808 := by norm_num
  by_cases hv : decimalValue (c :: cs) ≤ 9223372036854775808
  · simp only [hv, if_true, List.length_nil, List.length_cons, hslen]
    rw [if_neg (by omega)]
    simp only [List.takeWhile, hpred, List.dropWhile, List.length_singleton]
    rw [if_neg (by omega), unitMap_letter]
    cases hunit : unitNanos u with
    | none => rfl
    | some unit =>
      have hcases : unit = 1000000000 ∨ unit = 60000000000 ∨ unit = 3600000000000 := by
        unfold unitNanos at hunit
        split_ifs at hunit <;> simp_all
      simp only [h63, Nat.zero_add, parseDurationLoop]
      rcases hcases with rfl | rfl | rfl
      · by_cases hfit : decimalValue (c :: cs) * 1000000000 ≤ 9223372036854775807
        · rw [if_neg (by omega), if_neg (by omega)]
          simp only [if_pos hfit]
          rw [if_neg (by omega)]
        · rw [if_neg hfit]
          by_cases h1 : decimalValue (c :: cs) > 9223372036854775808 / 1000000000
          · rw [if_pos h1]
          · rw [if_neg h1]
            by_cases h2 : decimalValue (c :: cs) * 1000000000 > 9223372036854775808
            · rw [if_pos h2]
            · rw [if_neg h2]
              simp only
              rw [if_pos (by omega)]
      · by_cases hfit : decimalValue (c :: cs) * 60000000000 ≤ 9223372036854775807
        · rw [if_neg (by omega), if_neg (by omega)]
          simp only [if_pos hfit]
          rw [if_neg (by omega)]
        · rw [if_neg hfit]
          by_cases h1 : decimalValue (c :: cs) > 9223372036854775808 / 60000000000
          · rw [if_pos h1]
          · rw [if_neg h1]
            by_cases h2 : decimalValue (c :: cs) * 60000000000 > 9223372036854775808
            · rw [if_pos h2]
            · rw [if_neg h2]
              simp only
              rw [if_pos (by omega)]
      · by_cases hfit : decimalValue (c :: cs) * 3600000000000 ≤ 9223372036854775807
        · rw [if_neg (by omega), if_neg (by omega)]
          simp only [if_pos hfit]
          rw [if_neg (by omega)]
        · rw [if_neg hfit]
          by_cases h1 : decimalValue (c :: cs) > 9223372036854775808 / 3600000000000
          · rw [if_pos h1]
          · rw [if_neg h1]
            by_cases h2 : decimalValue (c :: cs) * 3600000000000 > 9223372036854775808
            · rw [if_pos h2]
            · rw [if_neg h2]
              simp only
              rw [if_pos (by omega)]
  · simp only [hv, if_false]
    cases hunit : unitNanos u with
    | none => rfl
    | some unit =>
      have hcases : unit = 1000000000 ∨ unit = 60000000000 ∨ unit = 3600000000000 := by
        unfold unitNanos at hunit
        split_ifs at hunit <;> simp_all
      simp only
      rcases hcases with rfl | rfl | rfl <;> rw [if_neg (by omega)]

/-! ### Successful returns of processQuery -/

/-- What a successful return of `processQuery` went through: the clause was found and
matched again, its two submatches were read, the first one parsed as a duration. -/
theorem processQuery_success (query : GoString) (p : QueryParts)
    (h : processQuery query = .returned p) (hok : p.err = none) :
    ∃ part tl subs stl sub1 sub2 qv,
      qRe.FindAllString query = part :: tl ∧
      qRe.FindAllStringSubmatch part = subs :: stl ∧
      subs[1]? = some sub1 ∧ subs[2]? = some sub2 ∧
      ParseDuration sub1 = some qv ∧
      p.quantizeVal = Milliseconds qv ∧ p.rollup = casesTitle sub2 := by
  unfold processQuery at h
  simp only [re_FindAllString_length] at h
  split at h
  · cases h; simp at hok
  · split at h
    · cases h
    · rename_i part tl hfind
      split at h
      · cases h; simp at hok
      · split at h
        · cases h
        · rename_i subs stl hsub
          split at h
          · cases h
          · rename_i sub1 hsub1
            split at h
            · cases h; simp at hok
            · rename_i qv hqv
              split at h
              · cases h
              · split at h
                · cases h
                · rename_i sub2 hsub2
                  simp only [Run.returned.injEq] at h
                  subst h
                  exact ⟨part, tl, subs, stl, sub1, sub2, qv, hfind, hsub, hsub1, hsub2, hqv,
                    rfl, rfl⟩

/-- The submatches of a clause: the clause, its duration token and its rollup word. -/
theorem qRe_submatches (part : GoString) (subs : List GoString) (stl : List (List GoString))
    (h : qRe.FindAllStringSubmatch part = subs :: stl) :
    ∃ m digits u word, subs = [m, digits ++ [u], word] ∧ digits ≠ [] ∧
      (∀ c ∈ digits, reDigit c = true) ∧ reLower u = true ∧ word ≠ [] ∧
      (∀ c ∈ word, reLower c = true) := by
  unfold Regex.FindAllStringSubmatch at h
  obtain ⟨m, caps, he, hcap⟩ := qRe.findAllFrom_captures part 0 false subs (by simp [h])
  obtain ⟨digits, u, word, hc, h1, h2, h3, h4, h5⟩ := qRe_captures m caps hcap
  exact ⟨m, digits, u, word, by rw [he, hc], h1, h2, h3, h4, h5⟩

/-- On success the rollup is the title-cased word of lower-case letters that follows
`using`, whatever that word is. -/
theorem processQuery_rollup (query : GoString) (p : QueryParts)
    (h : processQuery query = .returned p) (hok : p.err = none) :
    ∃ word, word ≠ [] ∧ (∀ c ∈ word, reLower c = true) ∧ p.rollup = casesTitle word := by
  obtain ⟨part, tl, subs, stl, sub1, sub2, qv, _, hsub, _, hsub2, _, _, hr⟩ :=
    processQuery_success query p h hok
  obtain ⟨m, digits, u, word, hs, _, _, _, h4, h5⟩ := qRe_submatches part subs stl hsub
  rw [hs] at hsub2
  simp only [List.getElem?_cons_succ, List.getElem?_cons_zero, Option.some.injEq] at hsub2
  subst hsub2
  exact ⟨word, h4, h5, hr⟩

/-- The duration token of a query, when there is one, is a string of digits followed by one
lower-case letter. -/
theorem durationToken_shape (query tok : GoString) (h : durationToken query = some tok) :
    ∃ digits u, tok = digits ++ [u] ∧ digits ≠ [] ∧ (∀ c ∈ digits, reDigit c = true) ∧
      reLower u = true := by
  unfold durationToken at h
  split at h
  · cases h
  · split at h
    · cases h
    · rename_i subs stl hsub
      obtain ⟨m, digits, u, word, hs, h1, h2, h3, _, _⟩ := qRe_submatches _ subs stl hsub
      rw [hs] at h
      simp only [List.getElem?_cons_succ, List.getElem?_cons_zero, Option.some.injEq] at h
      exact ⟨digits, u, h.symm, h1, h2, h3⟩

/-- A whole number of milliseconds, given in nanoseconds, is read back by `Milliseconds`. -/
theorem Milliseconds_nanos (n k : Nat) :
    Milliseconds ((n * (k * 1000000) : Nat) : Int) = (n : Int) * (k : Int) := by
  unfold Milliseconds
  have : ((n * (k * 1000000) : Nat) : Int) = ((n : Int) * (k : Int)) * 1000000 := by
    push_cast
    ring
  rw [this, Int.mul_tdiv_cancel _ (by decide)]

/-! ### Completeness of the matcher -/

/-- The greedy star accepts wherever its continuation accepts the whole input. -/
theorem starRun_fallback {α : Type} (p : Char → Bool) (k : GoString → Option α) :
    ∀ s : GoString, (k s).isSome = true → (starRun p k s).isSome = true := by
  intro s h
  cases s with
  | nil => simpa [starRun] using h
  | cons c cs =>
    simp only [starRun]
    split
    · split
      · rfl
      · exact h
    · exact h

/-- If a run of characters of the class can be consumed and the continuation accepts what
follows, the star accepts. -/
theorem starRun_complete {α : Type} (p : Char → Bool) (k : GoString → Option α)
    (rest : GoString) (hk : (k rest).isSome = true) :
    ∀ m : GoString, (∀ c ∈ m, p c = true) → (starRun p k (m ++ rest)).isSome = true := by
  intro m
  induction m with
  | nil =>
    intro _
    exact starRun_fallback p k rest hk
  | cons c cs ih =>
    intro h
    have hc : p c = true := h c (List.mem_cons_self _ _)
    have ih1 := ih (fun d hd => h d (List.mem_cons_of_mem _ hd))
    simp only [List.cons_append, starRun, hc, if_true]
    split
    · rfl
    · rename_i hnone
      have hnone1 : starRun p k (cs ++ rest) = none := hnone
      rw [hnone1] at ih1
      cases ih1

/-- Completeness of `Regex.run`: when a start of the input is in the language of `r` and the
continuation accepts the remainder with any captures, the run accepts. -/
theorem Regex.run_complete {α : Type} (r : Regex) (m : GoString) (h : r.Matches m) :
    ∀ (rest : GoString) (caps : List GoString) (k : GoString → List GoString → Option α),
      (∀ caps1, (k rest caps1).isSome = true) → (r.run (m ++ rest) caps k).isSome = true := by
  induction h with
  | lit w =>
    intro rest caps k hk
    simp only [Regex.run]
    have hp : w.isPrefixOf (w ++ rest) = true := by
      rw [List.isPrefixOf_iff_prefix]
      exact List.prefix_append _ _
    rw [if_pos hp, List.drop_left]
    exact hk caps
  | cls p c hc =>
    intro rest caps k hk
    simp only [List.singleton_append, Regex.run, hc, if_true]
    exact hk caps
  | star p m hm =>
    intro rest caps k hk
    simp only [Regex.run]
    exact starRun_complete p _ rest (hk caps) m hm
  | plus p m hne hm =>
    intro rest caps k hk
    cases m with
    | nil => exact absurd rfl hne
    | cons c cs =>
      have hc : p c = true := hm c (List.mem_cons_self _ _)
      simp only [List.cons_append, Regex.run, hc, if_true]
      exact starRun_complete p _ rest (hk caps) cs (fun d hd => hm d (List.mem_cons_of_mem _ hd))
  | optNone r =>
    intro rest caps k hk
    simp only [List.nil_append, Regex.run]
    split
    · rfl
    · exact hk caps
  | optSome r m _ ih =>
    intro rest caps k hk
    simp only [Regex.run]
    have := ih rest caps k hk
    split
    · rfl
    · rename_i hnone
      rw [hnone] at this
      cases this
  | cat a b m1 m2 _ _ ih1 ih2 =>
    intro rest caps k hk
    simp only [Regex.run, List.append_assoc]
    exact ih1 (m2 ++ rest) caps _ (fun caps1 => ih2 rest caps1 k hk)
  | group r m _ ih =>
    intro rest caps k hk
    simp only [Regex.run]
    exact ih rest caps _ (fun caps1 => hk _)

/-- A text that starts with a word of the language has an anchored match. -/
theorem Regex.matchAt_complete (r : Regex) (m rest : GoString) (h : r.Matches m) :
    (r.matchAt (m ++ rest)).isSome = true := by
  unfold Regex.matchAt
  exact r.run_complete m h rest [] _ (fun _ => rfl)

/-- A text that contains a word of the language has at least one match. -/
theorem Regex.findAllFrom_complete (r : Regex) (m post : GoString) (h : r.Matches m) :
    ∀ pre : GoString, r.findAllFrom 0 false (pre ++ (m ++ post)) ≠ [] := by
  have hm := r.matchAt_complete m post h
  intro pre
  induction pre with
  | nil =>
    simp only [List.nil_append]
    cases hs : m ++ post with
    | nil =>
      rw [hs] at hm
      simp only [Regex.findAllFrom]
      split
      · simp
      · rename_i hnone
        rw [hnone] at hm
        cases hm
    | cons c cs =>
      rw [hs] at hm
      simp only [Regex.findAllFrom]
      split
      · rename_i hnone
        rw [hnone] at hm
        cases hm
      · split <;> simp
  | cons c cs ih =>
    simp only [List.cons_append, Regex.findAllFrom]
    split
    · exact ih
    · split
      · simp only [Bool.false_eq_true, if_false, List.singleton_append, ne_eq]
        exact List.cons_ne_nil _ _
      · exact List.cons_ne_nil _ _

/-- A query that contains a clause of the required shape has a first match of `qRe`. -/
theorem qRe_FindAllString_ne_nil (pre m post : GoString) (h : qRe.Matches m) :
    qRe.FindAllString (pre ++ m ++ post) ≠ [] := by
  unfold Regex.FindAllString
  rw [List.append_assoc]
  intro hnil
  exact qRe.findAllFrom_complete m post h pre (List.map_eq_nil_iff.mp hnil)

/-- The match found in a query, searched again on its own, is found again with its two
submatches: the two indexings of `submatches` in `processQuery` are in range. -/
theorem qRe_FindAllStringSubmatch_part (query part : GoString) (tl : List GoString)
    (h : qRe.FindAllString query = part :: tl) :
    ∃ subs stl m digits u word, qRe.FindAllStringSubmatch part = subs :: stl ∧
      subs = [m, digits ++ [u], word] ∧ digits ≠ [] ∧ (∀ c ∈ digits, reDigit c = true) ∧
      reLower u = true ∧ word ≠ [] ∧ (∀ c ∈ word, reLower c = true) := by
  have hpart : qRe.Matches part := by
    unfold Regex.FindAllString at h
    cases hf : qRe.findAllFrom 0 false query with
    | nil => simp [hf] at h
    | cons e es =>
      rw [hf] at h
      simp only [List.map_cons, List.cons.injEq] at h
      obtain ⟨m, caps, he, hm, _⟩ := qRe.findAllFrom_sound query 0 false e (by simp [hf])
      rw [he] at h
      simp only [List.headD_cons] at h
      rw [← h.1]
      exact hm
  have hne := qRe.findAllFrom_complete part [] hpart []
  simp only [List.nil_append, List.append_nil] at hne
  cases hsub : qRe.FindAllStringSubmatch part with
  | nil => exact absurd hsub hne
  | cons subs stl =>
    obtain ⟨m, digits, u, word, hs, hrest⟩ := qRe_submatches part subs stl hsub
    exact ⟨subs, stl, m, digits, u, word, rfl, hs, hrest⟩

/-! ## Theorems: the rollup and the interval -/

/-- C11, the failing input: the clause `using median` has the required shape, and
`processQuery` returns the rollup name "Median", which is none of Avg, Min, Max, Sum,
Count. -/
theorem processQuery_rollup_unchecked :
    processQuery "foo | quantize to 5m using median | bar".toList =
      .returned ⟨"foo |   bar".toList, 300000, "Median".toList, none⟩ ∧
    "Median".toList ∉
      ["Avg".toList, "Min".toList, "Max".toList, "Sum".toList, "Count".toList] := by
  decide

/-- C12: on every successful return of `processQuery` the duration token of the clause is
a number `n` in decimal digits followed by one of the letters `s`, `m`, `h`, and the
interval returned is the non-negative integer `n * 1000`, `n * 60000` or `n * 3600000`
respectively; and a query whose duration token has another letter, or a duration that does
not fit an `int64` count of nanoseconds, gets an error return and no interval. -/
theorem processQuery_interval :
    (∀ (query : GoString) (p : QueryParts), processQuery query = .returned p → p.err = none →
      ∃ digits u, durationToken query = some (digits ++ [u]) ∧ digits ≠ [] ∧
        (∀ c ∈ digits, reDigit c = true) ∧ 0 ≤ p.quantizeVal ∧
        ((u = 's' ∧ p.quantizeVal = (decimalValue digits : Int) * 1000) ∨
         (u = 'm' ∧ p.quantizeVal = (decimalValue digits : Int) * 60000) ∨
         (u = 'h' ∧ p.quantizeVal = (decimalValue digits : Int) * 3600000))) ∧
    (∀ (query digits : GoString) (u : Char), durationToken query = some (digits ++ [u]) →
      ((u ≠ 's' ∧ u ≠ 'm' ∧ u ≠ 'h') ∨
        (∃ unit, unitNanos u = some unit ∧
          decimalValue digits * unit > 9223372036854775807)) →
      ∃ e, processQuery query = .returned ⟨[], 0, [], some e⟩) := by
  constructor
  · intro query p h hok
    obtain ⟨part, tl, subs, stl, sub1, sub2, qv, hfind, hsub, hsub1, _, hqv, hval, _⟩ :=
      processQuery_success query p h hok
    obtain ⟨m, digits, u, word, hs, h1, h2, h3, _, _⟩ := qRe_submatches part subs stl hsub
    have htok : durationToken query = some (digits ++ [u]) := by
      unfold durationToken
      rw [hfind]
      simp only [hsub, hs]
      rfl
    rw [hs] at hsub1
    simp only [List.getElem?_cons_succ, List.getElem?_cons_zero, Option.some.injEq] at hsub1
    subst hsub1
    rw [ParseDuration_token digits u h1 h2 h3] at hqv
    refine ⟨digits, u, htok, h1, h2, ?_⟩
    unfold unitNanos at hqv
    by_cases hus : u = 's'
    · rw [if_pos hus] at hqv
      simp only at hqv
      split at hqv
      · simp only [Option.some.injEq] at hqv
        have hms := Milliseconds_nanos (decimalValue digits) 1000
        norm_num at hms
        push_cast at hqv
        rw [hval, ← hqv, hms]
        exact ⟨by omega, Or.inl ⟨hus, rfl⟩⟩
      · cases hqv
    · rw [if_neg hus] at hqv
      by_cases hum : u = 'm'
      · rw [if_pos hum] at hqv
        simp only at hqv
        split at hqv
        · simp only [Option.some.injEq] at hqv
          have hms := Milliseconds_nanos (decimalValue digits) 60000
          norm_num at hms
          push_cast at hqv
          rw [hval, ← hqv, hms]
          exact ⟨by omega, Or.inr (Or.inl ⟨hum, rfl⟩)⟩
        · cases hqv
      · rw [if_neg hum] at hqv
        by_cases huh : u = 'h'
        · rw [if_pos huh] at hqv
          simp only at hqv
          split at hqv
          · simp only [Option.some.injEq] at hqv
            have hms := Milliseconds_nanos (decimalValue digits) 3600000
            norm_num at hms
            push_cast at hqv
            rw [hval, ← hqv, hms]
            exact ⟨by omega, Or.inr (Or.inr ⟨huh, rfl⟩)⟩
          · cases hqv
        · rw [if_neg huh] at hqv
          cases hqv
  · intro query digits u htok hbad
    obtain ⟨digits1, u1, heq, h1, h2, h3⟩ := durationToken_shape query _ htok
    have hinj := List.append_inj' heq rfl
    obtain ⟨hd, hu⟩ := hinj
    simp only [List.cons.injEq, and_true] at hu
    subst hd
    subst hu
    have hpd : ParseDuration (digits ++ [u]) = none := by
      rw [ParseDuration_token digits u h1 h2 h3]
      rcases hbad with ⟨hs, hm, hh⟩ | ⟨unit, hunit, hover⟩
      · simp [unitNanos, hs, hm, hh]
      · rw [hunit]
        simp only
        rw [if_neg (by omega)]
    unfold durationToken at htok
    unfold processQuery
    simp only [re_FindAllString_length]
    split
    · exact ⟨_, rfl⟩
    · split at htok
      · cases htok
      · rename_i part tl hfind
        split
        · exact ⟨_, rfl⟩
        · split at htok
          · cases htok
          · rename_i subs stl hsub
            simp only [htok, hpd]
            exact ⟨_, rfl⟩

/-- C12 at sample queries: five minutes are 300000 ms; the unit `x` and a number of hours
beyond the `int64` range are refused. -/
theorem processQuery_interval_witness :
    (∃ digits u, durationToken "foo | quantize to 5m using avg | bar".toList
        = some (digits ++ [u]) ∧ digits ≠ [] ∧ (∀ c ∈ digits, reDigit c = true) ∧
        (0 : Int) ≤ 300000 ∧
        ((u = 's' ∧ (300000 : Int) = (decimalValue digits : Int) * 1000) ∨
         (u = 'm' ∧ (300000 : Int) = (decimalValue digits : Int) * 60000) ∨
         (u = 'h' ∧ (300000 : Int) = (decimalValue digits : Int) * 3600000))) ∧
    (∃ e, processQuery "foo | quantize to 5x using avg | bar".toList
        = .returned ⟨[], 0, [], some e⟩) ∧
    (∃ e, processQuery "foo | quantize to 2562048h using avg | bar".toList
        = .returned ⟨[], 0, [], some e⟩) :=
  ⟨processQuery_interval.1 "foo | quantize to 5m using avg | bar".toList
      ⟨"foo |   bar".toList, 300000, "Avg".toList, none⟩ (by decide) rfl,
   processQuery_interval.2 "foo | quantize to 5x using avg | bar".toList "5".toList 'x'
      (by decide) (Or.inl (by decide)),
   processQuery_interval.2 "foo | quantize to 2562048h using avg | bar".toList
      "2562048".toList 'h' (by decide) (Or.inr ⟨3600000000000, by decide, by decide⟩)⟩

/-! ## Theorems: parseUnixTimestamp -/

/-- Each decimal digit character is in `0`..`9` and has its digit as value. -/
theorem digitChar_digit : ∀ d < 10,
    (decide ('0' ≤ Nat.digitChar d) && decide (Nat.digitChar d ≤ '9')) = true ∧
      (Nat.digitChar d).toNat - '0'.toNat = d := by
  decide

/-- Digits read after an accumulated value `a`: `a` is shifted by their number. -/
theorem foldl_digits_acc (s : GoString) : ∀ a : Nat,
    s.foldl (fun a c => a * 10 + (c.toNat - '0'.toNat)) a
      = a * 10 ^ s.length + decimalValue s := by
  unfold decimalValue
  induction s with
  | nil => intro a; simp
  | cons c cs ih =>
    intro a
    simp only [List.foldl_cons, List.length_cons, Nat.zero_mul, Nat.zero_add]
    rw [ih (a * 10 + (c.toNat - '0'.toNat)), ih (c.toNat - '0'.toNat), Nat.pow_succ]
    ring

/-- The digits that `Nat.toDigitsCore` puts before `ds` are decimal digits and spell `n`. -/
theorem toDigitsCore_spec : ∀ (fuel n : Nat) (ds : List Char), n < fuel →
    (∀ c ∈ ds, (decide ('0' ≤ c) && decide (c ≤ '9')) = true) →
    (∀ c ∈ Nat.toDigitsCore 10 fuel n ds, (decide ('0' ≤ c) && decide (c ≤ '9')) = true) ∧
    Nat.toDigitsCore 10 fuel n ds ≠ [] ∧
    decimalValue (Nat.toDigitsCore 10 fuel n ds) = n * 10 ^ ds.length + decimalValue ds := by
  intro fuel
  induction fuel with
  | zero => intro n ds h; omega
  | succ fuel ih =>
    intro n ds hn hds
    have hd := digitChar_digit (n % 10) (Nat.mod_lt n (by decide))
    have hall : ∀ c ∈ Nat.digitChar (n % 10) :: ds,
        (decide ('0' ≤ c) && decide (c ≤ '9')) = true := by
      intro c hc
      rcases List.mem_cons.mp hc with h1 | h1
      · rw [h1]; exact hd.1
      · exact hds c h1
    have hval : decimalValue (Nat.digitChar (n % 10) :: ds) =
        (n % 10) * 10 ^ ds.length + decimalValue ds := by
      have h1 := foldl_digits_acc ds ((Nat.digitChar (n % 10)).toNat - '0'.toNat)
      rw [hd.2] at h1
      rw [← h1]
      unfold decimalValue
      simp only [List.foldl_cons, Nat.zero_mul, Nat.zero_add, hd.2]
    simp only [Nat.toDigitsCore]
    split
    · rename_i h0
      refine ⟨hall, List.cons_ne_nil _ _, ?_⟩
      rw [hval]
      have : n % 10 = n := by omega
      rw [this]
    · rename_i h0
      obtain ⟨i1, i2, i3⟩ := ih (n / 10) (Nat.digitChar (n % 10) :: ds) (by omega) hall
      refine ⟨i1, i2, ?_⟩
      rw [i3, hval, List.length_cons, Nat.pow_succ]
      have hdm := Nat.div_add_mod n 10
      calc n / 10 * (10 ^ ds.length * 10) + (n % 10 * 10 ^ ds.length + decimalValue ds)
          = (10 * (n / 10) + n % 10) * 10 ^ ds.length + decimalValue ds := by ring
        _ = n * 10 ^ ds.length + decimalValue ds := by rw [hdm]

/-- The decimal string of a natural number: digits only, at least one, spelling the
number. -/
theorem toDigits_spec (n : Nat) :
    (∀ c ∈ Nat.toDigits 10 n, (decide ('0' ≤ c) && decide (c ≤ '9')) = true) ∧
    Nat.toDigits 10 n ≠ [] ∧ decimalValue (Nat.toDigits 10 n) = n := by
  obtain ⟨h1, h2, h3⟩ := toDigitsCore_spec (n + 1) n [] (by omega) (by simp)
  refine ⟨h1, h2, ?_⟩
  unfold Nat.toDigits
  rw [h3]
  simp [decimalValue]

/-- On digits whose value fits `uint64` the loop of `strconv.ParseUint` returns the value. -/
theorem parseUintLoop_digits (s : GoString) : ∀ n : Nat,
    (∀ c ∈ s, (decide ('0' ≤ c) && decide (c ≤ '9')) = true) →
    s.foldl (fun a c => a * 10 + (c.toNat - '0'.toNat)) n ≤ 18446744073709551615 →
    parseUintLoop n s = .ok (s.foldl (fun a c => a * 10 + (c.toNat - '0'.toNat)) n) := by
  induction s with
  | nil => intro n _ _; rfl
  | cons c cs ih =>
    intro n h hle
    have hc := h c (List.mem_cons_self _ _)
    have hcs := fun d hd => h d (List.mem_cons_of_mem _ hd)
    simp only [List.foldl_cons] at hle ⊢
    have hge := foldl_digits_ge cs (n * 10 + (c.toNat - '0'.toNat))
    simp only [parseUintLoop, hc, Bool.not_true, Bool.false_eq_true, if_false]
    rw [if_neg (by omega), if_neg (by omega)]
    exact ih _ hcs hle

/-- The function `strconv.ParseInt` reads back what `strconv.FormatInt` writes. -/
theorem ParseInt_FormatInt (n : Int) (hlo : -9223372036854775808 ≤ n)
    (hhi : n ≤ 9223372036854775807) : ParseInt (FormatInt n) = .ok n := by
  obtain ⟨h1, h2, h3⟩ := toDigits_spec n.natAbs
  have hv : (Nat.toDigits 10 n.natAbs).foldl (fun a c => a * 10 + (c.toNat - '0'.toNat)) 0
      = n.natAbs := h3
  have hp : ParseUint (Nat.toDigits 10 n.natAbs) = (n.natAbs, none) := by
    unfold ParseUint
    rw [if_neg h2, parseUintLoop_digits _ 0 h1 (by rw [hv]; omega), hv]
  unfold FormatInt
  by_cases hneg : n < 0
  · rw [if_pos hneg]
    have hb : ¬ n.natAbs > 9223372036854775808 := by omega
    simp only [ParseInt, decide_True, Bool.or_true, if_true, hp, reduceCtorEq,
      if_false, Bool.not_true, Bool.false_and, Bool.false_eq_true, Bool.true_and,
      decide_eq_true_eq, hb]
    congr 1
    omega
  · rw [if_neg hneg]
    cases hs : Nat.toDigits 10 n.natAbs with
    | nil => exact absurd hs h2
    | cons c cs =>
      have hc := h1 c (by rw [hs]; exact List.mem_cons_self _ _)
      have hcm : c ≠ '-' := by
        intro h; rw [h] at hc; revert hc; decide
      have hcp : c ≠ '+' := by
        intro h; rw [h] at hc; revert hc; decide
      rw [hs] at hp
      have hb : ¬ n.natAbs ≥ 9223372036854775808 := by omega
      simp only [ParseInt, hcm, hcp, decide_False, Bool.or_self, Bool.false_eq_true, if_false,
        hp, reduceCtorEq, Bool.not_false, Bool.true_and,
        Bool.false_and, decide_eq_true_eq, hb]
      congr 1
      omega

/-- After its first character, the decimal string of an integer holds digits only. -/
theorem FormatInt_tail_digits (n : Int) :
    ∀ c ∈ (FormatInt n).tail, (decide ('0' ≤ c) && decide (c ≤ '9')) = true := by
  obtain ⟨h1, _, _⟩ := toDigits_spec n.natAbs
  unfold FormatInt
  split
  · exact h1
  · intro c hc
    exact h1 c (List.mem_of_mem_tail hc)

/-- The decimal string of a number that is not negative holds digits only. -/
theorem FormatInt_digits (n : Int) (h : ¬ n < 0) :
    ∀ c ∈ FormatInt n, (decide ('0' ≤ c) && decide (c ≤ '9')) = true := by
  obtain ⟨h1, _, _⟩ := toDigits_spec n.natAbs
  unfold FormatInt
  rw [if_neg h]
  exact h1

/-- The date-time parser rejects every decimal string of an integer: the fast path at the
length or at index 4, the general path at the sign, the length or the separator. -/
theorem timeParseRFC3339_FormatInt (fastRest : GoString → Option Time)
    (parseRest : Int → GoString → Option Time) (n : Int) :
    timeParseRFC3339 fastRest parseRest (FormatInt n) = none := by
  have hfast : parseRFC3339 fastRest (FormatInt n) = none := by
    unfold parseRFC3339
    split
    · rfl
    · split
      · rfl
      · rename_i h4
        exfalso
        have h4 : (FormatInt n)[4]? = some '-' := by
          by_contra hne
          exact h4 hne
        cases hs : FormatInt n with
        | nil => rw [hs] at h4; simp at h4
        | cons c cs =>
          rw [hs] at h4
          simp only [List.getElem?_cons_succ] at h4
          have hmem : '-' ∈ (FormatInt n).tail := by
            rw [hs]
            exact List.getElem?_mem h4
          have := FormatInt_tail_digits n _ hmem
          revert this
          decide
  unfold timeParseRFC3339
  rw [hfast]
  simp only [skip, List.length_nil, skipLoop]
  split
  · rfl
  · rename_i hcond
    simp only [Bool.or_eq_true, decide_eq_true_eq, Bool.not_eq_true', not_or, not_lt,
      Bool.not_eq_false] at hcond
    have hnn : ¬ n < 0 := by
      intro hneg
      have h0 := hcond.2
      unfold isDigit FormatInt at h0
      rw [if_pos hneg] at h0
      simp only [List.getElem?_cons_zero] at h0
      revert h0
      decide
    have hdig := FormatInt_digits n hnn
    split
    · rfl
    · cases hd : List.drop 4 (FormatInt n) with
      | nil => rfl
      | cons c cs =>
        have hc := hdig c (List.mem_of_mem_drop (by rw [hd]; exact List.mem_cons_self _ _))
        have hne : c ≠ '-' := by
          intro h; rw [h] at hc; revert hc; decide
        simp only [List.length_singleton, skipLoop]
        rw [if_neg (by decide)]
        simp only [ne_eq, hne, not_false_eq_true, if_true]

/-- The time `time.Unix(n, 0)` reads back as `n`. -/
theorem timeUnix_Unix (n : Int) (hlo : -9223372036854775808 ≤ n)
    (hhi : n ≤ 9223372036854775807) : (timeUnix n).Unix = n := by
  unfold Time.Unix timeUnix wrap64 unixToInternal
  simp only
  omega

/-- Below the wrap-around of the seconds since year 1 the time `time.Unix(n, 0)` is the
instant `n` seconds from the Unix epoch. -/
theorem timeUnix_unixNanos (n : Int) (hlo : -9223372036854775808 ≤ n)
    (hhi : n ≤ 9223371974719179007) : (timeUnix n).unixNanos = n * 1000000000 := by
  unfold Time.unixNanos timeUnix
  simp only
  rw [wrap64_of_range _ (by unfold unixToInternal; omega) (by unfold unixToInternal; omega)]
  ring

/-- C13 (as amended): for every integer `n` of the `int64` range, the date-time parse that
`parseUnixTimestamp` tries first rejects the decimal string of `n`, and
`parseUnixTimestamp` returns on it, without error, the time `time.Unix(n, 0)`, whose
`Unix()` is `n` and whose nanoseconds are 0; when `n` is at most 9223371974719179007, so
that the seconds since year 1 fit `int64`, that time is the instant `n` seconds from the
Unix epoch. -/
theorem parseUnixTimestamp_decimal (fastRest : GoString → Option Time)
    (parseRest : Int → GoString → Option Time) (n : Int)
    (hlo : -9223372036854775808 ≤ n) (hhi : n ≤ 9223372036854775807) :
    timeParseRFC3339 fastRest parseRest (FormatInt n) = none ∧
    parseUnixTimestamp (timeParseRFC3339 fastRest parseRest) (FormatInt n)
      = .ok (timeUnix n) ∧
    (timeUnix n).Unix = n ∧ (timeUnix n).nsec = 0 ∧
    (n ≤ 9223371974719179007 → (timeUnix n).unixNanos = n * 1000000000) := by
  refine ⟨timeParseRFC3339_FormatInt fastRest parseRest n, ?_, timeUnix_Unix n hlo hhi, rfl,
    timeUnix_unixNanos n hlo⟩
  unfold parseUnixTimestamp
  rw [timeParseRFC3339_FormatInt fastRest parseRest n, ParseInt_FormatInt n hlo hhi]

/-- C13 (as amended) at the timestamp 1700000000, with a date-time parser that would accept
any text that has a year and a separator. -/
theorem parseUnixTimestamp_decimal_witness :
    (-9223372036854775808 : Int) ≤ 1700000000 ∧ (1700000000 : Int) ≤ 9223372036854775807 ∧
    timeParseRFC3339 (fun _ => some ⟨0, 0⟩) (fun _ _ => some ⟨0, 0⟩) (FormatInt 1700000000)
      = none ∧
    parseUnixTimestamp (timeParseRFC3339 (fun _ => some ⟨0, 0⟩) (fun _ _ => some ⟨0, 0⟩))
      (FormatInt 1700000000) = .ok (timeUnix 1700000000) ∧
    (timeUnix 1700000000).Unix = 1700000000 ∧ (timeUnix 1700000000).nsec = 0 ∧
    (timeUnix 1700000000).unixNanos = 1700000000 * 1000000000 :=
  ⟨by decide, by decide,
    (parseUnixTimestamp_decimal (fun _ => some ⟨0, 0⟩) (fun _ _ => some ⟨0, 0⟩) 1700000000
      (by decide) (by decide)).1,
    (parseUnixTimestamp_decimal (fun _ => some ⟨0, 0⟩) (fun _ _ => some ⟨0, 0⟩) 1700000000
      (by decide) (by decide)).2.1,
    (parseUnixTimestamp_decimal (fun _ => some ⟨0, 0⟩) (fun _ _ => some ⟨0, 0⟩) 1700000000
      (by decide) (by decide)).2.2.1,
    (parseUnixTimestamp_decimal (fun _ => some ⟨0, 0⟩) (fun _ _ => some ⟨0, 0⟩) 1700000000
      (by decide) (by decide)).2.2.2.1,
    (parseUnixTimestamp_decimal (fun _ => some ⟨0, 0⟩) (fun _ _ => some ⟨0, 0⟩) 1700000000
      (by decide) (by decide)).2.2.2.2 (by decide)⟩

set_option maxRecDepth 100000 in
/-- C13, counterexample: on the decimal strings of 9223371974719179008 and of
9223372036854775807 `parseUnixTimestamp` returns, without error, a time that is not the
instant that many seconds from the Unix epoch. Its count of seconds since year 1 has wrapped
around: the time lies before the epoch, and the later of the two timestamps gives a time
that is not after the earlier one of 0. -/
theorem parseUnixTimestamp_wraps :
    parseUnixTimestamp (timeParseRFC3339 (fun _ => none) (fun _ _ => none))
        (FormatInt 9223371974719179008) = .ok ⟨-9223372036854775808, 0⟩ ∧
    (⟨-9223372036854775808, 0⟩ : Time).unixNanos ≠ 9223371974719179008 * 1000000000 ∧
    parseUnixTimestamp (timeParseRFC3339 (fun _ => none) (fun _ _ => none))
        (FormatInt 9223372036854775807) = .ok ⟨-9223371974719179009, 0⟩ ∧
    (⟨-9223371974719179009, 0⟩ : Time).unixNanos ≠ 9223372036854775807 * 1000000000 ∧
    Time.Before ⟨-9223371974719179009, 0⟩ (timeUnix 0) = true ∧
    parseUnixTimestamp (timeParseRFC3339 (fun _ => none) (fun _ _ => none))
        (FormatInt 0) = .ok (timeUnix 0) :=
  ⟨rfl, by decide, rfl, by decide, by decide, rfl⟩

/-! ## Theorems: the panics of processQuery -/

/-- The only two panics of `processQuery`: the index `[0]` into an empty list of matches
(the word `quantize` is there, a clause of the required shape is not), and the index
`[len-1]` into a trimmed query that is empty. The indexings of the submatches never
panic. -/
theorem processQuery_panicked (query : GoString) (msg : String)
    (h : processQuery query = .panicked msg) :
    (qRe.FindAllString query = [] ∧ msg = indexOutOfRange 0 0) ∨
    (∃ part tl, qRe.FindAllString query = part :: tl ∧
      stringsTrimSpace (stringsReplaceAll query part [' ']) = [] ∧
      msg = indexOutOfRange (-1) 0) := by
  unfold processQuery at h
  simp only [re_FindAllString_length] at h
  split at h
  · cases h
  · split at h
    · rename_i hfind
      simp only [Run.panicked.injEq] at h
      exact Or.inl ⟨hfind, h.symm⟩
    · rename_i part tl hfind
      obtain ⟨subs, stl, m, digits, u, word, hsub, hs, _⟩ :=
        qRe_FindAllStringSubmatch_part query part tl hfind
      rw [hsub] at h
      subst hs
      simp only [List.getElem?_cons_succ, List.getElem?_cons_zero] at h
      split at h
      · cases h
      · split at h
        · cases h
        · split at h
          · rename_i hlast
            simp only [Run.panicked.injEq] at h
            exact Or.inr ⟨part, tl, hfind, List.getLast?_eq_none_iff.mp hlast, h.symm⟩
          · cases h

/-- A query that contains a clause of the required shape, and of which something other
than white space is left once the first match is replaced, gets a return from
`processQuery` (a result or an error, no panic). -/
theorem processQuery_returns (pre m post : GoString) (hm : qRe.Matches m)
    (hrest : ∀ part tl, qRe.FindAllString (pre ++ m ++ post) = part :: tl →
      stringsTrimSpace (stringsReplaceAll (pre ++ m ++ post) part [' ']) ≠ []) :
    ∃ p, processQuery (pre ++ m ++ post) = .returned p := by
  cases hp : processQuery (pre ++ m ++ post) with
  | returned p => exact ⟨p, rfl⟩
  | panicked msg =>
    rcases processQuery_panicked _ msg hp with ⟨hnil, _⟩ | ⟨part, tl, hfind, hblank, _⟩
    · exact absurd hnil (qRe_FindAllString_ne_nil pre m post hm)
    · exact absurd hblank (hrest part tl hfind)

/-- Whenever the word `quantize` occurs once, the duration of the first match is accepted
by `time.ParseDuration` and nothing but white space is left of the query once the match is
replaced, `processQuery` panics on the index `[len-1]` of the empty trimmed query. -/
theorem processQuery_blank_panics (query part tok : GoString) (tl : List GoString) (d : Int)
    (h1 : countOccurrences quantizeWord query = 1)
    (hfind : qRe.FindAllString query = part :: tl)
    (htok : durationToken query = some tok) (hd : ParseDuration tok = some d)
    (hblank : stringsTrimSpace (stringsReplaceAll query part [' ']) = []) :
    processQuery query = .panicked (indexOutOfRange (-1) 0) := by
  have hpart := (qRe_FindAllString_head query part tl hfind).1
  have hlen : part.length ≠ 0 := by
    intro h0
    have hnil : part = [] := List.length_eq_zero.mp h0
    rw [hnil] at hpart
    have := List.IsPrefix.length_le hpart
    simp [quantizeWord] at this
  obtain ⟨subs, stl, m, digits, u, word, hsub, hs, _⟩ :=
    qRe_FindAllStringSubmatch_part query part tl hfind
  unfold durationToken at htok
  rw [hfind] at htok
  simp only [hsub] at htok
  unfold processQuery
  simp only [re_FindAllString_length, h1, hfind, hsub]
  rw [if_neg (by simp), if_neg hlen]
  simp only [htok, hd, hblank]
  rfl

/-- C14, the failing input: on the query that consists of the clause alone the trimmed
query is empty, and `processQuery` panics with "index out of range [-1]". -/
theorem processQuery_clause_alone_panics :
    processQuery "quantize to 5m using avg".toList =
      .panicked "runtime error: index out of range [-1]" := by
  decide

end Sumologic
